import Mathlib

/-!
# CFG utilities of the vasm layer (`hphp/runtime/vm/jit/vasm-util.cpp`)

A shallow embedding of `splitCriticalEdges`, `dominates`, `findDominators`,
`findBackEdges` and `findLoopBlocks`, and theorems about them.

Conventions of the embedding:

* a block label (`Vlabel`) is a natural number; the invalid label `Vlabel{}` only
  occurs in dominator vectors, whose slots are `Option Nat` with `none` for it;
* vectors are lists, an out-of-range access is the fault `Fault.undefined`;
* a failed `assertx` is the fault `Fault.assertion`;
* loops whose trip count is not fixed on entry take a budget of iterations, and
  report `Fault.fuel` when it does not suffice.
-/

namespace HPHP.jit

/-! ## The embedding and the notions used in the statements -/

/-- Abnormal outcomes of a run. -/
inductive Fault
  | assertion
  | undefined
  | fuel
  deriving DecidableEq, Repr

/-- Opcode and payload of an instruction, restricted to the shapes the control-flow
utilities look at; every other instruction is `other`. -/
inductive Vop
  | jmp (target : Nat)
  | branch (targets : List Nat)
  | phidef (defs : Nat)
  | phijmp (target : Nat) (uses : Nat)
  | landingpad
  | nop
  | other (tag : Nat)
  deriving DecidableEq, Repr

/-- An instruction: opcode with payload, and the source-context token. -/
structure Vinstr where
  op : Vop
  irctx : Nat
  deriving DecidableEq, Repr

/-- A basic block. -/
structure Vblock where
  code : List Vinstr
  area_idx : Nat
  weight : Nat
  deriving DecidableEq, Repr

/-- The unit: blocks, entry label, next virtual register number, tuple table. -/
structure Vunit where
  blocks : List Vblock
  entry : Nat
  next_vr : Nat
  tuples : List (List Nat)
  deriving DecidableEq, Repr

/-- Modelled from the spec: `succs(Vinstr&)` of vasm-visit.h, the targets of an
instruction in their fixed order (section 4.1); only control transfers have any. -/
def succsOp : Vop → List Nat
  | .jmp t => [t]
  | .branch ts => ts
  | .phijmp t _ => [t]
  | _ => []

/-- Modelled from the spec: `succs(Vblock&)` of vasm-visit.h, "derived purely from the
block's terminating instruction"; an empty block has no successor. -/
def succs (b : Vblock) : List Nat :=
  match b.code.getLast? with
  | none => []
  | some i => succsOp i.op

/-- Writing through the `i`-th element of the range returned by `succs(Vinstr&)`. -/
def setTargetOp (op : Vop) (i m : Nat) : Vop :=
  match op with
  | .jmp t => if i = 0 then .jmp m else .jmp t
  | .branch ts => .branch (ts.set i m)
  | .phijmp t u => if i = 0 then .phijmp m u else .phijmp t u
  | o => o

/-- Writing through the `i`-th element of the range returned by `succs(Vblock&)`. -/
def setTargetCode : List Vinstr → Nat → Nat → List Vinstr
  | [], _, _ => []
  | [x], i, m => [{ x with op := setTargetOp x.op i m }]
  | x :: y :: rest, i, m => x :: setTargetCode (y :: rest) i m

/-- The assignment `succ = middle` on the `i`-th successor slot of block `pred`. -/
def setTarget (unit : Vunit) (pred i m : Nat) : Vunit :=
  match unit.blocks[pred]? with
  | none => unit
  | some b =>
    { unit with blocks := unit.blocks.set pred { b with code := setTargetCode b.code i m } }

/-- Modelled from the spec: `Vunit::makeReg` of vasm-unit.h, a fresh register. -/
def makeReg (unit : Vunit) : Nat × Vunit :=
  (unit.next_vr, { unit with next_vr := unit.next_vr + 1 })

/-- The loop `for (i < n) regs[i] = unit.makeReg()`. -/
def makeRegs : Nat → Vunit → List Nat × Vunit
  | 0, unit => ([], unit)
  | n + 1, unit =>
    let (r, unit1) := makeReg unit
    let (rs, unit2) := makeRegs n unit1
    (r :: rs, unit2)

/-- Modelled from the spec: `Vunit::makeTuple` of vasm-unit.h, appends the register list
to the tuple table and returns its index. -/
def makeTuple (unit : Vunit) (regs : List Nat) : Nat × Vunit :=
  (unit.tuples.length, { unit with tuples := unit.tuples ++ [regs] })

/-- Modelled from the spec: `Vunit::makeBlock` of vasm-unit.h, appends an empty block
with the given area and weight and returns its label. -/
def makeBlock (unit : Vunit) (area weight : Nat) : Nat × Vunit :=
  (unit.blocks.length,
    { unit with blocks := unit.blocks ++ [{ code := [], area_idx := area, weight := weight }] })

/-- The call `unit.blocks[label].code.emplace_back(i)`. -/
def emplaceBack (unit : Vunit) (label : Nat) (i : Vinstr) : Vunit :=
  match unit.blocks[label]? with
  | none => unit
  | some b => { unit with blocks := unit.blocks.set label { b with code := b.code ++ [i] } }

/-- Insertion into the sorted `flat_set` of catch blocks. -/
def flatInsert (x : Nat) : List Nat → List Nat
  | [] => [x]
  | y :: ys => if x < y then x :: y :: ys else if x = y then y :: ys else y :: flatInsert x ys

/-- Embedding of `forwardJmp`: fill the fresh block `middleLabel` with a jump to
`destLabel`, repeating a leading phidef or landingpad of the destination. -/
def forwardJmp (unit : Vunit) (catch_blocks : List Nat) (middleLabel destLabel : Nat) :
    Except Fault (Vunit × List Nat) :=
  match unit.blocks[middleLabel]?, unit.blocks[destLabel]? with
  | some middle, some dest =>
    match dest.code.head? with
    | none => .error .undefined
    | some headInst =>
      let irctx := headInst.irctx
      match headInst.op with
      | .phidef tuple =>
        match unit.tuples[tuple]? with
        | none => .error .undefined
        | some forwardedRegs =>
          let (regs, unit1) := makeRegs forwardedRegs.length unit
          let (t1, unit2) := makeTuple unit1 regs
          let unit3 := emplaceBack unit2 middleLabel { op := .phidef t1, irctx := irctx }
          let (t2, unit4) := makeTuple unit3 regs
          let unit5 := emplaceBack unit4 middleLabel { op := .phijmp destLabel t2, irctx := irctx }
          .ok (unit5, catch_blocks)
      | .landingpad =>
        if middle.code.isEmpty then
          let unit1 := emplaceBack unit middleLabel headInst
          .ok (emplaceBack unit1 middleLabel { op := .jmp destLabel, irctx := irctx },
               flatInsert destLabel catch_blocks)
        else .error .assertion
      | _ => .ok (emplaceBack unit middleLabel { op := .jmp destLabel, irctx := irctx },
                  catch_blocks)
  | _, _ => .error .undefined

/-- The statement `preds[succ]++` for every `succ` of a successor list. -/
def bumpPreds : List Nat → List Nat → Except Fault (List Nat)
  | [], preds => .ok preds
  | s :: ss, preds =>
    match preds[s]? with
    | none => .error .undefined
    | some c => bumpPreds ss (preds.set s (c + 1))

/-- The first loop of `splitCriticalEdges`: count the incoming edges of every block. -/
def countPreds : List Vblock → List Nat → Except Fault (List Nat)
  | [], preds => .ok preds
  | b :: bs, preds =>
    match bumpPreds (succs b) preds with
    | .error e => .error e
    | .ok preds1 => countPreds bs preds1

/-- State of the main loop of `splitCriticalEdges`. -/
structure SplitState where
  unit : Vunit
  catch_blocks : List Nat
  changed : Bool
  deriving DecidableEq, Repr

/-- One iteration of `for (auto& succ : succlist)`: the successor slot `i` of `pred`. -/
def splitEdge (preds : List Nat) (pred i : Nat) (st : SplitState) : Except Fault SplitState :=
  match st.unit.blocks[pred]? with
  | none => .error .undefined
  | some pb =>
    match (succs pb)[i]? with
    | none => .error .undefined
    | some succ =>
      match preds[succ]? with
      | none => .error .undefined
      | some c =>
        if c ≤ 1 then .ok st
        else
          match st.unit.blocks[succ]? with
          | none => .error .undefined
          | some sb =>
            let (middle, unit1) := makeBlock st.unit (max pb.area_idx sb.area_idx) sb.weight
            match forwardJmp unit1 st.catch_blocks middle succ with
            | .error e => .error e
            | .ok (unit2, catch2) =>
              .ok { unit := setTarget unit2 pred i middle, catch_blocks := catch2,
                    changed := true }

/-- The loop `for (auto& succ : succlist)` over the slots `i, i+1, ..` of `pred`,
`k` of them left. -/
def splitSuccs (preds : List Nat) (pred : Nat) : Nat → Nat → SplitState → Except Fault SplitState
  | 0, _, st => .ok st
  | k + 1, i, st =>
    match splitEdge preds pred i st with
    | .error e => .error e
    | .ok st1 => splitSuccs preds pred k (i + 1) st1

/-- Body of the loop over `pred`. -/
def splitBlock (preds : List Nat) (pred : Nat) (st : SplitState) : Except Fault SplitState :=
  match st.unit.blocks[pred]? with
  | none => .error .undefined
  | some pb =>
    let succlist := succs pb
    if succlist.length ≤ 1 then .ok st
    else splitSuccs preds pred succlist.length 0 st

/-- The loop `for (pred = 0; pred < unit.blocks.size(); pred++)`; the bound is read
again on every iteration, so blocks appended on the way are visited too. -/
def splitLoop (preds : List Nat) : Nat → Nat → SplitState → Except Fault SplitState
  | 0, pred, st => if pred < st.unit.blocks.length then .error .fuel else .ok st
  | fuel + 1, pred, st =>
    if pred < st.unit.blocks.length then
      match splitBlock preds pred st with
      | .error e => .error e
      | .ok st1 => splitLoop preds fuel (pred + 1) st1
    else .ok st

/-- The last loop of `splitCriticalEdges`: turn the hoisted landingpads into nops. -/
def removeLandingpads : List Nat → Vunit → Except Fault Vunit
  | [], unit => .ok unit
  | block :: rest, unit =>
    match unit.blocks[block]? with
    | none => .error .undefined
    | some b =>
      match b.code with
      | [] => .error .undefined
      | front :: tail =>
        if front.op = .landingpad then
          removeLandingpads rest
            { unit with blocks :=
                unit.blocks.set block { b with code := { op := .nop, irctx := 0 } :: tail } }
        else .error .assertion

/-- Embedding of `splitCriticalEdges`: the returned pair is the value of `changed` and
the unit after the call. -/
def splitCriticalEdges (fuel : Nat) (unit : Vunit) : Except Fault (Bool × Vunit) :=
  match countPreds unit.blocks (List.replicate unit.blocks.length 0) with
  | .error e => .error e
  | .ok preds =>
    match splitLoop preds fuel 0 { unit := unit, catch_blocks := [], changed := false } with
    | .error e => .error e
    | .ok st =>
      match removeLandingpads st.catch_blocks st.unit with
      | .error e => .error e
      | .ok unit1 => .ok (st.changed, unit1)

/-- Modelled from the spec: `computePreds` of vasm-visit.h (section 4.1), "built by
visiting every block's successors once and appending the source label to each target's
predecessor list"; this is the appending of source `b` for one successor list. -/
def addPreds (b : Nat) : List Nat → List (List Nat) → Except Fault (List (List Nat))
  | [], preds => .ok preds
  | s :: ss, preds =>
    match preds[s]? with
    | none => .error .undefined
    | some ps => addPreds b ss (preds.set s (ps ++ [b]))

/-- Modelled from the spec: the visit of the blocks `b, b+1, ..` by `computePreds`. -/
def computePredsFrom : Nat → List Vblock → List (List Nat) → Except Fault (List (List Nat))
  | _, [], preds => .ok preds
  | b, blk :: rest, preds =>
    match addPreds b (succs blk) preds with
    | .error e => .error e
    | .ok preds1 => computePredsFrom (b + 1) rest preds1

/-- Modelled from the spec: `computePreds` of vasm-visit.h, the predecessor table. -/
def computePreds (unit : Vunit) : Except Fault (List (List Nat)) :=
  computePredsFrom 0 unit.blocks (List.replicate unit.blocks.length [])

/-- Embedding of `dominates`: walk the dominator chain from `b2`; `fuel` bounds the
number of loop tests. -/
def dominates : Nat → Nat → Nat → List (Option Nat) → Except Fault Bool
  | 0, _, _, _ => .error .fuel
  | fuel + 1, b1, b, idoms =>
    if b = b1 then .ok true
    else
      match idoms[b]? with
      | none => .error .undefined
      | some none => .ok false
      | some (some b') => dominates fuel b1 b' idoms

/-- The loop `for (i < rpo.size()) rpoOrder[rpo[i]] = i`, from index `i` on. -/
def fillRpoOrder : Nat → List Nat → List Nat → Except Fault (List Nat)
  | _, [], rpoOrder => .ok rpoOrder
  | i, b :: rest, rpoOrder =>
    if b < rpoOrder.length then fillRpoOrder (i + 1) rest (rpoOrder.set b i)
    else .error .undefined

/-- Modelled from the spec: `dataflow_worklist::push` of util/dataflow-worklist.h, a
set of pending positions kept in increasing order (section 4.3: "the lowest-position
pending block is always processed next"); pushing beyond the capacity is a fault. -/
def worklistPush (cap : Nat) (t : Nat) (worklist : List Nat) : Except Fault (List Nat) :=
  if t < cap then .ok (flatInsert t worklist) else .error .undefined

/-- The loop `for (succ : succs(..)) worklist.push(rpoOrder[succ])`. -/
def pushSuccs (cap : Nat) (rpoOrder : List Nat) : List Nat → List Nat → Except Fault (List Nat)
  | [], worklist => .ok worklist
  | s :: ss, worklist =>
    match rpoOrder[s]? with
    | none => .error .undefined
    | some o =>
      match worklistPush cap o worklist with
      | .error e => .error e
      | .ok worklist1 => pushSuccs cap rpoOrder ss worklist1

/-- The loop `while (rpoOrder[p1] < rpoOrder[p2]) p2 = idom[p2]`; returns the last `p2`. -/
def walkUp (rpoOrder : List Nat) (idom : List (Option Nat)) :
    Nat → Nat → Nat → Except Fault Nat
  | 0, _, _ => .error .fuel
  | fuel + 1, p1, p2 =>
    match rpoOrder[p1]?, rpoOrder[p2]? with
    | some o1, some o2 =>
      if o1 < o2 then
        match idom[p2]? with
        | some (some q) => walkUp rpoOrder idom fuel p1 q
        | _ => .error .undefined
      else .ok p2
    | _, _ => .error .undefined

/-- The loop `do { walk p2 up; walk p1 up } while (p1 != p2)`; returns the common value. -/
def intersect (rpoOrder : List Nat) (idom : List (Option Nat)) :
    Nat → Nat → Nat → Except Fault Nat
  | 0, _, _ => .error .fuel
  | fuel + 1, p1, p2 =>
    match walkUp rpoOrder idom (fuel + 1) p1 p2 with
    | .error e => .error e
    | .ok p2a =>
      match walkUp rpoOrder idom (fuel + 1) p2a p1 with
      | .error e => .error e
      | .ok p1a => if p1a ≠ p2a then intersect rpoOrder idom fuel p1a p2a else .ok p1a

/-- The `std::find_if` for the first predecessor whose slot is valid; returns it with
the predecessors after it. -/
def findProcessed (idom : List (Option Nat)) : List Nat → Except Fault (Option (Nat × List Nat))
  | [] => .ok none
  | p :: ps =>
    match idom[p]? with
    | none => .error .undefined
    | some (some _) => .ok (some (p, ps))
    | some none => findProcessed idom ps

/-- The loop over the remaining predecessors, folding `intersect` into `p1`. -/
def mergePreds (fuel : Nat) (rpoOrder : List Nat) (idom : List (Option Nat)) :
    List Nat → Nat → Except Fault Nat
  | [], p1 => .ok p1
  | p2 :: ps, p1 =>
    match idom[p2]? with
    | none => .error .undefined
    | some d =>
      if p2 = p1 ∨ d = none then mergePreds fuel rpoOrder idom ps p1
      else
        match intersect rpoOrder idom fuel p1 p2 with
        | .error e => .error e
        | .ok q => mergePreds fuel rpoOrder idom ps q

/-- State of the worklist loop of `findDominators`. -/
structure DomState where
  idom : List (Option Nat)
  worklist : List Nat
  deriving DecidableEq, Repr

/-- One iteration of `while (!worklist.empty())` for the popped position `pos`. -/
def domStep (fuel : Nat) (unit : Vunit) (rpo : List Nat) (preds : List (List Nat))
    (rpoOrder : List Nat) (idom : List (Option Nat)) (pos : Nat) (worklist : List Nat) :
    Except Fault DomState :=
  match rpo[pos]? with
  | none => .error .undefined
  | some block =>
    match preds[block]? with
    | none => .error .undefined
    | some blockPreds =>
      match findProcessed idom blockPreds with
      | .error e => .error e
      | .ok none => .error .assertion
      | .ok (some (first, others)) =>
        match mergePreds fuel rpoOrder idom others first with
        | .error e => .error e
        | .ok p1 =>
          match idom[block]?, unit.blocks[block]? with
          | some d, some blk =>
            if d = none ∨ d ≠ some p1 then
              match pushSuccs rpo.length rpoOrder (succs blk) worklist with
              | .error e => .error e
              | .ok worklist1 => .ok { idom := idom.set block (some p1), worklist := worklist1 }
            else .ok { idom := idom, worklist := worklist }
          | _, _ => .error .undefined

/-- The loop `while (!worklist.empty())` of `findDominators`. -/
def domLoop (unit : Vunit) (rpo : List Nat) (preds : List (List Nat)) (rpoOrder : List Nat)
    (inner : Nat) : Nat → DomState → Except Fault (List (Option Nat))
  | 0, st => if st.worklist.isEmpty then .ok st.idom else .error .fuel
  | fuel + 1, st =>
    match st.worklist with
    | [] => .ok st.idom
    | pos :: rest =>
      match domStep inner unit rpo preds rpoOrder st.idom pos rest with
      | .error e => .error e
      | .ok st1 => domLoop unit rpo preds rpoOrder inner fuel st1

/-- Embedding of `findDominators`; `fuel` bounds the iterations of the worklist loop
and of each of the inner walks. -/
def findDominators (fuel : Nat) (unit : Vunit) (rpo : List Nat) :
    Except Fault (List (Option Nat)) :=
  if rpo.head? ≠ some unit.entry then .error .assertion
  else
    match computePreds unit with
    | .error e => .error e
    | .ok preds =>
      match fillRpoOrder 0 rpo (List.replicate unit.blocks.length 0) with
      | .error e => .error e
      | .ok rpoOrder =>
        let idom0 : List (Option Nat) := List.replicate unit.blocks.length none
        if unit.entry < idom0.length then
          let idom1 := idom0.set unit.entry (some unit.entry)
          match unit.blocks[0]? with
          | none => .error .undefined
          | some b0 =>
            match pushSuccs rpo.length rpoOrder (succs b0) [] with
            | .error e => .error e
            | .ok worklist =>
              match domLoop unit rpo preds rpoOrder fuel fuel
                  { idom := idom1, worklist := worklist } with
              | .error e => .error e
              | .ok idom2 => .ok (idom2.set unit.entry none)
        else .error .undefined

/-- The loop over the successors of `b` in `findBackEdges`. -/
def backEdgesOf (fuel : Nat) (idoms : List (Option Nat)) (seen : List Bool) (b : Nat) :
    List Nat → List (Nat × Nat) → Except Fault (List (Nat × Nat))
  | [], backEdges => .ok backEdges
  | succ :: rest, backEdges =>
    match seen[succ]? with
    | none => .error .undefined
    | some false => backEdgesOf fuel idoms seen b rest backEdges
    | some true =>
      match dominates fuel succ b idoms with
      | .error e => .error e
      | .ok false => backEdgesOf fuel idoms seen b rest backEdges
      | .ok true => backEdgesOf fuel idoms seen b rest (backEdges ++ [(b, succ)])

/-- The loop over `rpo` in `findBackEdges`. -/
def backEdgesLoop (fuel : Nat) (unit : Vunit) (idoms : List (Option Nat)) :
    List Nat → List Bool → List (Nat × Nat) → Except Fault (List (Nat × Nat))
  | [], _, backEdges => .ok backEdges
  | b :: rest, seen, backEdges =>
    match unit.blocks[b]? with
    | none => .error .undefined
    | some blk =>
      let seen1 := seen.set b true
      match backEdgesOf fuel idoms seen1 b (succs blk) backEdges with
      | .error e => .error e
      | .ok backEdges1 => backEdgesLoop fuel unit idoms rest seen1 backEdges1

/-- Embedding of `findBackEdges`; a pair is `(tail, head)`. -/
def findBackEdges (fuel : Nat) (unit : Vunit) (rpo : List Nat) (idoms : List (Option Nat)) :
    Except Fault (List (Nat × Nat)) :=
  backEdgesLoop fuel unit idoms rpo (List.replicate unit.blocks.length false) []

/-- The statement `headers[edge.second].emplace_back(edge.first)` on a map kept as an
association list. -/
def addHeader (tail head : Nat) : List (Nat × List Nat) → List (Nat × List Nat)
  | [] => [(head, [tail])]
  | (h, ts) :: rest =>
    if h = head then (h, ts ++ [tail]) :: rest else (h, ts) :: addHeader tail head rest

/-- The loop that groups the back edges by head. -/
def groupHeaders : List (Nat × Nat) → List (Nat × List Nat) → List (Nat × List Nat)
  | [], headers => headers
  | (tail, head) :: rest, headers => groupHeaders rest (addHeader tail head headers)

/-- The loop `while (!worklist.empty())` of `fillBlocks`; the head of `worklist` is the
top of the stack. -/
def fillLoop (preds : List (List Nat)) :
    Nat → List Nat → List Bool → List Nat → Except Fault (List Nat)
  | 0, worklist, _, blocks => if worklist.isEmpty then .ok blocks else .error .fuel
  | fuel + 1, worklist, visited, blocks =>
    match worklist with
    | [] => .ok blocks
    | block :: rest =>
      match visited[block]? with
      | none => .error .undefined
      | some true => fillLoop preds fuel rest visited blocks
      | some false =>
        match preds[block]? with
        | none => .error .undefined
        | some ps =>
          fillLoop preds fuel (ps.reverse ++ rest) (visited.set block true) (blocks ++ [block])

/-- The lambda `fillBlocks` of `findLoopBlocks`. -/
def fillBlocks (fuel : Nat) (unit : Vunit) (preds : List (List Nat)) (header : Nat)
    (edgePreds : List Nat) : Except Fault (List Nat) :=
  if header < unit.blocks.length then
    fillLoop preds fuel edgePreds.reverse
      ((List.replicate unit.blocks.length false).set header true) [header]
  else .error .undefined

/-- The loop `for (p : headers) loopBlocks[p.first] = fillBlocks(p.first, p.second)`. -/
def fillAll (fuel : Nat) (unit : Vunit) (preds : List (List Nat)) :
    List (Nat × List Nat) → Except Fault (List (Nat × List Nat))
  | [] => .ok []
  | (h, ts) :: rest =>
    match fillBlocks fuel unit preds h ts with
    | .error e => .error e
    | .ok blocks =>
      match fillAll fuel unit preds rest with
      | .error e => .error e
      | .ok m => .ok ((h, blocks) :: m)

/-- Embedding of `findLoopBlocks`; the returned map is an association list with one
entry per header. -/
def findLoopBlocks (fuel : Nat) (unit : Vunit) (preds : List (List Nat))
    (backEdges : List (Nat × Nat)) : Except Fault (List (Nat × List Nat)) :=
  fillAll fuel unit preds (groupHeaders backEdges [])

/-- Number of incoming edges of the label `s`: its occurrences in the successor lists
of all blocks of the unit. -/
def predCount (unit : Vunit) (s : Nat) : Nat :=
  (unit.blocks.map fun b => (succs b).count s).sum

/-- What `splitCriticalEdges` needs of its input: no block is empty, every successor
label and every tuple handle of a leading phidef is in range. -/
structure SplitReady (unit : Vunit) : Prop where
  nonempty : ∀ b ∈ unit.blocks, b.code ≠ []
  targets : ∀ b ∈ unit.blocks, ∀ s ∈ succs b, s < unit.blocks.length
  tuples : ∀ b ∈ unit.blocks, ∀ h d, b.code.head? = some h → h.op = .phidef d →
    d < unit.tuples.length

/-- The unit has an edge from a block with several successors to a block with several
incoming edges. -/
def HasCriticalEdge (unit : Vunit) : Prop :=
  ∃ b ∈ unit.blocks, 1 < (succs b).length ∧ ∃ s ∈ succs b, 1 < predCount unit s

/-- No successor of a block with several successors has several incoming edges. -/
def NoCriticalEdge (unit : Vunit) : Prop :=
  ∀ b ∈ unit.blocks, 1 < (succs b).length → ∀ s ∈ succs b, predCount unit s = 1

/-- An opcode with its targets wiped. -/
def blankOp : Vop → Vop
  | .jmp _ => .jmp 0
  | .branch ts => .branch (ts.map fun _ => 0)
  | .phijmp _ u => .phijmp 0 u
  | o => o

/-- Code with the targets of its last instruction wiped. -/
def blankCode : List Vinstr → List Vinstr
  | [] => []
  | [x] => [{ x with op := blankOp x.op }]
  | x :: y :: rest => x :: blankCode (y :: rest)

/-- A block with the targets of its terminator wiped: two blocks with the same `blank`
differ at most in where their terminators point. -/
def blank (b : Vblock) : Vblock := { b with code := blankCode b.code }

/-- The code `forwardJmp` puts into a fresh block that forwards to `dest`, whose first
instruction is `h`, when the tuple table has `ntuples` entries. -/
def fwdCode (ntuples dest : Nat) (h : Vinstr) : List Vinstr :=
  match h.op with
  | .phidef _ =>
    [{ op := .phidef ntuples, irctx := h.irctx },
     { op := .phijmp dest (ntuples + 1), irctx := h.irctx }]
  | .landingpad => [h, { op := .jmp dest, irctx := h.irctx }]
  | _ => [{ op := .jmp dest, irctx := h.irctx }]

/-- The registers `forwardJmp` allocates for a destination headed by `h`. -/
def fwdRegs (next_vr : Nat) (tuples : List (List Nat)) (h : Vinstr) : List Nat :=
  match h.op with
  | .phidef d => List.range' next_vr ((tuples[d]?).getD []).length
  | _ => []

/-- The tuples `forwardJmp` appends for a destination headed by `h`. -/
def fwdTuples (next_vr : Nat) (tuples : List (List Nat)) (h : Vinstr) : List (List Nat) :=
  match h.op with
  | .phidef _ => [fwdRegs next_vr tuples h, fwdRegs next_vr tuples h]
  | _ => []

/-- The registers bound by the leading phidef of a block, under the tuple table
`tuples`; none if the block does not start with a phidef. -/
def blockRegs (tuples : List (List Nat)) (b : Vblock) : List Nat :=
  match b.code.head? with
  | none => []
  | some h =>
    match h.op with
    | .phidef t => (tuples[t]?).getD []
    | _ => []

/-- The registers bound by the leading phidefs of a list of blocks, block after block. -/
def allRegs (tuples : List (List Nat)) : List Vblock → List Nat
  | [] => []
  | b :: bs => blockRegs tuples b ++ allRegs tuples bs

/-- The catch blocks after `forwardJmp` to `dest` headed by `h`. -/
def fwdCatch (catch_blocks : List Nat) (dest : Nat) (h : Vinstr) : List Nat :=
  match h.op with
  | .landingpad => flatInsert dest catch_blocks
  | _ => catch_blocks

/-- The first `k` iterations of the loop `for (pred = 0; pred < unit.blocks.size();
pred++)` of `splitCriticalEdges`, from the block `pred` on: `splitLoop` stopped after `k`
blocks. -/
def splitFirst (preds : List Nat) : Nat → Nat → SplitState → Except Fault SplitState
  | 0, _, st => .ok st
  | k + 1, pred, st =>
    if pred < st.unit.blocks.length then
      match splitBlock preds pred st with
      | .error e => .error e
      | .ok st1 => splitFirst preds k (pred + 1) st1
    else .ok st

/-- The states of `splitCriticalEdges` on `unit` around the visit of the successor slot
`j` of a block `P` with several successors: the state `st0` the two loops are in when
they reach that slot, after the blocks `0 .. P-1` and the slots `0 .. j-1` of `P` were
visited, and the state `st1` one iteration of the inner loop later. The unit of `st0` is
the unit before the edge of that slot is split. -/
def statesAt (unit : Vunit) (P j : Nat) : Except Fault (SplitState × SplitState) :=
  match countPreds unit.blocks (List.replicate unit.blocks.length 0) with
  | .error e => .error e
  | .ok preds =>
    match splitFirst preds P 0 { unit := unit, catch_blocks := [], changed := false } with
    | .error e => .error e
    | .ok stA =>
      match splitSuccs preds P j 0 stA with
      | .error e => .error e
      | .ok st0 =>
        match splitEdge preds P j st0 with
        | .error e => .error e
        | .ok st1 => .ok (st0, st1)

/-- The block `m` of `unit1` is the forwarding block made for the edge of the input `u`
from `p` to `s0`: its area, weight and code are those `splitCriticalEdges` gives it,
with fresh registers `vr, vr+1, ..` in the two tuples `nt` and `nt+1` when `s0` starts
with a phidef. -/
def Forwards (u unit1 : Vunit) (p m s0 : Nat) : Prop :=
  ∃ (pb0 sb0 : Vblock) (h : Vinstr) (nt vr : Nat),
    u.blocks[p]? = some pb0 ∧ u.blocks[s0]? = some sb0 ∧ sb0.code.head? = some h ∧
    u.blocks.length ≤ m ∧
    unit1.blocks[m]? = some { code := fwdCode nt s0 h,
                              area_idx := max pb0.area_idx sb0.area_idx,
                              weight := sb0.weight } ∧
    u.next_vr ≤ vr ∧ vr + (fwdRegs vr u.tuples h).length ≤ unit1.next_vr ∧
    ∀ d, h.op = .phidef d →
      d < u.tuples.length ∧ unit1.tuples[nt]? = some (fwdRegs vr u.tuples h) ∧
      unit1.tuples[nt + 1]? = some (fwdRegs vr u.tuples h)

/-- The first instruction of block `s` of the unit is a landingpad. -/
def StartsWithLandingpad (unit : Vunit) (s : Nat) : Prop :=
  ∃ (b : Vblock) (h : Vinstr), unit.blocks[s]? = some b ∧ b.code.head? = some h ∧ h.op = .landingpad

/-- Invariant of the main loop of `splitCriticalEdges` on the input `u`. -/
structure SplitInv (u : Vunit) (st : SplitState) : Prop where
  entry : st.unit.entry = u.entry
  len_le : u.blocks.length ≤ st.unit.blocks.length
  shape : ∀ p, p < u.blocks.length → (st.unit.blocks[p]?).map blank = (u.blocks[p]?).map blank
  tuples : ∃ ext, st.unit.tuples = u.tuples ++ ext
  vr_le : u.next_vr ≤ st.unit.next_vr
  count_old : ∀ x, x < u.blocks.length → predCount st.unit x = predCount u x
  count_new : ∀ m, u.blocks.length ≤ m → m < st.unit.blocks.length → predCount st.unit m = 1
  targets : ∀ b ∈ st.unit.blocks, ∀ s ∈ succs b, s < st.unit.blocks.length
  slots : ∀ (p j : Nat) (b0 : Vblock) (s0 : Nat), u.blocks[p]? = some b0 → (succs b0)[j]? = some s0 →
    ∃ b s, st.unit.blocks[p]? = some b ∧ (succs b)[j]? = some s ∧
      (s = s0 ∨ (u.blocks.length ≤ s ∧ Forwards u st.unit p s s0))
  news : ∀ m, u.blocks.length ≤ m → m < st.unit.blocks.length →
    ∃ p s0, Forwards u st.unit p m s0
  catch_sorted : st.catch_blocks.Pairwise (· < ·)
  catch_lp : ∀ s ∈ st.catch_blocks, s < u.blocks.length ∧ StartsWithLandingpad st.unit s
  catch_mem : ∀ s, s ∈ st.catch_blocks ↔
    (StartsWithLandingpad u s ∧
      ∃ (m : Nat) (mb : Vblock), u.blocks.length ≤ m ∧ st.unit.blocks[m]? = some mb ∧ succs mb = [s])
  unchanged : st.changed = false → st.unit = u ∧ st.catch_blocks = []
  grown : st.changed = true → u.blocks.length < st.unit.blocks.length
  alloc : allRegs st.unit.tuples (st.unit.blocks.drop u.blocks.length) =
    List.range' u.next_vr (st.unit.next_vr - u.next_vr)
  crit : ∀ (p j : Nat) (b0 b : Vblock) (s0 s : Nat), u.blocks[p]? = some b0 →
    (succs b0)[j]? = some s0 → st.unit.blocks[p]? = some b → (succs b)[j]? = some s → s ≠ s0 →
    1 < (succs b0).length ∧ 1 < predCount u s0

/-- The blocks before `pred` have been visited: none of them has a critical edge. -/
def Done (st : SplitState) (pred : Nat) : Prop :=
  ∀ (p : Nat) (b : Vblock), p < pred → st.unit.blocks[p]? = some b → 1 < (succs b).length →
    ∀ s ∈ succs b, predCount st.unit s ≤ 1

/-- The blocks of the input from `pred` on are still as they were. -/
def Todo (u : Vunit) (st : SplitState) (pred : Nat) : Prop :=
  ∀ p, pred ≤ p → p < u.blocks.length → st.unit.blocks[p]? = u.blocks[p]?

/-- The successor slots of `pred` before `i` have been visited. -/
def DoneSlots (st : SplitState) (pred i : Nat) : Prop :=
  ∀ (b : Vblock) (j s : Nat), st.unit.blocks[pred]? = some b → j < i → (succs b)[j]? = some s →
    predCount st.unit s ≤ 1

/-- The successor slots of `pred` from `i` on are still as they were. -/
def TodoSlots (u : Vunit) (st : SplitState) (pred i : Nat) : Prop :=
  ∀ (b b0 : Vblock), st.unit.blocks[pred]? = some b → u.blocks[pred]? = some b0 →
    (succs b).length = (succs b0).length ∧ ∀ j, i ≤ j → (succs b)[j]? = (succs b0)[j]?

/-- The block `X` is reached from the tail `T` by following predecessor lists without
ever being at the header `H`: `T` itself is not `H`, nor is any block on the way,
nor `X`. -/
inductive BackReach (preds : List (List Nat)) (H T : Nat) : Nat → Prop
  | start : T ≠ H → BackReach preds H T T
  | step {Y X : Nat} : BackReach preds H T Y → X ∈ (preds[Y]?).getD [] → X ≠ H →
      BackReach preds H T X

/-- What `findLoopBlocks` needs of its input: the predecessor table has one list per
block, and every label in it and in the back edges is a label of the unit. -/
structure LoopReady (unit : Vunit) (preds : List (List Nat)) (backEdges : List (Nat × Nat)) :
    Prop where
  size : preds.length = unit.blocks.length
  labels : ∀ ps ∈ preds, ∀ p ∈ ps, p < unit.blocks.length
  edges : ∀ e ∈ backEdges, e.1 < unit.blocks.length ∧ e.2 < unit.blocks.length

/-- Invariant of the flood fill of `fillBlocks` for the header `H` and its tails. -/
structure FillInv (n : Nat) (preds : List (List Nat)) (H : Nat) (tails : List Nat)
    (worklist : List Nat) (visited : List Bool) (blocks : List Nat) : Prop where
  len : visited.length = n
  header : H ∈ blocks
  vis_iff : ∀ X : Nat, X ∈ blocks ↔ visited[X]? = some true
  sound : ∀ X ∈ blocks, X = H ∨ ∃ T ∈ tails, BackReach preds H T X
  wl_ok : ∀ w ∈ worklist, w < n ∧ (w = H ∨ ∃ T ∈ tails, BackReach preds H T w)
  tails_in : ∀ T ∈ tails, T ∈ blocks ∨ T ∈ worklist
  closed : ∀ Y ∈ blocks, Y ≠ H → ∀ X ∈ (preds[Y]?).getD [], X ∈ blocks ∨ X ∈ worklist

/-- What of the first instruction survives the wiping of targets. -/
def headKey (code : List Vinstr) : Option (Vop × Nat) :=
  code.head?.map fun x => (blankOp x.op, x.irctx)

/-- The state after splitting the edge in slot `i` of `pred` towards `succ`, whose block
is `sb` with first instruction `h`. -/
def splitResult (st : SplitState) (pred i succ : Nat) (pb sb : Vblock) (h : Vinstr) : SplitState :=
  { unit :=
      { st.unit with
        blocks :=
          st.unit.blocks.set pred
              { pb with code := setTargetCode pb.code i st.unit.blocks.length } ++
            [{ code := fwdCode st.unit.tuples.length succ h,
               area_idx := max pb.area_idx sb.area_idx, weight := sb.weight }]
        tuples := st.unit.tuples ++ fwdTuples st.unit.next_vr st.unit.tuples h
        next_vr := st.unit.next_vr + (fwdRegs st.unit.next_vr st.unit.tuples h).length }
    catch_blocks := fwdCatch st.catch_blocks succ h
    changed := true }

/-- The counts read by the main loop are the predecessor counts of the input. -/
def CountsOf (u : Vunit) (cnt : List Nat) : Prop :=
  cnt.length = u.blocks.length ∧ ∀ x, x < u.blocks.length → cnt[x]? = some (predCount u x)

/-- The facts at hand when the edge in slot `i` of `pred`, towards `succ`, is split. -/
structure EdgeCtx (u : Vunit) (st : SplitState) (pred i succ : Nat) (pb pb0 sb sb0 : Vblock)
    (h h0 : Vinstr) : Prop where
  ready : SplitReady u
  inv : SplitInv u st
  hp : st.unit.blocks[pred]? = some pb
  hp0 : u.blocks[pred]? = some pb0
  hs : (succs pb)[i]? = some succ
  hs0 : (succs pb0)[i]? = some succ
  hsb : st.unit.blocks[succ]? = some sb
  hsb0 : u.blocks[succ]? = some sb0
  hbl : blank sb = blank sb0
  hblp : blank pb = blank pb0
  hh : sb.code.head? = some h
  hh0 : sb0.code.head? = some h0
  hi : h.irctx = h0.irctx
  ho : blankOp h.op = blankOp h0.op
  multi : 1 < (succs pb0).length
  gt : 1 < predCount u succ

/-- Everything the inner loop keeps true. -/
structure InnerInv (u : Vunit) (st : SplitState) (pred i : Nat) : Prop where
  inv : SplitInv u st
  done : Done st pred
  todo : Todo u st (pred + 1)
  doneSlots : DoneSlots st pred i
  todoSlots : TodoSlots u st pred i

/-- What the outer loop keeps true before it visits `pred`. -/
structure OuterInv (u : Vunit) (st : SplitState) (pred : Nat) : Prop where
  inv : SplitInv u st
  done : Done st pred
  todo : Todo u st pred

/-- The unit `unit1` is `unit` with the first instruction of the blocks in `cb` replaced
by a nop. -/
structure Cleaned (cb : List Nat) (unit unit1 : Vunit) : Prop where
  entry : unit1.entry = unit.entry
  tuples : unit1.tuples = unit.tuples
  next_vr : unit1.next_vr = unit.next_vr
  length : unit1.blocks.length = unit.blocks.length
  other : ∀ q : Nat, q ∉ cb → unit1.blocks[q]? = unit.blocks[q]?
  succs_eq : ∀ q : Nat, (unit1.blocks[q]?).map succs = (unit.blocks[q]?).map succs
  nop : ∀ s ∈ cb, ∃ (b : Vblock) (front : Vinstr) (tail : List Vinstr),
    unit.blocks[s]? = some b ∧ b.code = front :: tail ∧
    front.op = .landingpad ∧
    unit1.blocks[s]? = some { b with code := { op := .nop, irctx := 0 } :: tail }

/-- A unit with the critical edge `0 -> 2`: block 0 branches to 1 and 2, block 1 jumps
to 2, block 2 starts with a phidef of the two-register tuple 0. -/
def exampleUnit : Vunit :=
  { blocks :=
      [{ code := [{ op := .branch [1, 2], irctx := 5 }], area_idx := 0, weight := 1 },
       { code := [{ op := .jmp 2, irctx := 6 }], area_idx := 1, weight := 2 },
       { code := [{ op := .phidef 0, irctx := 7 }, { op := .other 1, irctx := 8 }],
         area_idx := 2, weight := 3 }]
    entry := 0
    next_vr := 10
    tuples := [[1, 2]] }

/-- What the rest of the main loop keeps of the state `ref` it is in right after the
visit of the slot `j` of the block `P`: the blocks appended so far, the tuples and
registers made so far, and the target of that slot. -/
structure Kept (n : Nat) (ref : SplitState) (P j : Nat) (st : SplitState) : Prop where
  len : ref.unit.blocks.length ≤ st.unit.blocks.length
  news : ∀ m, n ≤ m → m < ref.unit.blocks.length → st.unit.blocks[m]? = ref.unit.blocks[m]?
  tuples : ∃ ext, st.unit.tuples = ref.unit.tuples ++ ext
  vr : ref.unit.next_vr ≤ st.unit.next_vr
  slot : ∀ b, ref.unit.blocks[P]? = some b →
    ∃ b2, st.unit.blocks[P]? = some b2 ∧ (succs b2)[j]? = (succs b)[j]?

/-- A unit with two critical edges into one block: both successor slots of block 0 point
to block 1, which starts with a phidef of the two-register tuple 0. -/
def twoEdgeUnit : Vunit :=
  { blocks :=
      [{ code := [{ op := .branch [1, 1], irctx := 5 }], area_idx := 0, weight := 1 },
       { code := [{ op := .phidef 0, irctx := 7 }, { op := .other 1, irctx := 8 }],
         area_idx := 2, weight := 3 }]
    entry := 0
    next_vr := 10
    tuples := [[1, 2]] }

/-- The headers `hs` group the back edges described by `E`: one entry per head, holding
the tails of that head. -/
structure HeadersOf (E : Nat × Nat → Prop) (hs : List (Nat × List Nat)) : Prop where
  nodup : (hs.map Prod.fst).Nodup
  tails : ∀ H ts, (H, ts) ∈ hs → ∀ T, T ∈ ts ↔ E (T, H)
  keys : ∀ H ts, (H, ts) ∈ hs → ∃ T, E (T, H)
  heads : ∀ T H, E (T, H) → ∃ ts, (H, ts) ∈ hs

/-- A unit made of one block per successor list, each block holding only its
terminator; used for the control-flow graphs of the examples. -/
def unitOfSuccs (entry : Nat) (succLists : List (List Nat)) : Vunit :=
  { blocks := succLists.map fun ss =>
      { code := [{ op := .branch ss, irctx := 0 }], area_idx := 0, weight := 0 }
    entry := entry
    next_vr := 0
    tuples := [] }

/-- The single natural loop `entry -> H, H -> Body, Body -> H, H -> Exit`, with the
labels entry = 0, H = 1, Body = 2, Exit = 3. -/
def loopUnit : Vunit := unitOfSuccs 0 [[1], [2, 3], [1], []]

/-- The unit has an edge from block `a` to block `b`. -/
def hasEdge (unit : Vunit) (a b : Nat) : Bool :=
  match unit.blocks[a]? with
  | none => false
  | some blk => (succs blk).contains b

/-- The labels of `path` are joined by edges of the unit, each to the next. -/
def isPath (unit : Vunit) : List Nat → Bool
  | [] => true
  | [_] => true
  | a :: b :: rest => hasEdge unit a b && isPath unit (b :: rest)

/-- The list `path` is a control-flow path of the unit. -/
def IsPath (unit : Vunit) (path : List Nat) : Prop := isPath unit path = true

/-- There is a control-flow path from the entry to `b`. -/
def Reachable (unit : Vunit) (b : Nat) : Prop :=
  ∃ path : List Nat, path.head? = some unit.entry ∧ path.getLast? = some b ∧ IsPath unit path

/-- Every control-flow path from the entry to `b` passes through `d`. -/
def GraphDominates (unit : Vunit) (d b : Nat) : Prop :=
  ∀ path : List Nat, path.head? = some unit.entry → path.getLast? = some b →
    IsPath unit path → d ∈ path

/-- Modelled from the spec: the depth-first walk of the RPO provider (section 3,
"Reverse postorder"), which visits the successors of a block in their order and lists
a block once all its successors are done; the state is the visited set and the
postorder so far, and `fuel` bounds the depth of the walk. -/
def dfsPostorder (unit : Vunit) : Nat → Nat → List Nat × List Nat → List Nat × List Nat
  | 0, _, acc => acc
  | fuel + 1, b, (visited, post) =>
    if b ∈ visited then (visited, post)
    else
      match unit.blocks[b]? with
      | none => (visited, post)
      | some blk =>
        let acc1 := (succs blk).foldl (fun acc s => dfsPostorder unit fuel s acc)
          (b :: visited, post)
        (acc1.1, acc1.2 ++ [b])

/-- Modelled from the spec: the reverse postorder of the blocks reachable from the
entry, entry first, as the RPO provider computes it. -/
def reversePostorder (unit : Vunit) : List Nat :=
  (dfsPostorder unit (unit.blocks.length + 1) unit.entry ([], [])).2.reverse

/-- The diamond `entry -> A, entry -> B, A -> C, B -> C` with entry = 0, A = 1, B = 2,
C = 3. -/
def diamondUnit : Vunit := unitOfSuccs 0 [[1, 2], [3], [3], []]

/-- An irreducible graph on six blocks with entry 0: the cycle `4 -> 5 -> 3 -> 4` is
entered at 3 (from 0) and at 4 (from 1), and 5 leads back to 1. -/
def irreducibleUnit : Vunit := unitOfSuccs 0 [[2, 3], [4], [1], [4, 2], [5], [3, 1]]

/-- A unit whose entry is block 1: the entry jumps to block 0, which has no
successor. -/
def entryOneUnit : Vunit := unitOfSuccs 1 [[], [0]]

/-- A unit whose entry is block 1: `1 -> 3, 1 -> 2, 3 -> 0, 0 -> 2, 2 -> 0`. -/
def entryOneLoopUnit : Vunit := unitOfSuccs 1 [[2], [3, 2], [0], [0]]

/-- A unit with entry 0 and a block 1 that no path reaches. -/
def unreachableUnit : Vunit := unitOfSuccs 0 [[], []]

/-- A unit with the critical edge `0 -> 2` into a block that starts with an ordinary
instruction. -/
def plainUnit : Vunit :=
  { blocks :=
      [{ code := [{ op := .branch [1, 2], irctx := 5 }], area_idx := 3, weight := 1 },
       { code := [{ op := .jmp 2, irctx := 6 }], area_idx := 0, weight := 2 },
       { code := [{ op := .other 1, irctx := 8 }], area_idx := 1, weight := 7 }]
    entry := 0
    next_vr := 10
    tuples := [] }

/-- The label `s` of the unit `unit1`, with a label from `n` on replaced by the first
successor of its block: where a forwarding block leads. -/
def forwardTarget (n : Nat) (unit1 : Vunit) (s : Nat) : Nat :=
  if s < n then s
  else
    match unit1.blocks[s]? with
    | none => s
    | some mb => ((succs mb).head?).getD s

/-- A unit in which the landingpad block 2 is entered by the critical edge `0 -> 2` and
by the jump of block 1, which has no other successor. -/
def catchUnit : Vunit :=
  { blocks :=
      [{ code := [{ op := .branch [1, 2], irctx := 5 }], area_idx := 0, weight := 1 },
       { code := [{ op := .jmp 2, irctx := 6 }], area_idx := 0, weight := 2 },
       { code := [{ op := .landingpad, irctx := 9 }, { op := .other 1, irctx := 8 }],
         area_idx := 1, weight := 3 }]
    entry := 0
    next_vr := 10
    tuples := [] }

/-- Number of critical edges of the unit, an edge counting once for every successor slot
that holds it. -/
def criticalEdges (u : Vunit) : Nat :=
  (u.blocks.map fun b =>
    (succs b).countP fun s => decide (1 < (succs b).length ∧ 1 < predCount u s)).sum

/-- Number of critical edges of the unit into the block `S`. -/
def criticalInto (u : Vunit) (S : Nat) : Nat :=
  (u.blocks.map fun b =>
    (succs b).countP fun s => decide (s = S ∧ 1 < (succs b).length ∧ 1 < predCount u s)).sum

/-- Number of blocks of `unit1` from label `n` on that have `S` among their successors. -/
def newInto (n : Nat) (unit1 : Vunit) (S : Nat) : Nat :=
  (unit1.blocks.drop n).countP fun mb => decide (S ∈ succs mb)

/-- A landingpad occurs in the unit only as the first instruction of a block. -/
def LandingpadsFirst (unit : Vunit) : Prop :=
  ∀ b ∈ unit.blocks, ∀ (i : Nat) (x : Vinstr), b.code[i]? = some x → x.op = .landingpad → i = 0

/-- What of an instruction survives the wiping of targets. -/
def instrKey (x : Vinstr) : Vop × Nat := (blankOp x.op, x.irctx)

/-- The block with its first instruction replaced by a nop. -/
def nopHead (b : Vblock) : Vblock :=
  { b with code := { op := .nop, irctx := 0 } :: b.code.tail }

/-- The block starts with a landingpad that `splitCriticalEdges` hoists: a critical edge
of the unit leads to it. -/
def LosesLandingpad (u : Vunit) (i : Nat) (b : Vblock) : Prop :=
  (∃ h, b.code.head? = some h ∧ h.op = .landingpad) ∧ 1 ≤ criticalInto u i

/-- The statement `for (succ : succs(unit.blocks[0])) worklist.push(rpoOrder[succ])` of
`findDominators` on its own: the worklist the loop starts with. -/
def domSeed (unit : Vunit) (rpo : List Nat) (rpoOrder : List Nat) : Except Fault (List Nat) :=
  match unit.blocks[0]? with
  | none => .error .undefined
  | some b0 => pushSuccs rpo.length rpoOrder (succs b0) []

/-- A unit whose entry is block 1, which jumps to block 2; block 0 is not reachable and
has no successor. -/
def seedUnit : Vunit := unitOfSuccs 1 [[], [2], []]

/-- A unit whose entry is block 1, which jumps to block 2; block 0 is not reachable and
jumps to the entry. -/
def assertUnit : Vunit := unitOfSuccs 1 [[1], [2], []]

/-- The block `D` is on the chain of dominator links that starts at `B`: `dominates`
finds it, given enough fuel. -/
def ChainHas (idoms : List (Option Nat)) (D B : Nat) : Prop :=
  ∃ fuel, dominates fuel D B idoms = .ok true

/-- Along every edge `X -> Y` of the unit, what is on the chain of `Y`, other than `Y`
itself, is on the chain of `X`: the property of the dominator tree of a graph whose
blocks are all reachable. -/
def EdgeClosed (unit : Vunit) (idoms : List (Option Nat)) : Prop :=
  ∀ X Y D : Nat, hasEdge unit X Y = true → D ≠ Y → ChainHas idoms D Y → ChainHas idoms D X

/-- A unit with entry 0 and the loop `0 -> 1 -> 0`, which the block 2, reached by no
path from the entry, jumps into. -/
def strayUnit : Vunit := unitOfSuccs 0 [[1], [0], [1]]

/-- A unit with entry 0 and the loop `0 -> 1 -> 0` through the entry. -/
def entryLoopUnit : Vunit := unitOfSuccs 0 [[1], [0]]

/-! ## Counting predecessors -/

theorem bumpPreds_ok (ss : List Nat) : ∀ (preds : List Nat), (∀ s ∈ ss, s < preds.length) →
    ∃ preds1, bumpPreds ss preds = .ok preds1 ∧ preds1.length = preds.length ∧
      ∀ x, preds1[x]? = (preds[x]?).map (· + ss.count x) := by
  induction ss with
  | nil => intro preds _; exact ⟨preds, rfl, rfl, fun x => by cases preds[x]? <;> simp⟩
  | cons s ss ih =>
    intro preds h
    have hs : s < preds.length := h s (List.mem_cons_self _ _)
    obtain ⟨p1, h1, h2, h3⟩ := ih (preds.set s (preds[s] + 1))
      (fun t ht => by simpa using h t (List.mem_cons_of_mem _ ht))
    refine ⟨p1, ?_, by simpa using h2, fun x => ?_⟩
    · simp [bumpPreds, List.getElem?_eq_getElem hs, h1]
    · rw [h3 x, List.getElem?_set]
      by_cases hx : s = x
      · subst hx; simp [hs, List.getElem?_eq_getElem hs]; omega
      · simp [hx, List.count_cons]

theorem countPreds_ok (bs : List Vblock) : ∀ (preds : List Nat),
    (∀ b ∈ bs, ∀ s ∈ succs b, s < preds.length) →
    ∃ preds1, countPreds bs preds = .ok preds1 ∧ preds1.length = preds.length ∧
      ∀ x, preds1[x]? = (preds[x]?).map (· + (bs.map fun b => (succs b).count x).sum) := by
  induction bs with
  | nil => intro preds _; exact ⟨preds, rfl, rfl, fun x => by cases preds[x]? <;> simp⟩
  | cons b bs ih =>
    intro preds h
    obtain ⟨p1, h1, h2, h3⟩ := bumpPreds_ok (succs b) preds (h b (List.mem_cons_self _ _))
    obtain ⟨p2, k1, k2, k3⟩ := ih p1 (fun b' hb' s hs => by
      rw [h2]; exact h b' (List.mem_cons_of_mem _ hb') s hs)
    refine ⟨p2, ?_, by omega, fun x => ?_⟩
    · simp [countPreds, h1, k1]
    · rw [k3 x, h3 x]
      cases preds[x]? <;> simp
      omega

/-- The predecessor counts `splitCriticalEdges` starts from. -/
theorem countPreds_init (unit : Vunit)
    (h : ∀ b ∈ unit.blocks, ∀ s ∈ succs b, s < unit.blocks.length) :
    ∃ cnt, countPreds unit.blocks (List.replicate unit.blocks.length 0) = .ok cnt ∧
      cnt.length = unit.blocks.length ∧
      ∀ x, x < unit.blocks.length → cnt[x]? = some (predCount unit x) := by
  obtain ⟨cnt, h1, h2, h3⟩ := countPreds_ok unit.blocks (List.replicate unit.blocks.length 0)
    (by simpa using h)
  refine ⟨cnt, h1, by simpa using h2, fun x hx => ?_⟩
  rw [h3 x]
  simp [List.getElem?_replicate, hx, predCount]

/-! ## Successor lists under the elementary updates -/

theorem succsOp_setTargetOp (op : Vop) (i m : Nat) :
    succsOp (setTargetOp op i m) = (succsOp op).set i m := by
  cases op <;> simp [setTargetOp, succsOp]
  · by_cases h : i = 0
    · subst h; simp [succsOp]
    · simp [h, succsOp]
      cases i with
      | zero => exact absurd rfl h
      | succ k => simp
  · by_cases h : i = 0
    · subst h; simp [succsOp]
    · simp [h, succsOp]
      cases i with
      | zero => exact absurd rfl h
      | succ k => simp

theorem getLast?_setTargetCode (code : List Vinstr) (i m : Nat) :
    (setTargetCode code i m).getLast? =
      code.getLast?.map fun x => { x with op := setTargetOp x.op i m } := by
  induction code with
  | nil => rfl
  | cons x rest ih =>
    cases rest with
    | nil => rfl
    | cons y rest =>
      have h : setTargetCode (x :: y :: rest) i m = x :: setTargetCode (y :: rest) i m := rfl
      rw [h, List.getLast?_cons_cons]
      cases hr : setTargetCode (y :: rest) i m with
      | nil =>
        cases rest with
        | nil => simp [setTargetCode] at hr
        | cons z rest => simp [setTargetCode] at hr
      | cons a as =>
        rw [List.getLast?_cons_cons, ← hr, ih]

theorem succs_setTargetCode (b : Vblock) (i m : Nat) :
    succs { b with code := setTargetCode b.code i m } = (succs b).set i m := by
  unfold succs
  simp only [getLast?_setTargetCode]
  cases b.code.getLast? with
  | none => simp
  | some x => simp [succsOp_setTargetOp]

theorem blankOp_setTargetOp (op : Vop) (i m : Nat) : blankOp (setTargetOp op i m) = blankOp op := by
  cases op with
  | jmp t => by_cases h : i = 0 <;> simp [setTargetOp, blankOp, h]
  | branch ts => simp [setTargetOp, blankOp]
  | phijmp t u => by_cases h : i = 0 <;> simp [setTargetOp, blankOp, h]
  | phidef d => rfl
  | landingpad => rfl
  | nop => rfl
  | other t => rfl

theorem blankCode_setTargetCode (code : List Vinstr) (i m : Nat) :
    blankCode (setTargetCode code i m) = blankCode code := by
  induction code with
  | nil => rfl
  | cons x rest ih =>
    cases rest with
    | nil => simp [setTargetCode, blankCode, blankOp_setTargetOp]
    | cons y rest =>
      have h : setTargetCode (x :: y :: rest) i m = x :: setTargetCode (y :: rest) i m := rfl
      rw [h]
      cases hr : setTargetCode (y :: rest) i m with
      | nil =>
        cases rest with
        | nil => simp [setTargetCode] at hr
        | cons z rest => simp [setTargetCode] at hr
      | cons a as =>
        have h2 : blankCode (x :: a :: as) = x :: blankCode (a :: as) := rfl
        have h3 : blankCode (x :: y :: rest) = x :: blankCode (y :: rest) := rfl
        rw [h2, h3, ← hr, ih]

theorem blank_setTargetCode (b : Vblock) (i m : Nat) :
    blank { b with code := setTargetCode b.code i m } = blank b := by
  simp [blank, blankCode_setTargetCode]

theorem blankCode_eq_nil {code : List Vinstr} : blankCode code = [] ↔ code = [] := by
  cases code with
  | nil => simp [blankCode]
  | cons x rest =>
    cases rest with
    | nil => simp [blankCode]
    | cons y rest => simp [blankCode]

theorem blankCode_length (code : List Vinstr) : (blankCode code).length = code.length := by
  induction code with
  | nil => rfl
  | cons x rest ih =>
    cases rest with
    | nil => rfl
    | cons y rest =>
      have h3 : blankCode (x :: y :: rest) = x :: blankCode (y :: rest) := rfl
      rw [h3, List.length_cons, ih]; rfl

theorem blankOp_idem (op : Vop) : blankOp (blankOp op) = blankOp op := by
  cases op <;> simp [blankOp]

theorem headKey_blankCode (code : List Vinstr) : headKey (blankCode code) = headKey code := by
  cases code with
  | nil => rfl
  | cons x rest =>
    cases rest with
    | nil => simp [blankCode, headKey, blankOp_idem]
    | cons y rest => simp [blankCode, headKey]

theorem headKey_of_blank {b b0 : Vblock} (h : blank b = blank b0) :
    headKey b.code = headKey b0.code := by
  have : blankCode b.code = blankCode b0.code := by
    have := congrArg Vblock.code h
    simpa [blank] using this
  rw [← headKey_blankCode b.code, this, headKey_blankCode]

theorem code_ne_nil_of_blank {b b0 : Vblock} (h : blank b = blank b0) (h0 : b0.code ≠ []) :
    b.code ≠ [] := by
  have : blankCode b.code = blankCode b0.code := by
    have := congrArg Vblock.code h
    simpa [blank] using this
  intro hb
  rw [hb] at this
  exact h0 (blankCode_eq_nil.mp this.symm)

theorem area_of_blank {b b0 : Vblock} (h : blank b = blank b0) :
    b.area_idx = b0.area_idx ∧ b.weight = b0.weight := by
  have h1 := congrArg Vblock.area_idx h
  have h2 := congrArg Vblock.weight h
  exact ⟨by simpa [blank] using h1, by simpa [blank] using h2⟩

/-- A leading phidef or landingpad is the same instruction in two blocks that agree up
to targets. -/
theorem head_of_headKey {c c0 : List Vinstr} (hk : headKey c = headKey c0) {h0 : Vinstr}
    (h0c : c0.head? = some h0) :
    ∃ h, c.head? = some h ∧ h.irctx = h0.irctx ∧ blankOp h.op = blankOp h0.op := by
  unfold headKey at hk
  rw [h0c] at hk
  cases hc : c.head? with
  | none => rw [hc] at hk; simp at hk
  | some h =>
    rw [hc] at hk
    simp at hk
    exact ⟨h, rfl, hk.2, hk.1⟩

theorem op_eq_of_blankOp_phidef {op : Vop} {d : Nat} (h : blankOp op = blankOp (.phidef d)) :
    op = .phidef d := by
  cases op <;> simp [blankOp] at h ⊢
  exact h

theorem op_eq_of_blankOp_landingpad {op : Vop} (h : blankOp op = blankOp .landingpad) :
    op = .landingpad := by
  cases op <;> simp [blankOp] at h ⊢

theorem fwdCode_congr (n dest : Nat) {h h0 : Vinstr} (hi : h.irctx = h0.irctx)
    (ho : blankOp h.op = blankOp h0.op) : fwdCode n dest h = fwdCode n dest h0 := by
  cases h with
  | mk op ctx =>
    cases h0 with
    | mk op0 ctx0 =>
      simp at hi ho
      subst hi
      cases op0 <;> cases op <;> simp [blankOp] at ho <;> simp [fwdCode, ho]

theorem fwdRegs_congr (vr : Nat) (tuples : List (List Nat)) {h h0 : Vinstr}
    (ho : blankOp h.op = blankOp h0.op) : fwdRegs vr tuples h = fwdRegs vr tuples h0 := by
  cases h with
  | mk op ctx =>
    cases h0 with
    | mk op0 ctx0 =>
      simp at ho
      cases op0 <;> cases op <;> simp [blankOp] at ho <;> simp [fwdRegs, ho]

theorem fwdTuples_congr (vr : Nat) (tuples : List (List Nat)) {h h0 : Vinstr}
    (ho : blankOp h.op = blankOp h0.op) : fwdTuples vr tuples h = fwdTuples vr tuples h0 := by
  have hr := fwdRegs_congr vr tuples ho
  cases h with
  | mk op ctx =>
    cases h0 with
    | mk op0 ctx0 =>
      simp at ho
      cases op0 <;> cases op <;> simp [blankOp] at ho <;> simp [fwdTuples, hr]

theorem fwdCatch_congr (c : List Nat) (dest : Nat) {h h0 : Vinstr}
    (ho : blankOp h.op = blankOp h0.op) : fwdCatch c dest h = fwdCatch c dest h0 := by
  cases h with
  | mk op ctx =>
    cases h0 with
    | mk op0 ctx0 =>
      simp at ho
      cases op0 <;> cases op <;> simp [blankOp] at ho <;> simp [fwdCatch]

theorem succs_fwdCode (n dest : Nat) (h : Vinstr) (a w : Nat) :
    succs { code := fwdCode n dest h, area_idx := a, weight := w } = [dest] := by
  unfold fwdCode succs
  cases h.op <;> simp [succsOp]

/-! ## One split edge -/

theorem makeRegs_eq (n : Nat) : ∀ (unit : Vunit),
    makeRegs n unit = (List.range' unit.next_vr n, { unit with next_vr := unit.next_vr + n }) := by
  induction n with
  | zero => intro unit; rfl
  | succ n ih =>
    intro unit
    simp only [makeRegs, makeReg, ih, List.range'_succ]
    simp [Nat.add_assoc, Nat.add_comm 1 n]

theorem emplaceBack_eq (unit : Vunit) (label : Nat) (b : Vblock) (i : Vinstr)
    (h : unit.blocks[label]? = some b) :
    emplaceBack unit label i =
      { unit with blocks := unit.blocks.set label { b with code := b.code ++ [i] } } := by
  simp [emplaceBack, h]

theorem forwardJmp_ok (unit : Vunit) (catch_blocks : List Nat) (middle dest a w : Nat)
    (sb : Vblock) (h : Vinstr)
    (hm : unit.blocks[middle]? = some { code := [], area_idx := a, weight := w })
    (hd : unit.blocks[dest]? = some sb) (hh : sb.code.head? = some h)
    (ht : ∀ d, h.op = .phidef d → d < unit.tuples.length) :
    forwardJmp unit catch_blocks middle dest =
      .ok ({ unit with
              blocks := unit.blocks.set middle
                { code := fwdCode unit.tuples.length dest h, area_idx := a, weight := w }
              tuples := unit.tuples ++ fwdTuples unit.next_vr unit.tuples h
              next_vr := unit.next_vr + (fwdRegs unit.next_vr unit.tuples h).length },
           fwdCatch catch_blocks dest h) := by
  have hlt : middle < unit.blocks.length := by
    rcases List.getElem?_eq_some.mp hm with ⟨h1, _⟩; exact h1
  unfold forwardJmp
  simp only [hm, hd, hh]
  cases hop : h.op with
  | phidef d =>
    have hd2 := ht d hop
    simp only [List.getElem?_eq_getElem hd2, makeRegs_eq, makeTuple]
    simp [emplaceBack, hm, hlt, fwdCode, fwdTuples, fwdRegs, fwdCatch, hop,
      List.getElem?_eq_getElem hd2]
  | landingpad =>
    simp [emplaceBack, hm, hlt, fwdCode, fwdTuples, fwdRegs, fwdCatch, hop]
  | jmp t => simp [emplaceBack, hm, hlt, fwdCode, fwdTuples, fwdRegs, fwdCatch, hop]
  | branch ts => simp [emplaceBack, hm, hlt, fwdCode, fwdTuples, fwdRegs, fwdCatch, hop]
  | phijmp t u => simp [emplaceBack, hm, hlt, fwdCode, fwdTuples, fwdRegs, fwdCatch, hop]
  | nop => simp [emplaceBack, hm, hlt, fwdCode, fwdTuples, fwdRegs, fwdCatch, hop]
  | other t => simp [emplaceBack, hm, hlt, fwdCode, fwdTuples, fwdRegs, fwdCatch, hop]

theorem splitEdge_skip (preds : List Nat) (pred i : Nat) (st : SplitState) (pb : Vblock)
    (succ c : Nat) (hp : st.unit.blocks[pred]? = some pb) (hs : (succs pb)[i]? = some succ)
    (hc : preds[succ]? = some c) (hle : c ≤ 1) : splitEdge preds pred i st = .ok st := by
  simp [splitEdge, hp, hs, hc, hle]

theorem splitEdge_split (preds : List Nat) (pred i : Nat) (st : SplitState) (pb sb : Vblock)
    (succ c : Nat) (h : Vinstr)
    (hp : st.unit.blocks[pred]? = some pb) (hs : (succs pb)[i]? = some succ)
    (hc : preds[succ]? = some c) (hlt : 1 < c)
    (hsb : st.unit.blocks[succ]? = some sb) (hh : sb.code.head? = some h)
    (ht : ∀ d, h.op = .phidef d → d < st.unit.tuples.length) :
    splitEdge preds pred i st = .ok (splitResult st pred i succ pb sb h) := by
  have hpl : pred < st.unit.blocks.length := by
    rcases List.getElem?_eq_some.mp hp with ⟨h1, _⟩; exact h1
  have hsl : succ < st.unit.blocks.length := by
    rcases List.getElem?_eq_some.mp hsb with ⟨h1, _⟩; exact h1
  have hnle : ¬ c ≤ 1 := by omega
  unfold splitEdge
  simp only [hp, hs, hc, hnle, hsb, if_false, makeBlock]
  rw [forwardJmp_ok _ _ _ _ (max pb.area_idx sb.area_idx) sb.weight sb h
    (by simp) (by simp [List.getElem?_append_left hsl, hsb]) hh (by simpa using ht)]
  simp [splitResult, setTarget, List.getElem?_append_left hpl, hp, List.set_append, hpl]

/-! ## Auxiliary facts for the invariant -/

theorem sum_map_set {α : Type} (f : α → Nat) : ∀ (B : List α) (p : Nat) (b b1 : α),
    B[p]? = some b → ((B.set p b1).map f).sum + f b = (B.map f).sum + f b1 := by
  intro B
  induction B with
  | nil => intro p b b1 h; simp at h
  | cons a B ih =>
    intro p b b1 h
    cases p with
    | zero =>
      simp at h
      subst h
      simp [List.set]
      omega
    | succ p =>
      simp at h
      have := ih p b b1 h
      simp only [List.set, List.map_cons, List.sum_cons]
      omega

theorem count_set_add (x m : Nat) : ∀ (l : List Nat) (i a : Nat), l[i]? = some a →
    (l.set i m).count x + (if a = x then 1 else 0) = l.count x + (if m = x then 1 else 0) := by
  intro l
  induction l with
  | nil => intro i a h; simp at h
  | cons y l ih =>
    intro i a h
    cases i with
    | zero =>
      simp at h
      subst h
      simp [List.set, List.count_cons]
      omega
    | succ i =>
      simp at h
      have := ih i a h
      simp [List.set, List.count_cons]
      omega

theorem predCount_eq_zero (unit : Vunit) (x : Nat)
    (h : ∀ b ∈ unit.blocks, ∀ s ∈ succs b, s < unit.blocks.length)
    (hx : unit.blocks.length ≤ x) : predCount unit x = 0 := by
  unfold predCount
  apply List.sum_eq_zero
  intro c hc
  rcases List.mem_map.mp hc with ⟨b, hb, rfl⟩
  apply List.count_eq_zero_of_not_mem
  intro hmem
  have := h b hb x hmem
  omega

theorem predCount_pos {unit : Vunit} {b : Vblock} {s : Nat} (hb : b ∈ unit.blocks)
    (hs : s ∈ succs b) : 0 < predCount unit s := by
  unfold predCount
  have h1 : (succs b).count s ∈ unit.blocks.map fun b => (succs b).count s :=
    List.mem_map.mpr ⟨b, hb, rfl⟩
  have h2 : 0 < (succs b).count s := List.count_pos_iff.mpr hs
  have h3 := List.single_le_sum (fun _ _ => Nat.zero_le _) _ h1
  omega

theorem predCount_splitResult (st : SplitState) (pred i succ : Nat) (pb sb : Vblock) (h : Vinstr)
    (x : Nat) (hp : st.unit.blocks[pred]? = some pb) (hs : (succs pb)[i]? = some succ) :
    predCount (splitResult st pred i succ pb sb h).unit x =
      predCount st.unit x + (if x = st.unit.blocks.length then 1 else 0) := by
  unfold predCount splitResult
  simp only [List.map_append, List.sum_append, List.map_cons, List.map_nil, List.sum_cons,
    List.sum_nil, succs_fwdCode, succs_setTargetCode]
  have h1 := sum_map_set (fun b => (succs b).count x) st.unit.blocks pred pb
    { pb with code := setTargetCode pb.code i st.unit.blocks.length } hp
  simp only [succs_setTargetCode] at h1
  have h2 := count_set_add x st.unit.blocks.length (succs pb) i succ hs
  have h3 : List.count x [succ] = if succ = x then 1 else 0 := by
    by_cases hsx : succ = x
    · simp [hsx]
    · simp [hsx, List.count_cons]
  rw [h3]
  have h4 : (if st.unit.blocks.length = x then 1 else 0) =
      (if x = st.unit.blocks.length then 1 else 0) := by
    by_cases hx : x = st.unit.blocks.length
    · simp [hx]
    · have : ¬ st.unit.blocks.length = x := fun e => hx e.symm
      simp [hx, this]
  omega

theorem mem_flatInsert (x y : Nat) : ∀ (l : List Nat), y ∈ flatInsert x l ↔ y = x ∨ y ∈ l := by
  intro l
  induction l with
  | nil => simp [flatInsert]
  | cons z l ih =>
    unfold flatInsert
    by_cases h1 : x < z
    · simp [h1]
    · by_cases h2 : x = z
      · subst h2; simp
      · simp [h1, h2, ih]
        tauto

theorem pairwise_flatInsert (x : Nat) : ∀ (l : List Nat), l.Pairwise (· < ·) →
    (flatInsert x l).Pairwise (· < ·) := by
  intro l
  induction l with
  | nil => intro _; simp [flatInsert]
  | cons z l ih =>
    intro hl
    unfold flatInsert
    by_cases h1 : x < z
    · simp only [h1, if_true]
      refine List.Pairwise.cons ?_ hl
      intro a ha
      rcases List.mem_cons.mp ha with rfl | ha
      · exact h1
      · exact Nat.lt_trans h1 (List.rel_of_pairwise_cons hl ha)
    · by_cases h2 : x = z
      · simp [h2, hl]
      · simp only [h1, h2, if_false]
        refine List.Pairwise.cons ?_ (ih (List.Pairwise.of_cons hl))
        intro a ha
        rcases (mem_flatInsert x a l).mp ha with rfl | ha
        · omega
        · exact List.rel_of_pairwise_cons hl ha

theorem Forwards_mono {u unit1 unit2 : Vunit} {p m s0 : Nat} (hf : Forwards u unit1 p m s0)
    (hb : unit2.blocks[m]? = unit1.blocks[m]?)
    (ht : ∃ ext, unit2.tuples = unit1.tuples ++ ext)
    (hv : unit1.next_vr ≤ unit2.next_vr) : Forwards u unit2 p m s0 := by
  obtain ⟨pb0, sb0, h, nt, vr, h1, h2, h3, h4, h5, h6, h7, h8⟩ := hf
  obtain ⟨ext, hext⟩ := ht
  refine ⟨pb0, sb0, h, nt, vr, h1, h2, h3, h4, by rw [hb]; exact h5, h6, by omega, ?_⟩
  intro d hd
  obtain ⟨k1, k2, k3⟩ := h8 d hd
  have l1 : nt < unit1.tuples.length := (List.getElem?_eq_some.mp k2).1
  have l2 : nt + 1 < unit1.tuples.length := (List.getElem?_eq_some.mp k3).1
  refine ⟨k1, ?_, ?_⟩
  · rw [hext, List.getElem?_append_left l1]; exact k2
  · rw [hext, List.getElem?_append_left l2]; exact k3

theorem succs_of_Forwards {u unit1 : Vunit} {p m s0 : Nat} (hf : Forwards u unit1 p m s0) :
    ∃ mb, unit1.blocks[m]? = some mb ∧ succs mb = [s0] := by
  obtain ⟨pb0, sb0, h, nt, vr, _, _, _, _, h5, _⟩ := hf
  exact ⟨_, h5, succs_fwdCode _ _ _ _ _⟩

/-! ## The blocks after one split -/

theorem splitResult_length (st : SplitState) (pred i succ : Nat) (pb sb : Vblock) (h : Vinstr) :
    (splitResult st pred i succ pb sb h).unit.blocks.length = st.unit.blocks.length + 1 := by
  simp [splitResult]

theorem splitResult_get_other (st : SplitState) (pred i succ : Nat) (pb sb : Vblock) (h : Vinstr)
    (q : Nat) (hq : q < st.unit.blocks.length) (hne : q ≠ pred) :
    (splitResult st pred i succ pb sb h).unit.blocks[q]? = st.unit.blocks[q]? := by
  simp only [splitResult]
  rw [List.getElem?_append_left (by simpa using hq), List.getElem?_set_ne (Ne.symm hne)]

theorem splitResult_get_pred (st : SplitState) (pred i succ : Nat) (pb sb : Vblock) (h : Vinstr)
    (hp : pred < st.unit.blocks.length) :
    (splitResult st pred i succ pb sb h).unit.blocks[pred]? =
      some { pb with code := setTargetCode pb.code i st.unit.blocks.length } := by
  simp only [splitResult]
  rw [List.getElem?_append_left (by simpa using hp), List.getElem?_set_self hp]

theorem splitResult_get_new (st : SplitState) (pred i succ : Nat) (pb sb : Vblock) (h : Vinstr) :
    (splitResult st pred i succ pb sb h).unit.blocks[st.unit.blocks.length]? =
      some { code := fwdCode st.unit.tuples.length succ h,
             area_idx := max pb.area_idx sb.area_idx, weight := sb.weight } := by
  simp only [splitResult]
  rw [List.getElem?_append_right (by simp)]
  simp

theorem splitResult_mem (st : SplitState) (pred i succ : Nat) (pb sb : Vblock) (h : Vinstr)
    (b : Vblock) (hb : b ∈ (splitResult st pred i succ pb sb h).unit.blocks) :
    b ∈ st.unit.blocks ∨ b = { pb with code := setTargetCode pb.code i st.unit.blocks.length } ∨
      b = { code := fwdCode st.unit.tuples.length succ h,
            area_idx := max pb.area_idx sb.area_idx, weight := sb.weight } := by
  simp only [splitResult, List.mem_append, List.mem_singleton] at hb
  rcases hb with hb | hb
  · rcases List.mem_or_eq_of_mem_set hb with h1 | h1
    · exact Or.inl h1
    · exact Or.inr (Or.inl h1)
  · exact Or.inr (Or.inr hb)

theorem fwdRegs_prefix (vr : Nat) (tuples ext : List (List Nat)) (h : Vinstr)
    (hd : ∀ d, h.op = .phidef d → d < tuples.length) :
    fwdRegs vr (tuples ++ ext) h = fwdRegs vr tuples h := by
  unfold fwdRegs
  cases hop : h.op <;> simp
  rename_i d
  rw [List.getElem?_append_left (hd d hop)]

theorem fwdRegs_length_of_not_phidef (vr : Nat) (tuples : List (List Nat)) (h : Vinstr)
    (hn : ∀ d, h.op ≠ .phidef d) : fwdRegs vr tuples h = [] := by
  unfold fwdRegs
  cases hop : h.op <;> simp
  exact absurd hop (hn _)

theorem mem_of_getElem? {α : Type} {l : List α} {i : Nat} {a : α} (h : l[i]? = some a) : a ∈ l :=
  List.mem_iff_getElem?.mpr ⟨i, h⟩

theorem lt_of_getElem? {α : Type} {l : List α} {i : Nat} {a : α} (h : l[i]? = some a) :
    i < l.length := (List.getElem?_eq_some.mp h).1

/-! ## The registers bound by the forwarding blocks -/

theorem allRegs_append (tuples : List (List Nat)) : ∀ (l1 l2 : List Vblock),
    allRegs tuples (l1 ++ l2) = allRegs tuples l1 ++ allRegs tuples l2 := by
  intro l1
  induction l1 with
  | nil => intro l2; rfl
  | cons b l1 ih => intro l2; simp [allRegs, ih]

theorem allRegs_congr (t1 t2 : List (List Nat)) : ∀ (l : List Vblock),
    (∀ b ∈ l, blockRegs t1 b = blockRegs t2 b) → allRegs t1 l = allRegs t2 l := by
  intro l
  induction l with
  | nil => intro _; rfl
  | cons b l ih =>
    intro h
    simp only [allRegs]
    rw [h b (List.mem_cons_self _ _), ih (fun x hx => h x (List.mem_cons_of_mem _ hx))]

theorem fwdRegs_eq_range (vr : Nat) (tuples : List (List Nat)) (h : Vinstr) :
    fwdRegs vr tuples h = List.range' vr (fwdRegs vr tuples h).length := by
  unfold fwdRegs
  cases h.op <;> simp

/-- The registers bound by a fresh forwarding block are the ones `forwardJmp` made. -/
theorem blockRegs_fwdCode (vr : Nat) (tuples : List (List Nat)) (succ : Nat) (h : Vinstr)
    (a w : Nat) :
    blockRegs (tuples ++ fwdTuples vr tuples h)
      { code := fwdCode tuples.length succ h, area_idx := a, weight := w } =
      fwdRegs vr tuples h := by
  unfold blockRegs fwdCode fwdTuples
  cases hop : h.op with
  | phidef d =>
    have e : (tuples ++ [fwdRegs vr tuples h, fwdRegs vr tuples h])[tuples.length]? =
        some (fwdRegs vr tuples h) := by
      rw [List.getElem?_append_right (Nat.le_refl _)]
      simp
    simp only [List.head?_cons]
    rw [e]
    rfl
  | landingpad => simp [fwdRegs, hop]
  | jmp t => simp [fwdRegs, hop]
  | branch ts => simp [fwdRegs, hop]
  | phijmp t us => simp [fwdRegs, hop]
  | nop => simp [fwdRegs, hop]
  | other tag => simp [fwdRegs, hop]

/-- The registers bound by a forwarding block do not depend on tuples added later. -/
theorem blockRegs_of_Forwards {u unit1 : Vunit} {p m s0 : Nat} (hf : Forwards u unit1 p m s0)
    (b : Vblock) (hb : unit1.blocks[m]? = some b) (ext : List (List Nat)) :
    blockRegs (unit1.tuples ++ ext) b = blockRegs unit1.tuples b := by
  obtain ⟨pb0, sb0, h, nt, vr, _, _, _, _, h5, _, _, h8⟩ := hf
  rw [hb] at h5
  cases h5
  unfold blockRegs fwdCode
  cases hop : h.op with
  | phidef d =>
    obtain ⟨_, k2, _⟩ := h8 d hop
    have l1 : nt < unit1.tuples.length := (List.getElem?_eq_some.mp k2).1
    simp [List.getElem?_append_left l1]
  | landingpad => simp [hop]
  | jmp t => simp
  | branch ts => simp
  | phijmp t us => simp
  | nop => simp
  | other tag => simp

theorem mem_drop_get {α : Type} {l : List α} {n : Nat} {a : α} (h : a ∈ l.drop n) :
    ∃ m, n ≤ m ∧ l[m]? = some a := by
  obtain ⟨i, hi⟩ := List.mem_iff_getElem?.mp h
  rw [List.getElem?_drop] at hi
  exact ⟨n + i, by omega, hi⟩

/-! ## The invariant is kept by one iteration of the inner loop -/

theorem shape_get {u : Vunit} {st : SplitState} (hinv : SplitInv u st) {p : Nat} {b0 : Vblock}
    (h0 : u.blocks[p]? = some b0) : ∃ b, st.unit.blocks[p]? = some b ∧ blank b = blank b0 := by
  have hp := lt_of_getElem? h0
  have := hinv.shape p hp
  rw [h0] at this
  cases hb : st.unit.blocks[p]? with
  | none => rw [hb] at this; simp at this
  | some b =>
    rw [hb] at this
    simp at this
    exact ⟨b, rfl, this⟩

theorem splitEdge_skip_inv (u : Vunit) (cnt : List Nat) (hcnt : CountsOf u cnt)
    (st : SplitState) (pred i : Nat) (hinv : SplitInv u st)
    (hds : DoneSlots st pred i) (hts : TodoSlots u st pred i)
    (pb : Vblock) (hp : st.unit.blocks[pred]? = some pb) (succ : Nat)
    (hs : (succs pb)[i]? = some succ) (hsn : succ < u.blocks.length)
    (hle : predCount u succ ≤ 1) :
    splitEdge cnt pred i st = .ok st ∧ DoneSlots st pred (i + 1) ∧ TodoSlots u st pred (i + 1) := by
  refine ⟨splitEdge_skip cnt pred i st pb succ _ hp hs (hcnt.2 succ hsn) hle, ?_, ?_⟩
  · intro b j s hb hj hsj
    by_cases hji : j < i
    · exact hds b j s hb hji hsj
    · have : j = i := by omega
      subst this
      rw [hp] at hb
      cases hb
      rw [hs] at hsj
      cases hsj
      rw [hinv.count_old succ hsn]
      exact hle
  · intro b b0 hb hb0
    obtain ⟨h1, h2⟩ := hts b b0 hb hb0
    exact ⟨h1, fun j hj => h2 j (by omega)⟩

section
variable {u : Vunit} {st : SplitState} {pred i succ : Nat} {pb pb0 sb sb0 : Vblock}
  {h h0 : Vinstr}

theorem EdgeCtx.pred_lt (c : EdgeCtx u st pred i succ pb pb0 sb sb0 h h0) :
    pred < u.blocks.length := lt_of_getElem? c.hp0

theorem EdgeCtx.pred_lt_len (c : EdgeCtx u st pred i succ pb pb0 sb sb0 h h0) :
    pred < st.unit.blocks.length := lt_of_getElem? c.hp

theorem EdgeCtx.succ_lt (c : EdgeCtx u st pred i succ pb pb0 sb sb0 h h0) :
    succ < u.blocks.length := lt_of_getElem? c.hsb0

theorem EdgeCtx.succ_lt_len (c : EdgeCtx u st pred i succ pb pb0 sb sb0 h h0) :
    succ < st.unit.blocks.length := lt_of_getElem? c.hsb

theorem EdgeCtx.phidef_lt (c : EdgeCtx u st pred i succ pb pb0 sb sb0 h h0) (d : Nat)
    (hd : h0.op = .phidef d) : d < u.tuples.length :=
  c.ready.tuples sb0 (mem_of_getElem? c.hsb0) h0 d c.hh0 hd

theorem EdgeCtx.op_phidef (c : EdgeCtx u st pred i succ pb pb0 sb sb0 h h0) (d : Nat)
    (hd : h.op = .phidef d) : h0.op = .phidef d := by
  have := c.ho
  rw [hd] at this
  exact op_eq_of_blankOp_phidef this.symm

theorem EdgeCtx.op_landingpad (c : EdgeCtx u st pred i succ pb pb0 sb sb0 h h0) :
    h.op = .landingpad ↔ h0.op = .landingpad := by
  have := c.ho
  constructor
  · intro hd
    rw [hd] at this
    exact op_eq_of_blankOp_landingpad this.symm
  · intro hd
    rw [hd] at this
    exact op_eq_of_blankOp_landingpad this

theorem EdgeCtx.regs_eq (c : EdgeCtx u st pred i succ pb pb0 sb sb0 h h0) (vr : Nat) :
    fwdRegs vr st.unit.tuples h = fwdRegs vr u.tuples h0 := by
  obtain ⟨ext, hext⟩ := c.inv.tuples
  rw [fwdRegs_congr vr st.unit.tuples c.ho, hext, fwdRegs_prefix vr u.tuples ext h0 c.phidef_lt]

theorem EdgeCtx.split_ok (c : EdgeCtx u st pred i succ pb pb0 sb sb0 h h0) (cnt : List Nat)
    (hcnt : CountsOf u cnt) (hgt : 1 < predCount u succ) :
    splitEdge cnt pred i st = .ok (splitResult st pred i succ pb sb h) := by
  refine splitEdge_split cnt pred i st pb sb succ _ h c.hp c.hs (hcnt.2 succ c.succ_lt) hgt
    c.hsb c.hh ?_
  intro d hd
  obtain ⟨ext, hext⟩ := c.inv.tuples
  have := c.phidef_lt d (c.op_phidef d hd)
  rw [hext, List.length_append]
  omega

theorem EdgeCtx.forwards_new (c : EdgeCtx u st pred i succ pb pb0 sb sb0 h h0) :
    Forwards u (splitResult st pred i succ pb sb h).unit pred st.unit.blocks.length succ := by
  refine ⟨pb0, sb0, h0, st.unit.tuples.length, st.unit.next_vr, c.hp0, c.hsb0, c.hh0,
    c.inv.len_le, ?_, c.inv.vr_le, ?_, ?_⟩
  · rw [splitResult_get_new, fwdCode_congr _ _ c.hi c.ho, (area_of_blank c.hblp).1,
      (area_of_blank c.hbl).1, (area_of_blank c.hbl).2]
  · simp only [splitResult]
    rw [c.regs_eq]
  · intro d hd
    refine ⟨c.phidef_lt d hd, ?_, ?_⟩
    · simp only [splitResult]
      rw [List.getElem?_append_right (Nat.le_refl _)]
      have : h.op = .phidef d := op_eq_of_blankOp_phidef (by rw [c.ho, hd])
      simp [fwdTuples, this, c.regs_eq]
    · simp only [splitResult]
      rw [List.getElem?_append_right (Nat.le_succ _)]
      have : h.op = .phidef d := op_eq_of_blankOp_phidef (by rw [c.ho, hd])
      simp [fwdTuples, this, c.regs_eq]

theorem EdgeCtx.forwards_old (c : EdgeCtx u st pred i succ pb pb0 sb sb0 h h0) {p m s0 : Nat}
    (hf : Forwards u st.unit p m s0) :
    Forwards u (splitResult st pred i succ pb sb h).unit p m s0 := by
  have hm : u.blocks.length ≤ m := by
    obtain ⟨_, _, _, _, _, _, _, _, h4, _⟩ := hf; exact h4
  have hml : m < st.unit.blocks.length := by
    obtain ⟨_, _, _, _, _, _, _, _, _, h5, _⟩ := hf; exact lt_of_getElem? h5
  refine Forwards_mono hf ?_ ⟨_, rfl⟩ (by simp [splitResult])
  exact splitResult_get_other st pred i succ pb sb h m hml (by have := c.pred_lt; omega)

end

section
variable {u : Vunit} {st : SplitState} {pred i succ : Nat} {pb pb0 sb sb0 : Vblock}
  {h h0 : Vinstr}

theorem setTargetOp_of_no_succs (op : Vop) (i m : Nat) (h : succsOp op = []) :
    setTargetOp op i m = op := by
  cases op <;> simp [setTargetOp, succsOp] at h ⊢
  subst h
  simp

theorem head?_setTargetCode (code : List Vinstr) (i m : Nat) (x : Vinstr)
    (hx : code.head? = some x) (hn : succsOp x.op = []) :
    (setTargetCode code i m).head? = some x := by
  cases code with
  | nil => simp at hx
  | cons a rest =>
    simp at hx
    subst hx
    cases rest with
    | nil => simp [setTargetCode, setTargetOp_of_no_succs _ _ _ hn]
    | cons y rest => simp [setTargetCode]

theorem EdgeCtx.starts_kept (c : EdgeCtx u st pred i succ pb pb0 sb sb0 h h0) (s : Nat)
    (hs : StartsWithLandingpad st.unit s) :
    StartsWithLandingpad (splitResult st pred i succ pb sb h).unit s := by
  obtain ⟨b, x, hb, hx, hop⟩ := hs
  by_cases hsp : s = pred
  · subst hsp
    rw [c.hp] at hb
    cases hb
    refine ⟨_, x, splitResult_get_pred st s i succ pb sb h c.pred_lt_len, ?_, hop⟩
    exact head?_setTargetCode _ _ _ x hx (by simp [hop, succsOp])
  · refine ⟨b, x, ?_, hx, hop⟩
    rw [splitResult_get_other st pred i succ pb sb h s (lt_of_getElem? hb) hsp]
    exact hb

theorem EdgeCtx.count_eq (c : EdgeCtx u st pred i succ pb pb0 sb sb0 h h0) (x : Nat)
    (hx : x < st.unit.blocks.length) :
    predCount (splitResult st pred i succ pb sb h).unit x = predCount st.unit x := by
  rw [predCount_splitResult st pred i succ pb sb h x c.hp c.hs]
  have : x ≠ st.unit.blocks.length := by omega
  simp [this]

theorem EdgeCtx.count_new (c : EdgeCtx u st pred i succ pb pb0 sb sb0 h h0) :
    predCount (splitResult st pred i succ pb sb h).unit st.unit.blocks.length = 1 := by
  rw [predCount_splitResult st pred i succ pb sb h _ c.hp c.hs,
    predCount_eq_zero st.unit _ c.inv.targets (Nat.le_refl _)]
  simp

theorem mem_fwdCatch (cb : List Nat) (succ : Nat) (h : Vinstr) (s : Nat) :
    s ∈ fwdCatch cb succ h ↔ (s ∈ cb ∨ (s = succ ∧ h.op = .landingpad)) := by
  unfold fwdCatch
  cases hop : h.op <;> simp [mem_flatInsert]
  tauto

theorem EdgeCtx.inv_split (c : EdgeCtx u st pred i succ pb pb0 sb sb0 h h0) :
    SplitInv u (splitResult st pred i succ pb sb h) where
  entry := by simp [splitResult, c.inv.entry]
  len_le := by rw [splitResult_length]; have := c.inv.len_le; omega
  shape := by
    intro p hp
    by_cases hpp : p = pred
    · subst hpp
      rw [splitResult_get_pred st p i succ pb sb h c.pred_lt_len]
      have := c.inv.shape p hp
      rw [c.hp] at this
      rw [← this]
      simp [blank_setTargetCode]
    · rw [splitResult_get_other st pred i succ pb sb h p (by have := c.inv.len_le; omega) hpp]
      exact c.inv.shape p hp
  tuples := by
    obtain ⟨ext, hext⟩ := c.inv.tuples
    exact ⟨ext ++ fwdTuples st.unit.next_vr st.unit.tuples h, by simp [splitResult, hext]⟩
  vr_le := by simp only [splitResult]; have := c.inv.vr_le; omega
  count_old := by
    intro x hx
    rw [c.count_eq x (by have := c.inv.len_le; omega)]
    exact c.inv.count_old x hx
  count_new := by
    intro m hm hml
    rw [splitResult_length] at hml
    by_cases hmm : m = st.unit.blocks.length
    · subst hmm; exact c.count_new
    · rw [c.count_eq m (by omega)]
      exact c.inv.count_new m hm (by omega)
  targets := by
    intro b hb s hs
    rw [splitResult_length]
    rcases splitResult_mem st pred i succ pb sb h b hb with h1 | h1 | h1
    · have := c.inv.targets b h1 s hs; omega
    · subst h1
      rw [succs_setTargetCode] at hs
      rcases List.mem_or_eq_of_mem_set hs with h2 | h2
      · have := c.inv.targets pb (mem_of_getElem? c.hp) s h2; omega
      · omega
    · subst h1
      rw [succs_fwdCode] at hs
      simp at hs
      subst hs
      have := c.succ_lt_len; omega
  slots := by
    intro p j b0 s0 hb0 hs0
    obtain ⟨b, s, hb, hs, hor⟩ := c.inv.slots p j b0 s0 hb0 hs0
    have hor2 : s = s0 ∨ (u.blocks.length ≤ s ∧
        Forwards u (splitResult st pred i succ pb sb h).unit p s s0) := by
      rcases hor with h1 | ⟨h1, h2⟩
      · exact Or.inl h1
      · exact Or.inr ⟨h1, c.forwards_old h2⟩
    by_cases hpp : p = pred
    · subst hpp
      rw [c.hp] at hb
      cases hb
      rw [c.hp0] at hb0
      cases hb0
      have hg := splitResult_get_pred st p i succ pb sb h c.pred_lt_len
      by_cases hji : j = i
      · subst hji
        rw [c.hs0] at hs0
        cases hs0
        refine ⟨_, st.unit.blocks.length, hg, ?_, Or.inr ⟨c.inv.len_le, c.forwards_new⟩⟩
        rw [succs_setTargetCode, List.getElem?_set_self (lt_of_getElem? hs)]
      · refine ⟨_, s, hg, ?_, hor2⟩
        rw [succs_setTargetCode, List.getElem?_set_ne (Ne.symm hji)]
        exact hs
    · refine ⟨b, s, ?_, hs, hor2⟩
      rw [splitResult_get_other st pred i succ pb sb h p (lt_of_getElem? hb) hpp]
      exact hb
  news := by
    intro m hm hml
    rw [splitResult_length] at hml
    by_cases hmm : m = st.unit.blocks.length
    · subst hmm
      exact ⟨pred, succ, c.forwards_new⟩
    · obtain ⟨p, s0, hf⟩ := c.inv.news m hm (by omega)
      exact ⟨p, s0, c.forwards_old hf⟩
  catch_sorted := by
    simp only [splitResult, fwdCatch]
    cases h.op <;> simp [c.inv.catch_sorted]
    exact pairwise_flatInsert _ _ c.inv.catch_sorted
  catch_lp := by
    intro s hs
    have hs2 : s ∈ fwdCatch st.catch_blocks succ h := hs
    rcases (mem_fwdCatch _ _ _ s).mp hs2 with h1 | ⟨h1, h2⟩
    · obtain ⟨k1, k2⟩ := c.inv.catch_lp s h1
      exact ⟨k1, c.starts_kept s k2⟩
    · subst h1
      exact ⟨c.succ_lt, c.starts_kept s ⟨sb, h, c.hsb, c.hh, h2⟩⟩
  catch_mem := by
    intro s
    have hiff : s ∈ (splitResult st pred i succ pb sb h).catch_blocks ↔
        (s ∈ st.catch_blocks ∨ (s = succ ∧ h.op = .landingpad)) := mem_fwdCatch _ _ _ s
    rw [hiff]
    constructor
    · rintro (h1 | ⟨h1, h2⟩)
      · obtain ⟨k1, m, mb, k2, k3, k4⟩ := (c.inv.catch_mem s).mp h1
        refine ⟨k1, m, mb, k2, ?_, k4⟩
        rw [splitResult_get_other st pred i succ pb sb h m (lt_of_getElem? k3)
          (by have := c.pred_lt; omega)]
        exact k3
      · subst h1
        exact ⟨⟨sb0, h0, c.hsb0, c.hh0, c.op_landingpad.mp h2⟩, st.unit.blocks.length, _,
          c.inv.len_le, splitResult_get_new st pred i s pb sb h, succs_fwdCode _ _ _ _ _⟩
    · rintro ⟨k1, m, mb, k2, k3, k4⟩
      have hml := lt_of_getElem? k3
      rw [splitResult_length] at hml
      by_cases hmm : m = st.unit.blocks.length
      · subst hmm
        rw [splitResult_get_new] at k3
        cases k3
        rw [succs_fwdCode] at k4
        simp at k4
        subst k4
        obtain ⟨b, x, hb, hx, hop⟩ := k1
        rw [c.hsb0] at hb
        cases hb
        rw [c.hh0] at hx
        cases hx
        exact Or.inr ⟨rfl, c.op_landingpad.mpr hop⟩
      · rw [splitResult_get_other st pred i succ pb sb h m (by omega)
          (by have := c.pred_lt; omega)] at k3
        exact Or.inl ((c.inv.catch_mem s).mpr ⟨k1, m, mb, k2, k3, k4⟩)
  unchanged := by intro hc; simp [splitResult] at hc
  grown := by intro _; rw [splitResult_length]; have := c.inv.len_le; omega
  alloc := by
    have hn := c.inv.len_le
    have hv := c.inv.vr_le
    have hd : (splitResult st pred i succ pb sb h).unit.blocks.drop u.blocks.length =
        st.unit.blocks.drop u.blocks.length ++
          [Vblock.mk (fwdCode st.unit.tuples.length succ h) (max pb.area_idx sb.area_idx)
            sb.weight] := by
      simp only [splitResult]
      rw [List.drop_append_of_le_length (by rw [List.length_set]; exact hn),
        List.drop_set_of_lt _ _ c.pred_lt]
    have h1 : allRegs (splitResult st pred i succ pb sb h).unit.tuples
        (st.unit.blocks.drop u.blocks.length) =
        allRegs st.unit.tuples (st.unit.blocks.drop u.blocks.length) := by
      apply allRegs_congr
      intro b hb
      obtain ⟨m, hm, hbm⟩ := mem_drop_get hb
      obtain ⟨p, s0, hf⟩ := c.inv.news m hm (lt_of_getElem? hbm)
      exact blockRegs_of_Forwards hf b hbm _
    have h2 : allRegs (splitResult st pred i succ pb sb h).unit.tuples
        [Vblock.mk (fwdCode st.unit.tuples.length succ h) (max pb.area_idx sb.area_idx)
            sb.weight] = fwdRegs st.unit.next_vr st.unit.tuples h := by
      simp only [allRegs, List.append_nil]
      exact blockRegs_fwdCode _ _ _ _ _ _
    have h3 := fwdRegs_eq_range st.unit.next_vr st.unit.tuples h
    rw [hd, allRegs_append, h1, h2, c.inv.alloc]
    have h4 : (splitResult st pred i succ pb sb h).unit.next_vr =
        st.unit.next_vr + (fwdRegs st.unit.next_vr st.unit.tuples h).length := rfl
    rw [h4]
    generalize (fwdRegs st.unit.next_vr st.unit.tuples h).length = L at h3 ⊢
    rw [h3]
    obtain ⟨k, hk⟩ : ∃ k, st.unit.next_vr = u.next_vr + k :=
      ⟨st.unit.next_vr - u.next_vr, by omega⟩
    rw [hk, Nat.add_sub_cancel_left, List.range'_append_1]
    congr 1
    omega
  crit := by
    intro p j b0 b s0 s hb0 hs0 hb hs hne
    by_cases hpp : p = pred
    · subst hpp
      rw [splitResult_get_pred st p i succ pb sb h c.pred_lt_len] at hb
      cases hb
      rw [c.hp0] at hb0
      cases hb0
      rw [succs_setTargetCode] at hs
      by_cases hji : j = i
      · subst hji
        rw [c.hs0] at hs0
        cases hs0
        exact ⟨c.multi, c.gt⟩
      · rw [List.getElem?_set_ne (Ne.symm hji)] at hs
        exact c.inv.crit p j _ pb s0 s c.hp0 hs0 c.hp hs hne
    · rw [splitResult_get_other st pred i succ pb sb h p (lt_of_getElem? hb0 |> fun k =>
        Nat.lt_of_lt_of_le k c.inv.len_le) hpp] at hb
      exact c.inv.crit p j b0 b s0 s hb0 hs0 hb hs hne

end

section
variable {u : Vunit} {st : SplitState} {pred i succ : Nat} {pb pb0 sb sb0 : Vblock}
  {h h0 : Vinstr}

theorem EdgeCtx.done_split (c : EdgeCtx u st pred i succ pb pb0 sb sb0 h h0)
    (hd : Done st pred) : Done (splitResult st pred i succ pb sb h) pred := by
  intro p b hp hb hlen s hs
  have hpl : p < st.unit.blocks.length := by have := c.pred_lt_len; omega
  rw [splitResult_get_other st pred i succ pb sb h p hpl (by omega)] at hb
  rw [c.count_eq s (c.inv.targets b (mem_of_getElem? hb) s hs)]
  exact hd p b hp hb hlen s hs

theorem EdgeCtx.todo_split (c : EdgeCtx u st pred i succ pb pb0 sb sb0 h h0)
    (hd : Todo u st (pred + 1)) : Todo u (splitResult st pred i succ pb sb h) (pred + 1) := by
  intro p hp hpn
  rw [splitResult_get_other st pred i succ pb sb h p (by have := c.inv.len_le; omega) (by omega)]
  exact hd p hp hpn

theorem EdgeCtx.doneSlots_split (c : EdgeCtx u st pred i succ pb pb0 sb sb0 h h0)
    (hd : DoneSlots st pred i) : DoneSlots (splitResult st pred i succ pb sb h) pred (i + 1) := by
  intro b j s hb hj hs
  rw [splitResult_get_pred st pred i succ pb sb h c.pred_lt_len] at hb
  cases hb
  rw [succs_setTargetCode] at hs
  by_cases hji : j = i
  · subst hji
    rw [List.getElem?_set_self (lt_of_getElem? c.hs)] at hs
    cases hs
    rw [c.count_new]
  · rw [List.getElem?_set_ne (Ne.symm hji)] at hs
    rw [c.count_eq s (c.inv.targets pb (mem_of_getElem? c.hp) s (mem_of_getElem? hs))]
    exact hd pb j s c.hp (by omega) hs

theorem EdgeCtx.todoSlots_split (c : EdgeCtx u st pred i succ pb pb0 sb sb0 h h0)
    (hd : TodoSlots u st pred i) :
    TodoSlots u (splitResult st pred i succ pb sb h) pred (i + 1) := by
  intro b b0 hb hb0
  rw [splitResult_get_pred st pred i succ pb sb h c.pred_lt_len] at hb
  cases hb
  obtain ⟨h1, h2⟩ := hd pb b0 c.hp hb0
  rw [succs_setTargetCode]
  refine ⟨by simpa using h1, fun j hj => ?_⟩
  rw [List.getElem?_set_ne (by omega)]
  exact h2 j (by omega)

end

/-- One iteration of the inner loop runs without fault and keeps the invariant. -/
theorem splitEdge_inv (u : Vunit) (hu : SplitReady u) (cnt : List Nat) (hcnt : CountsOf u cnt)
    (st : SplitState) (pred i : Nat) (hI : InnerInv u st pred i)
    (pb0 : Vblock) (hp0 : u.blocks[pred]? = some pb0) (hi : i < (succs pb0).length)
    (hm : 1 < (succs pb0).length) :
    ∃ st1, splitEdge cnt pred i st = .ok st1 ∧ InnerInv u st1 pred (i + 1) := by
  obtain ⟨pb, hp, hblp⟩ := shape_get hI.inv hp0
  obtain ⟨hlen, hslots⟩ := hI.todoSlots pb pb0 hp hp0
  have hs0 : (succs pb0)[i]? = some (succs pb0)[i] := List.getElem?_eq_getElem hi
  have hs : (succs pb)[i]? = some (succs pb0)[i] := by rw [hslots i (Nat.le_refl _)]; exact hs0
  have hsn : (succs pb0)[i] < u.blocks.length :=
    hu.targets pb0 (mem_of_getElem? hp0) _ (List.getElem_mem _)
  by_cases hle : predCount u (succs pb0)[i] ≤ 1
  · obtain ⟨k1, k2, k3⟩ := splitEdge_skip_inv u cnt hcnt st pred i hI.inv hI.doneSlots
      hI.todoSlots pb hp _ hs hsn hle
    exact ⟨st, k1, ⟨hI.inv, hI.done, hI.todo, k2, k3⟩⟩
  · have hsb0 : u.blocks[(succs pb0)[i]]? = some u.blocks[(succs pb0)[i]] :=
      List.getElem?_eq_getElem hsn
    obtain ⟨sb, hsb, hbl⟩ := shape_get hI.inv hsb0
    have hne := hu.nonempty _ (mem_of_getElem? hsb0)
    obtain ⟨h0, hh0⟩ : ∃ h0, (u.blocks[(succs pb0)[i]]).code.head? = some h0 := by
      cases hc : (u.blocks[(succs pb0)[i]]).code with
      | nil => exact absurd hc hne
      | cons a l => exact ⟨a, rfl⟩
    obtain ⟨h, hh, hirc, hop⟩ := head_of_headKey (headKey_of_blank hbl) hh0
    have c : EdgeCtx u st pred i (succs pb0)[i] pb pb0 sb _ h h0 :=
      ⟨hu, hI.inv, hp, hp0, hs, hs0, hsb, hsb0, hbl, hblp, hh, hh0, hirc, hop, hm, by omega⟩
    exact ⟨_, c.split_ok cnt hcnt (by omega),
      ⟨c.inv_split, c.done_split hI.done, c.todo_split hI.todo,
        c.doneSlots_split hI.doneSlots, c.todoSlots_split hI.todoSlots⟩⟩

/-- The inner loop over the slots `i .. i+k-1` runs without fault and keeps the
invariant. -/
theorem splitSuccs_inv (u : Vunit) (hu : SplitReady u) (cnt : List Nat) (hcnt : CountsOf u cnt)
    (pred : Nat) (pb0 : Vblock) (hp0 : u.blocks[pred]? = some pb0)
    (hm : 1 < (succs pb0).length) :
    ∀ (k i : Nat) (st : SplitState), InnerInv u st pred i → i + k ≤ (succs pb0).length →
      ∃ st1, splitSuccs cnt pred k i st = .ok st1 ∧ InnerInv u st1 pred (i + k) := by
  intro k
  induction k with
  | zero => intro i st hI _; exact ⟨st, rfl, hI⟩
  | succ k ih =>
    intro i st hI hik
    obtain ⟨st1, h1, hI1⟩ := splitEdge_inv u hu cnt hcnt st pred i hI pb0 hp0 (by omega) hm
    obtain ⟨st2, h2, hI2⟩ := ih (i + 1) st1 hI1 (by omega)
    refine ⟨st2, ?_, ?_⟩
    · simp [splitSuccs, h1, h2]
    · have : i + (k + 1) = i + 1 + k := by omega
      rw [this]; exact hI2

/-- The body of the outer loop, on a block of the input. -/
theorem splitBlock_inv (u : Vunit) (hu : SplitReady u) (cnt : List Nat) (hcnt : CountsOf u cnt)
    (st : SplitState) (pred : Nat) (hO : OuterInv u st pred) (hp : pred < u.blocks.length) :
    ∃ st1, splitBlock cnt pred st = .ok st1 ∧ OuterInv u st1 (pred + 1) := by
  have hp0 : u.blocks[pred]? = some u.blocks[pred] := List.getElem?_eq_getElem hp
  have hpst : st.unit.blocks[pred]? = some u.blocks[pred] := by
    rw [hO.todo pred (Nat.le_refl _) hp]; exact hp0
  unfold splitBlock
  simp only [hpst]
  by_cases hle : (succs u.blocks[pred]).length ≤ 1
  · simp only [hle, if_true]
    refine ⟨st, rfl, hO.inv, ?_, fun p hp1 hp2 => hO.todo p (by omega) hp2⟩
    intro p b hpp hb hlen s hs
    by_cases hpe : p = pred
    · subst hpe
      rw [hpst] at hb
      cases hb
      omega
    · exact hO.done p b (by omega) hb hlen s hs
  · simp only [hle, if_false]
    have hI : InnerInv u st pred 0 :=
      ⟨hO.inv, hO.done, fun p hp1 hp2 => hO.todo p (by omega) hp2,
        fun _ _ _ _ hj _ => absurd hj (Nat.not_lt_zero _),
        fun b b0 hb hb0 => by
          rw [hpst] at hb; rw [hp0] at hb0
          cases hb; cases hb0
          exact ⟨rfl, fun _ _ => rfl⟩⟩
    obtain ⟨st1, h1, hI1⟩ := splitSuccs_inv u hu cnt hcnt pred _ hp0 (by omega)
      (succs u.blocks[pred]).length 0 st hI (by omega)
    refine ⟨st1, h1, hI1.inv, ?_, hI1.todo⟩
    intro p b hpp hb hlen s hs
    by_cases hpe : p = pred
    · subst hpe
      obtain ⟨j, hj⟩ := List.mem_iff_getElem?.mp hs
      have hjl := lt_of_getElem? hj
      obtain ⟨k1, _⟩ := hI1.todoSlots b _ hb hp0
      exact hI1.doneSlots b j s hb (by omega) hj
    · exact hI1.done p b (by omega) hb hlen s hs

/-! ## The outer loop and the removal of the landingpads -/

theorem succs_length_of_new {u : Vunit} {st : SplitState} (hinv : SplitInv u st) {m : Nat}
    {b : Vblock} (hm : u.blocks.length ≤ m) (hb : st.unit.blocks[m]? = some b) :
    (succs b).length = 1 := by
  obtain ⟨p, s0, hf⟩ := hinv.news m hm (lt_of_getElem? hb)
  obtain ⟨mb, h1, h2⟩ := succs_of_Forwards hf
  rw [hb] at h1
  cases h1
  rw [h2]; rfl

theorem done_all {u : Vunit} {st : SplitState} (hinv : SplitInv u st) {pred : Nat}
    (hd : Done st pred) (hp : u.blocks.length ≤ pred) (q : Nat) : Done st q := by
  intro p b _ hb hlen s hs
  by_cases hpp : p < pred
  · exact hd p b hpp hb hlen s hs
  · have := succs_length_of_new hinv (by omega : u.blocks.length ≤ p) hb
    omega

/-- The outer loop over the appended blocks changes nothing. -/
theorem splitLoop_new (u : Vunit) (cnt : List Nat) (st : SplitState) (hinv : SplitInv u st) :
    ∀ (fuel pred : Nat), u.blocks.length ≤ pred → st.unit.blocks.length - pred ≤ fuel →
      splitLoop cnt fuel pred st = .ok st := by
  intro fuel
  induction fuel with
  | zero =>
    intro pred _ hf
    have : ¬ pred < st.unit.blocks.length := by omega
    simp [splitLoop, this]
  | succ fuel ih =>
    intro pred hp hf
    unfold splitLoop
    by_cases hlt : pred < st.unit.blocks.length
    · have hb : st.unit.blocks[pred]? = some st.unit.blocks[pred] := List.getElem?_eq_getElem hlt
      have hl := succs_length_of_new hinv hp hb
      have hsb : splitBlock cnt pred st = .ok st := by
        unfold splitBlock
        simp [hb, hl]
      simp only [hlt, if_true, hsb]
      exact ih (pred + 1) (by omega) (by omega)
    · simp [hlt]

/-- The outer loop runs without fault, given enough fuel, and establishes the invariant
with every block visited. -/
theorem splitLoop_old (u : Vunit) (hu : SplitReady u) (cnt : List Nat) (hcnt : CountsOf u cnt) :
    ∀ (d pred : Nat) (st : SplitState), OuterInv u st pred → pred + d = u.blocks.length →
      ∃ N st1, (∀ fuel, N ≤ fuel → splitLoop cnt fuel pred st = .ok st1) ∧
        SplitInv u st1 ∧ Done st1 st1.unit.blocks.length := by
  intro d
  induction d with
  | zero =>
    intro pred st hO hp
    refine ⟨st.unit.blocks.length - pred, st, ?_, hO.inv, done_all hO.inv hO.done (by omega) _⟩
    intro fuel hf
    exact splitLoop_new u cnt st hO.inv fuel pred (by omega) hf
  | succ d ih =>
    intro pred st hO hp
    obtain ⟨st1, h1, hO1⟩ := splitBlock_inv u hu cnt hcnt st pred hO (by omega)
    obtain ⟨N, st2, h2, h3, h4⟩ := ih (pred + 1) st1 hO1 (by omega)
    refine ⟨N + 1, st2, ?_, h3, h4⟩
    intro fuel hf
    obtain ⟨f, rfl⟩ : ∃ f, fuel = f + 1 := ⟨fuel - 1, by omega⟩
    have hlt : pred < st.unit.blocks.length := by have := hO.inv.len_le; omega
    unfold splitLoop
    simp only [hlt, if_true, h1]
    exact h2 f (by omega)

/-- The initial state satisfies the invariant. -/
theorem splitInv_init (u : Vunit) (hu : SplitReady u) :
    OuterInv u { unit := u, catch_blocks := [], changed := false } 0 where
  inv :=
    { entry := rfl
      len_le := Nat.le_refl _
      shape := fun _ _ => rfl
      tuples := ⟨[], by simp⟩
      vr_le := Nat.le_refl _
      count_old := fun _ _ => rfl
      count_new := fun m h1 h2 => by simp at h2; omega
      targets := hu.targets
      slots := fun p j b0 s0 h1 h2 => ⟨b0, s0, h1, h2, Or.inl rfl⟩
      news := fun m h1 h2 => by simp at h2; omega
      catch_sorted := List.Pairwise.nil
      catch_lp := fun s hs => by simp at hs
      catch_mem := fun s => by
        constructor
        · intro hs; simp at hs
        · rintro ⟨_, m, mb, h1, h2, _⟩
          have := lt_of_getElem? h2
          simp at this
          omega
      unchanged := fun _ => ⟨rfl, rfl⟩
      grown := fun h => by simp at h
      alloc := by simp [allRegs]
      crit := fun p j b0 b s0 s h1 h2 h3 h4 h5 => by
        simp only at h3
        rw [h1] at h3
        cases h3
        rw [h2] at h4
        cases h4
        exact absurd rfl h5 }
  done := fun p _ hp => absurd hp (Nat.not_lt_zero _)
  todo := fun _ _ _ => rfl

theorem succs_nop_front (b : Vblock) (front : Vinstr) (tail : List Vinstr)
    (hc : b.code = front :: tail) (hf : front.op = .landingpad) :
    succs { b with code := { op := .nop, irctx := 0 } :: tail } = succs b := by
  unfold succs
  rw [hc]
  cases tail with
  | nil => simp [hf, succsOp]
  | cons y l => simp [List.getLast?_cons_cons]

theorem removeLandingpads_ok : ∀ (cb : List Nat) (unit : Vunit), cb.Pairwise (· < ·) →
    (∀ s ∈ cb, StartsWithLandingpad unit s) →
    ∃ unit1, removeLandingpads cb unit = .ok unit1 ∧ Cleaned cb unit unit1 := by
  intro cb
  induction cb with
  | nil =>
    intro unit _ _
    exact ⟨unit, rfl, ⟨rfl, rfl, rfl, rfl, fun _ _ => rfl, fun _ => rfl,
      fun s hs => by simp at hs⟩⟩
  | cons block rest ih =>
    intro unit hsorted hlp
    obtain ⟨b, front, hb, hfront, hop⟩ := hlp block (List.mem_cons_self _ _)
    obtain ⟨tail, hcode⟩ : ∃ tail, b.code = front :: tail := by
      cases hc : b.code with
      | nil => rw [hc] at hfront; simp at hfront
      | cons a l => rw [hc] at hfront; simp at hfront; subst hfront; exact ⟨l, rfl⟩
    have hbl := lt_of_getElem? hb
    let unit' : Vunit :=
      { unit with blocks :=
          unit.blocks.set block { b with code := { op := .nop, irctx := 0 } :: tail } }
    have hne : ∀ s ∈ rest, block ≠ s := fun s hs =>
      Nat.ne_of_lt (List.rel_of_pairwise_cons hsorted hs)
    obtain ⟨unit1, h1, hcl⟩ := ih unit' (List.Pairwise.of_cons hsorted) (by
      intro s hs
      obtain ⟨b2, x2, k1, k2, k3⟩ := hlp s (List.mem_cons_of_mem _ hs)
      refine ⟨b2, x2, ?_, k2, k3⟩
      show (unit.blocks.set block _)[s]? = some b2
      rw [List.getElem?_set_ne (hne s hs)]
      exact k1)
    refine ⟨unit1, ?_, ?_⟩
    · simp only [removeLandingpads, hb, hcode, hop, if_true]
      exact h1
    · refine ⟨hcl.entry, hcl.tuples, hcl.next_vr, ?_, ?_, ?_, ?_⟩
      · rw [hcl.length]; simp [unit']
      · intro q hq
        rw [hcl.other q (fun hqr => hq (List.mem_cons_of_mem _ hqr))]
        show (unit.blocks.set block _)[q]? = unit.blocks[q]?
        rw [List.getElem?_set_ne]
        intro hbq
        exact hq (by rw [hbq]; exact List.mem_cons_self _ _)
      · intro q
        rw [hcl.succs_eq q]
        show ((unit.blocks.set block _)[q]?).map succs = _
        by_cases hbq : block = q
        · subst hbq
          rw [List.getElem?_set_self hbl, hb]
          simp [succs_nop_front b front tail hcode hop]
        · rw [List.getElem?_set_ne hbq]
      · intro s hs
        rcases List.mem_cons.mp hs with rfl | hs
        · refine ⟨b, front, tail, hb, hcode, hop, ?_⟩
          rw [hcl.other s (fun hsr => hne s hsr rfl)]
          show (unit.blocks.set s _)[s]? = _
          rw [List.getElem?_set_self hbl]
        · obtain ⟨b2, f2, t2, k1, k2, k3, k4⟩ := hcl.nop s hs
          refine ⟨b2, f2, t2, ?_, k2, k3, k4⟩
          have : (unit.blocks.set block _)[s]? = some b2 := k1
          rw [List.getElem?_set_ne (hne s hs)] at this
          exact this

/-! ## The run of `splitCriticalEdges` -/

theorem getLast?_blankCode (code : List Vinstr) :
    (blankCode code).getLast? = code.getLast?.map fun x => { x with op := blankOp x.op } := by
  induction code with
  | nil => rfl
  | cons x rest ih =>
    cases rest with
    | nil => rfl
    | cons y rest =>
      have h : blankCode (x :: y :: rest) = x :: blankCode (y :: rest) := rfl
      rw [h, List.getLast?_cons_cons]
      cases hr : blankCode (y :: rest) with
      | nil => exact absurd (blankCode_eq_nil.mp hr) (by simp)
      | cons a as => rw [List.getLast?_cons_cons, ← hr, ih]

theorem succsOp_blankOp (op : Vop) : (succsOp (blankOp op)).length = (succsOp op).length := by
  cases op <;> simp [blankOp, succsOp]

theorem succs_blank_length (b : Vblock) : (succs (blank b)).length = (succs b).length := by
  unfold succs blank
  simp only [getLast?_blankCode]
  cases b.code.getLast? with
  | none => rfl
  | some x => simp [succsOp_blankOp]

theorem succs_length_of_blank {b b0 : Vblock} (h : blank b = blank b0) :
    (succs b).length = (succs b0).length := by
  rw [← succs_blank_length b, h, succs_blank_length]

theorem predCount_eq_of_succs {unit unit1 : Vunit}
    (h : ∀ q : Nat, (unit1.blocks[q]?).map succs = (unit.blocks[q]?).map succs) (x : Nat) :
    predCount unit1 x = predCount unit x := by
  have hm : unit1.blocks.map succs = unit.blocks.map succs := by
    apply List.ext_getElem?
    intro q
    simp only [List.getElem?_map]
    exact h q
  have e : ∀ v : Vunit, predCount v x = ((v.blocks.map succs).map (List.count x)).sum := by
    intro v
    simp [predCount, List.map_map, Function.comp_def]
  rw [e, e, hm]

/-- The run of `splitCriticalEdges` on a unit that is ready for it: with enough fuel it
ends without fault in a state `st` of the main loop that satisfies the invariant with
every block visited, and returns `st.changed` and the unit of `st` with the hoisted
landingpads removed. -/
theorem splitCriticalEdges_run (u : Vunit) (hu : SplitReady u) :
    ∃ N st unit1, (∀ fuel, N ≤ fuel → splitCriticalEdges fuel u = .ok (st.changed, unit1)) ∧
      SplitInv u st ∧ Done st st.unit.blocks.length ∧ Cleaned st.catch_blocks st.unit unit1 := by
  obtain ⟨cnt, hc1, hc2, hc3⟩ := countPreds_init u hu.targets
  obtain ⟨N, st, h1, h2, h3⟩ := splitLoop_old u hu cnt ⟨hc2, hc3⟩ u.blocks.length 0
    { unit := u, catch_blocks := [], changed := false } (splitInv_init u hu) (by omega)
  obtain ⟨unit1, h4, h5⟩ := removeLandingpads_ok st.catch_blocks st.unit h2.catch_sorted
    (fun s hs => (h2.catch_lp s hs).2)
  refine ⟨N, st, unit1, ?_, h2, h3, h5⟩
  intro fuel hf
  simp [splitCriticalEdges, hc1, h1 fuel hf, h4]

theorem noCritical_of_run {st : SplitState} {unit1 : Vunit}
    (hd : Done st st.unit.blocks.length) (hc : Cleaned st.catch_blocks st.unit unit1) :
    NoCriticalEdge unit1 := by
  intro b hb hlen s hs
  obtain ⟨q, hq⟩ := List.mem_iff_getElem?.mp hb
  have h1 := hc.succs_eq q
  rw [hq] at h1
  cases hq2 : st.unit.blocks[q]? with
  | none => rw [hq2] at h1; simp at h1
  | some b2 =>
    rw [hq2] at h1
    simp at h1
    have h2 := hd q b2 (lt_of_getElem? hq2) hq2 (by rw [← h1]; exact hlen) s (by rw [← h1]; exact hs)
    rw [predCount_eq_of_succs hc.succs_eq]
    have h3 : 0 < predCount unit1 s := predCount_pos hb hs
    rw [predCount_eq_of_succs hc.succs_eq] at h3
    omega

theorem targets_of_run {u : Vunit} {st : SplitState} {unit1 : Vunit} (hinv : SplitInv u st)
    (hc : Cleaned st.catch_blocks st.unit unit1) :
    ∀ b ∈ unit1.blocks, ∀ s ∈ succs b, s < unit1.blocks.length := by
  intro b hb s hs
  obtain ⟨q, hq⟩ := List.mem_iff_getElem?.mp hb
  have h1 := hc.succs_eq q
  rw [hq] at h1
  cases hq2 : st.unit.blocks[q]? with
  | none => rw [hq2] at h1; simp at h1
  | some b2 =>
    rw [hq2] at h1
    simp at h1
    rw [hc.length]
    exact hinv.targets b2 (mem_of_getElem? hq2) s (by rw [← h1]; exact hs)

/-! ## A unit without critical edge is left alone -/

theorem splitSuccs_noCritical (v : Vunit) (cnt : List Nat) (hcnt : CountsOf v cnt)
    (ht : ∀ b ∈ v.blocks, ∀ s ∈ succs b, s < v.blocks.length)
    (hnc : ¬ HasCriticalEdge v) (pred : Nat) (b : Vblock) (hb : v.blocks[pred]? = some b)
    (hlen : 1 < (succs b).length) :
    ∀ (k i : Nat), i + k ≤ (succs b).length →
      splitSuccs cnt pred k i { unit := v, catch_blocks := [], changed := false } =
        .ok { unit := v, catch_blocks := [], changed := false } := by
  intro k
  induction k with
  | zero => intro i _; rfl
  | succ k ih =>
    intro i hik
    have hi : i < (succs b).length := by omega
    have hs : (succs b)[i]? = some (succs b)[i] := List.getElem?_eq_getElem hi
    have hmem : (succs b)[i] ∈ succs b := List.getElem_mem _
    have hle : predCount v (succs b)[i] ≤ 1 := by
      by_contra hgt
      exact hnc ⟨b, mem_of_getElem? hb, hlen, _, hmem, by omega⟩
    have hlt : (succs b)[i] < v.blocks.length := ht b (mem_of_getElem? hb) _ hmem
    have h1 := splitEdge_skip cnt pred i { unit := v, catch_blocks := [], changed := false } b
      _ _ hb hs (hcnt.2 _ hlt) hle
    simp only [splitSuccs, h1]
    exact ih (i + 1) (by omega)

theorem splitLoop_noCritical (v : Vunit) (cnt : List Nat) (hcnt : CountsOf v cnt)
    (ht : ∀ b ∈ v.blocks, ∀ s ∈ succs b, s < v.blocks.length)
    (hnc : ¬ HasCriticalEdge v) :
    ∀ (fuel pred : Nat), v.blocks.length - pred ≤ fuel →
      splitLoop cnt fuel pred { unit := v, catch_blocks := [], changed := false } =
        .ok { unit := v, catch_blocks := [], changed := false } := by
  intro fuel
  induction fuel with
  | zero =>
    intro pred hf
    have : ¬ pred < v.blocks.length := by omega
    simp [splitLoop, this]
  | succ fuel ih =>
    intro pred hf
    unfold splitLoop
    by_cases hlt : pred < v.blocks.length
    · have hb : v.blocks[pred]? = some v.blocks[pred] := List.getElem?_eq_getElem hlt
      have hsb : splitBlock cnt pred { unit := v, catch_blocks := [], changed := false } =
          .ok { unit := v, catch_blocks := [], changed := false } := by
        unfold splitBlock
        simp only [hb]
        by_cases hle : (succs v.blocks[pred]).length ≤ 1
        · simp [hle]
        · simp only [hle, if_false]
          exact splitSuccs_noCritical v cnt hcnt ht hnc pred _ hb (by omega) _ 0 (by omega)
      simp only [hlt, if_true, hsb]
      exact ih (pred + 1) (by omega)
    · simp [hlt]

/-- On a unit whose successor labels are in range and that has no critical edge,
`splitCriticalEdges` returns false and leaves the unit as it is. -/
theorem splitCriticalEdges_of_noCritical (v : Vunit)
    (ht : ∀ b ∈ v.blocks, ∀ s ∈ succs b, s < v.blocks.length)
    (hnc : ¬ HasCriticalEdge v) (fuel : Nat) (hf : v.blocks.length ≤ fuel) :
    splitCriticalEdges fuel v = .ok (false, v) := by
  obtain ⟨cnt, hc1, hc2, hc3⟩ := countPreds_init v ht
  have h := splitLoop_noCritical v cnt ⟨hc2, hc3⟩ ht hnc fuel 0 (by omega)
  simp [splitCriticalEdges, hc1, h, removeLandingpads]

theorem not_hasCritical_of_noCritical {v : Vunit} (h : NoCriticalEdge v) : ¬ HasCriticalEdge v := by
  rintro ⟨b, hb, hlen, s, hs, hgt⟩
  have := h b hb hlen s hs
  omega

/-! ## Properties of `splitCriticalEdges` -/

theorem exampleUnit_ready : SplitReady exampleUnit where
  nonempty := by decide
  targets := by decide
  tuples := by
    intro b hb h d hh hop
    simp [exampleUnit] at hb
    rcases hb with rfl | rfl | rfl <;> simp at hh <;> subst hh <;> simp at hop
    subst hop
    decide

theorem unit_eq_of_cleaned_nil {unit unit1 : Vunit} (hc : Cleaned [] unit unit1) :
    unit1 = unit := by
  have hb : unit1.blocks = unit.blocks := by
    apply List.ext_getElem?
    intro q
    exact hc.other q (by simp)
  cases unit1
  cases unit
  simp at hb
  have h1 := hc.entry
  have h2 := hc.tuples
  have h3 := hc.next_vr
  simp at h1 h2 h3
  simp [hb, h1, h2, h3]

/-- C1: for every unit in which every block is non-empty and every successor label (and
tuple handle of a leading phidef) is in range, `splitCriticalEdges` ends without fault,
given enough fuel, and in the unit it leaves every successor of a block with more than
one successor has exactly one incoming edge, counted over all blocks of that unit. -/
theorem splitCriticalEdges_no_critical_edge (u : Vunit) (hu : SplitReady u) :
    ∃ N, ∀ fuel, N ≤ fuel → ∃ changed unit1,
      splitCriticalEdges fuel u = .ok (changed, unit1) ∧
      ∀ b ∈ unit1.blocks, 1 < (succs b).length → ∀ s ∈ succs b, predCount unit1 s = 1 := by
  obtain ⟨N, st, unit1, h1, _, h3, h4⟩ := splitCriticalEdges_run u hu
  exact ⟨N, fun fuel hf => ⟨st.changed, unit1, h1 fuel hf, noCritical_of_run h3 h4⟩⟩

theorem splitCriticalEdges_no_critical_edge_witness :
    SplitReady exampleUnit ∧
    ∃ N, ∀ fuel, N ≤ fuel → ∃ changed unit1,
      splitCriticalEdges fuel exampleUnit = .ok (changed, unit1) ∧
      ∀ b ∈ unit1.blocks, 1 < (succs b).length → ∀ s ∈ succs b, predCount unit1 s = 1 :=
  ⟨exampleUnit_ready, splitCriticalEdges_no_critical_edge exampleUnit exampleUnit_ready⟩

/-- C5: `splitCriticalEdges` is idempotent: on the unit left by a first call, a second
call (with fuel for one visit of every block) returns false and leaves that unit as it
is, blocks, instructions, targets, registers and tuples included. -/
theorem splitCriticalEdges_idempotent (u : Vunit) (hu : SplitReady u) :
    ∃ N, ∀ fuel, N ≤ fuel → ∃ changed unit1,
      splitCriticalEdges fuel u = .ok (changed, unit1) ∧
      ∀ fuel2, unit1.blocks.length ≤ fuel2 →
        splitCriticalEdges fuel2 unit1 = .ok (false, unit1) := by
  obtain ⟨N, st, unit1, h1, h2, h3, h4⟩ := splitCriticalEdges_run u hu
  refine ⟨N, fun fuel hf => ⟨st.changed, unit1, h1 fuel hf, fun fuel2 hf2 => ?_⟩⟩
  exact splitCriticalEdges_of_noCritical unit1 (targets_of_run h2 h4)
    (not_hasCritical_of_noCritical (noCritical_of_run h3 h4)) fuel2 hf2

theorem splitCriticalEdges_idempotent_witness :
    SplitReady exampleUnit ∧
    ∃ N, ∀ fuel, N ≤ fuel → ∃ changed unit1,
      splitCriticalEdges fuel exampleUnit = .ok (changed, unit1) ∧
      ∀ fuel2, unit1.blocks.length ≤ fuel2 →
        splitCriticalEdges fuel2 unit1 = .ok (false, unit1) :=
  ⟨exampleUnit_ready, splitCriticalEdges_idempotent exampleUnit exampleUnit_ready⟩

/-- C6: on a well-formed unit `splitCriticalEdges` returns true if and only if the input
has a critical edge, and if and only if the unit it leaves differs from the input. -/
theorem splitCriticalEdges_changed_iff (u : Vunit) (hu : SplitReady u) :
    ∃ N, ∀ fuel, N ≤ fuel → ∃ changed unit1,
      splitCriticalEdges fuel u = .ok (changed, unit1) ∧
      (changed = true ↔ HasCriticalEdge u) ∧ (changed = true ↔ unit1 ≠ u) := by
  obtain ⟨N, st, unit1, h1, h2, h3, h4⟩ := splitCriticalEdges_run u hu
  refine ⟨N, fun fuel hf => ⟨st.changed, unit1, h1 fuel hf, ?_, ?_⟩⟩
  · constructor
    · intro hc
      by_contra hnc
      have k1 := h1 (max N u.blocks.length) (Nat.le_max_left _ _)
      have k2 := splitCriticalEdges_of_noCritical u hu.targets hnc (max N u.blocks.length)
        (Nat.le_max_right _ _)
      rw [k1] at k2
      simp [hc] at k2
    · intro hce
      by_contra hc
      have hc2 : st.changed = false := by simpa using hc
      obtain ⟨k1, k2⟩ := h2.unchanged hc2
      have k4 := noCritical_of_run h3 h4
      rw [k2] at h4
      have k3 := unit_eq_of_cleaned_nil h4
      rw [k1] at k3
      rw [k3] at k4
      exact not_hasCritical_of_noCritical k4 hce
  · constructor
    · intro hc hne
      have k1 := h2.grown hc
      have k2 := h4.length
      rw [hne] at k2
      omega
    · intro hne
      by_contra hc
      have hc2 : st.changed = false := by simpa using hc
      obtain ⟨k1, k2⟩ := h2.unchanged hc2
      rw [k2] at h4
      have k3 := unit_eq_of_cleaned_nil h4
      rw [k1] at k3
      exact hne k3

theorem splitCriticalEdges_changed_iff_witness :
    SplitReady exampleUnit ∧
    ∃ N, ∀ fuel, N ≤ fuel → ∃ changed unit1,
      splitCriticalEdges fuel exampleUnit = .ok (changed, unit1) ∧
      (changed = true ↔ HasCriticalEdge exampleUnit) ∧ (changed = true ↔ unit1 ≠ exampleUnit) :=
  ⟨exampleUnit_ready, splitCriticalEdges_changed_iff exampleUnit exampleUnit_ready⟩

/-! ## The state of the main loop when it reaches an edge -/

theorem kept_refl (n : Nat) (ref : SplitState) (P j : Nat) : Kept n ref P j ref :=
  ⟨Nat.le_refl _, fun _ _ _ => rfl, ⟨[], by simp⟩, Nat.le_refl _, fun b hb => ⟨b, hb, rfl⟩⟩

section
variable {u : Vunit} {st : SplitState} {pred i succ : Nat} {pb pb0 sb sb0 : Vblock}
  {h h0 : Vinstr}

/-- A split at another slot keeps what was made before. -/
theorem EdgeCtx.kept_split (c : EdgeCtx u st pred i succ pb pb0 sb sb0 h h0)
    {ref : SplitState} {P j : Nat} (hk : Kept u.blocks.length ref P j st)
    (hne : pred ≠ P ∨ i ≠ j) :
    Kept u.blocks.length ref P j (splitResult st pred i succ pb sb h) where
  len := by rw [splitResult_length]; have := hk.len; omega
  news := by
    intro m hm hml
    have k1 := hk.len
    have k2 := c.pred_lt
    rw [splitResult_get_other st pred i succ pb sb h m (by omega) (by omega)]
    exact hk.news m hm hml
  tuples := by
    obtain ⟨ext, hext⟩ := hk.tuples
    refine ⟨ext ++ fwdTuples st.unit.next_vr st.unit.tuples h, ?_⟩
    show st.unit.tuples ++ fwdTuples st.unit.next_vr st.unit.tuples h = _
    rw [← List.append_assoc, ← hext]
  vr := by
    show ref.unit.next_vr ≤ st.unit.next_vr + _
    have := hk.vr
    omega
  slot := by
    intro b hb
    obtain ⟨b2, hb2, hs2⟩ := hk.slot b hb
    by_cases hpp : pred = P
    · subst hpp
      rw [c.hp] at hb2
      cases hb2
      have hij : i ≠ j := by
        rcases hne with h1 | h1
        · exact absurd rfl h1
        · exact h1
      refine ⟨_, splitResult_get_pred st pred i succ pb sb h c.pred_lt_len, ?_⟩
      rw [succs_setTargetCode, List.getElem?_set_ne hij]
      exact hs2
    · refine ⟨b2, ?_, hs2⟩
      rw [splitResult_get_other st pred i succ pb sb h P (lt_of_getElem? hb2) (Ne.symm hpp)]
      exact hb2

end

/-- One iteration of the inner loop either leaves the state as it is, on an edge that is
not critical, or splits the edge. -/
theorem splitEdge_cases (u : Vunit) (hu : SplitReady u) (cnt : List Nat) (hcnt : CountsOf u cnt)
    (st : SplitState) (pred i succ : Nat) (hI : InnerInv u st pred i)
    (pb0 : Vblock) (hp0 : u.blocks[pred]? = some pb0) (hs0 : (succs pb0)[i]? = some succ)
    (hm : 1 < (succs pb0).length) :
    (predCount u succ ≤ 1 ∧ splitEdge cnt pred i st = .ok st ∧ InnerInv u st pred (i + 1)) ∨
    (1 < predCount u succ ∧ ∃ (pb sb sb0 : Vblock) (h h0 : Vinstr),
      EdgeCtx u st pred i succ pb pb0 sb sb0 h h0 ∧
      splitEdge cnt pred i st = .ok (splitResult st pred i succ pb sb h) ∧
      InnerInv u (splitResult st pred i succ pb sb h) pred (i + 1)) := by
  obtain ⟨pb, hp, hblp⟩ := shape_get hI.inv hp0
  obtain ⟨hlen, hslots⟩ := hI.todoSlots pb pb0 hp hp0
  have hs : (succs pb)[i]? = some succ := by rw [hslots i (Nat.le_refl _)]; exact hs0
  have hsn : succ < u.blocks.length := hu.targets pb0 (mem_of_getElem? hp0) _ (mem_of_getElem? hs0)
  by_cases hle : predCount u succ ≤ 1
  · obtain ⟨k1, k2, k3⟩ := splitEdge_skip_inv u cnt hcnt st pred i hI.inv hI.doneSlots
      hI.todoSlots pb hp _ hs hsn hle
    exact Or.inl ⟨hle, k1, ⟨hI.inv, hI.done, hI.todo, k2, k3⟩⟩
  · have hsb0 : u.blocks[succ]? = some u.blocks[succ] := List.getElem?_eq_getElem hsn
    obtain ⟨sb, hsb, hbl⟩ := shape_get hI.inv hsb0
    have hne := hu.nonempty _ (mem_of_getElem? hsb0)
    obtain ⟨h0, hh0⟩ : ∃ h0, (u.blocks[succ]).code.head? = some h0 := by
      cases hc : (u.blocks[succ]).code with
      | nil => exact absurd hc hne
      | cons a l => exact ⟨a, rfl⟩
    obtain ⟨h, hh, hirc, hop⟩ := head_of_headKey (headKey_of_blank hbl) hh0
    have c : EdgeCtx u st pred i succ pb pb0 sb _ h h0 :=
      ⟨hu, hI.inv, hp, hp0, hs, hs0, hsb, hsb0, hbl, hblp, hh, hh0, hirc, hop, hm, by omega⟩
    exact Or.inr ⟨by omega, pb, sb, _, h, h0, c, c.split_ok cnt hcnt (by omega),
      ⟨c.inv_split, c.done_split hI.done, c.todo_split hI.todo,
        c.doneSlots_split hI.doneSlots, c.todoSlots_split hI.todoSlots⟩⟩

/-- One iteration of the inner loop at another slot keeps what was made before. -/
theorem splitEdge_kept (u : Vunit) (hu : SplitReady u) (cnt : List Nat) (hcnt : CountsOf u cnt)
    (st : SplitState) (pred i : Nat) (hI : InnerInv u st pred i)
    (pb0 : Vblock) (hp0 : u.blocks[pred]? = some pb0) (hi : i < (succs pb0).length)
    (hm : 1 < (succs pb0).length) (ref : SplitState) (P j : Nat)
    (hk : Kept u.blocks.length ref P j st) (hne : pred ≠ P ∨ i ≠ j) :
    ∃ st1, splitEdge cnt pred i st = .ok st1 ∧ InnerInv u st1 pred (i + 1) ∧
      Kept u.blocks.length ref P j st1 := by
  have hs0 : (succs pb0)[i]? = some (succs pb0)[i] := List.getElem?_eq_getElem hi
  rcases splitEdge_cases u hu cnt hcnt st pred i _ hI pb0 hp0 hs0 hm with
    ⟨_, k1, k2⟩ | ⟨_, pb, sb, sb0, h, h0, c, k1, k2⟩
  · exact ⟨st, k1, k2, hk⟩
  · exact ⟨_, k1, k2, c.kept_split hk hne⟩

/-- The rest of the inner loop keeps what was made before. -/
theorem splitSuccs_kept (u : Vunit) (hu : SplitReady u) (cnt : List Nat) (hcnt : CountsOf u cnt)
    (pred : Nat) (pb0 : Vblock) (hp0 : u.blocks[pred]? = some pb0)
    (hm : 1 < (succs pb0).length) (ref : SplitState) (P j : Nat) :
    ∀ (k i : Nat) (st : SplitState), InnerInv u st pred i → i + k ≤ (succs pb0).length →
      Kept u.blocks.length ref P j st → (pred ≠ P ∨ j < i) →
      ∃ st1, splitSuccs cnt pred k i st = .ok st1 ∧ InnerInv u st1 pred (i + k) ∧
        Kept u.blocks.length ref P j st1 := by
  intro k
  induction k with
  | zero => intro i st hI _ hk _; exact ⟨st, rfl, hI, hk⟩
  | succ k ih =>
    intro i st hI hik hk hne
    obtain ⟨st1, h1, hI1, hk1⟩ := splitEdge_kept u hu cnt hcnt st pred i hI pb0 hp0 (by omega) hm
      ref P j hk (by rcases hne with h1 | h1; exact Or.inl h1; exact Or.inr (by omega))
    obtain ⟨st2, h2, hI2, hk2⟩ := ih (i + 1) st1 hI1 (by omega) hk1
      (by rcases hne with h1 | h1; exact Or.inl h1; exact Or.inr (by omega))
    refine ⟨st2, ?_, ?_, hk2⟩
    · simp [splitSuccs, h1, h2]
    · have : i + (k + 1) = i + 1 + k := by omega
      rw [this]; exact hI2

/-- The state of the outer loop at a block with several successors is one of the inner
loop at its first slot. -/
theorem innerInv_of_outer {u : Vunit} {st : SplitState} {pred : Nat} (hO : OuterInv u st pred)
    (hp : pred < u.blocks.length) : InnerInv u st pred 0 := by
  have hp0 : u.blocks[pred]? = some u.blocks[pred] := List.getElem?_eq_getElem hp
  have hpst : st.unit.blocks[pred]? = some u.blocks[pred] := by
    rw [hO.todo pred (Nat.le_refl _) hp]; exact hp0
  exact ⟨hO.inv, hO.done, fun p hp1 hp2 => hO.todo p (by omega) hp2,
    fun _ _ _ _ hj _ => absurd hj (Nat.not_lt_zero _),
    fun b b0 hb hb0 => by
      rw [hpst] at hb; rw [hp0] at hb0
      cases hb; cases hb0
      exact ⟨rfl, fun _ _ => rfl⟩⟩

/-- The state of the inner loop after the last slot is one of the outer loop at the next
block. -/
theorem outerInv_of_inner {u : Vunit} {st : SplitState} {pred : Nat} {pb0 : Vblock}
    (hp0 : u.blocks[pred]? = some pb0) (hI : InnerInv u st pred (succs pb0).length) :
    OuterInv u st (pred + 1) := by
  refine ⟨hI.inv, ?_, hI.todo⟩
  intro p b hpp hb hlen s hs
  by_cases hpe : p = pred
  · subst hpe
    obtain ⟨j, hj⟩ := List.mem_iff_getElem?.mp hs
    have hjl := lt_of_getElem? hj
    obtain ⟨k1, _⟩ := hI.todoSlots b _ hb hp0
    exact hI.doneSlots b j s hb (by omega) hj
  · exact hI.done p b (by omega) hb hlen s hs

/-- The body of the outer loop at another block keeps what was made before. -/
theorem splitBlock_kept (u : Vunit) (hu : SplitReady u) (cnt : List Nat) (hcnt : CountsOf u cnt)
    (st : SplitState) (pred : Nat) (hO : OuterInv u st pred) (hp : pred < u.blocks.length)
    (ref : SplitState) (P j : Nat) (hk : Kept u.blocks.length ref P j st) (hne : pred ≠ P) :
    ∃ st1, splitBlock cnt pred st = .ok st1 ∧ OuterInv u st1 (pred + 1) ∧
      Kept u.blocks.length ref P j st1 := by
  have hp0 : u.blocks[pred]? = some u.blocks[pred] := List.getElem?_eq_getElem hp
  have hpst : st.unit.blocks[pred]? = some u.blocks[pred] := by
    rw [hO.todo pred (Nat.le_refl _) hp]; exact hp0
  by_cases hle : (succs u.blocks[pred]).length ≤ 1
  · obtain ⟨st1, h1, hO1⟩ := splitBlock_inv u hu cnt hcnt st pred hO hp
    have e : splitBlock cnt pred st = .ok st := by
      unfold splitBlock
      simp only [hpst, hle, if_true]
    rw [e] at h1
    cases h1
    exact ⟨st, e, hO1, hk⟩
  · obtain ⟨st1, h1, hI1, hk1⟩ := splitSuccs_kept u hu cnt hcnt pred _ hp0 (by omega) ref P j
      (succs u.blocks[pred]).length 0 st (innerInv_of_outer hO hp) (by omega) hk (Or.inl hne)
    refine ⟨st1, ?_, outerInv_of_inner hp0 (by simpa using hI1), hk1⟩
    unfold splitBlock
    simp only [hpst, hle, if_false]
    exact h1

/-- The rest of the outer loop keeps what was made before. -/
theorem splitLoop_kept (u : Vunit) (hu : SplitReady u) (cnt : List Nat) (hcnt : CountsOf u cnt)
    (ref : SplitState) (P j : Nat) :
    ∀ (d pred : Nat) (st : SplitState), OuterInv u st pred → pred + d = u.blocks.length →
      P < pred → Kept u.blocks.length ref P j st →
      ∃ N st1, (∀ fuel, N ≤ fuel → splitLoop cnt fuel pred st = .ok st1) ∧
        Kept u.blocks.length ref P j st1 := by
  intro d
  induction d with
  | zero =>
    intro pred st hO hp _ hk
    refine ⟨st.unit.blocks.length - pred, st, ?_, hk⟩
    intro fuel hf
    exact splitLoop_new u cnt st hO.inv fuel pred (by omega) hf
  | succ d ih =>
    intro pred st hO hp hlt hk
    obtain ⟨st1, h1, hO1, hk1⟩ := splitBlock_kept u hu cnt hcnt st pred hO (by omega) ref P j hk
      (by omega)
    obtain ⟨N, st2, h2, hk2⟩ := ih (pred + 1) st1 hO1 (by omega) (by omega) hk1
    refine ⟨N + 1, st2, ?_, hk2⟩
    intro fuel hf
    obtain ⟨f, rfl⟩ : ∃ f, fuel = f + 1 := ⟨fuel - 1, by omega⟩
    have hl : pred < st.unit.blocks.length := by have := hO.inv.len_le; omega
    unfold splitLoop
    simp only [hl, if_true, h1]
    exact h2 f (by omega)

/-- The first iterations of the outer loop run without fault and keep the invariant. -/
theorem splitFirst_inv (u : Vunit) (hu : SplitReady u) (cnt : List Nat) (hcnt : CountsOf u cnt) :
    ∀ (k pred : Nat) (st : SplitState), OuterInv u st pred → pred + k ≤ u.blocks.length →
      ∃ st1, splitFirst cnt k pred st = .ok st1 ∧ OuterInv u st1 (pred + k) := by
  intro k
  induction k with
  | zero => intro pred st hO _; exact ⟨st, rfl, hO⟩
  | succ k ih =>
    intro pred st hO hp
    obtain ⟨st1, h1, hO1⟩ := splitBlock_inv u hu cnt hcnt st pred hO (by omega)
    obtain ⟨st2, h2, hO2⟩ := ih (pred + 1) st1 hO1 (by omega)
    have hl : pred < st.unit.blocks.length := by have := hO.inv.len_le; omega
    refine ⟨st2, ?_, ?_⟩
    · unfold splitFirst
      simp only [hl, if_true, h1]
      exact h2
    · have : pred + (k + 1) = pred + 1 + k := by omega
      rw [this]; exact hO2

/-- The outer loop goes on from the state its first iterations end in. -/
theorem splitLoop_splitFirst (cnt : List Nat) : ∀ (k pred : Nat) (st stA : SplitState),
    splitFirst cnt k pred st = .ok stA →
    ∀ fuel, splitLoop cnt (fuel + k) pred st = splitLoop cnt fuel (pred + k) stA := by
  intro k
  induction k with
  | zero =>
    intro pred st stA h fuel
    simp only [splitFirst, Except.ok.injEq] at h
    subst h
    rfl
  | succ k ih =>
    intro pred st stA h fuel
    have e1 : fuel + (k + 1) = (fuel + k) + 1 := by omega
    have e2 : pred + (k + 1) = pred + 1 + k := by omega
    rw [e1, e2]
    unfold splitFirst at h
    by_cases hl : pred < st.unit.blocks.length
    · simp only [hl, if_true] at h
      cases hb : splitBlock cnt pred st with
      | error e => rw [hb] at h; simp at h
      | ok st1 =>
        rw [hb] at h
        simp only [splitLoop, hl, if_true, hb]
        exact ih (pred + 1) st1 stA h fuel
    · simp only [hl, if_false, Except.ok.injEq] at h
      subst h
      have hl2 : ¬ pred + 1 + k < st.unit.blocks.length := by omega
      cases fuel with
      | zero => simp [splitLoop, hl, hl2]
      | succ f => simp [splitLoop, hl, hl2]

/-- The inner loop goes on from the state its first iterations end in. -/
theorem splitSuccs_add (cnt : List Nat) (pred : Nat) : ∀ (a i : Nat) (st st1 : SplitState),
    splitSuccs cnt pred a i st = .ok st1 →
    ∀ b, splitSuccs cnt pred (a + b) i st = splitSuccs cnt pred b (i + a) st1 := by
  intro a
  induction a with
  | zero =>
    intro i st st1 h b
    simp only [splitSuccs, Except.ok.injEq] at h
    subst h
    simp
  | succ a ih =>
    intro i st st1 h b
    have e1 : a + 1 + b = (a + b) + 1 := by omega
    have e2 : i + (a + 1) = i + 1 + a := by omega
    rw [e1, e2]
    unfold splitSuccs at h
    cases he : splitEdge cnt pred i st with
    | error e => rw [he] at h; simp at h
    | ok st2 =>
      rw [he] at h
      simp only [splitSuccs, he]
      exact ih (i + 1) st2 st1 h b

/-- The run of the main loop through a critical edge `P -> S` at the slot `j`: the loop
reaches the slot in a state `st0` that satisfies the invariant, splits the edge there,
and ends, given enough fuel, in a state that keeps what the split made. -/
theorem splitLoop_through (u : Vunit) (hu : SplitReady u) (cnt : List Nat)
    (hcnt : CountsOf u cnt) (P j S : Nat) (pb0 : Vblock) (hP : u.blocks[P]? = some pb0)
    (hlen : 1 < (succs pb0).length) (hj : (succs pb0)[j]? = some S) (hgt : 1 < predCount u S) :
    ∃ (stA st0 stF : SplitState) (pb sb sb0 : Vblock) (h h0 : Vinstr) (N : Nat),
      splitFirst cnt P 0 { unit := u, catch_blocks := [], changed := false } = .ok stA ∧
      splitSuccs cnt P j 0 stA = .ok st0 ∧
      EdgeCtx u st0 P j S pb pb0 sb sb0 h h0 ∧
      splitEdge cnt P j st0 = .ok (splitResult st0 P j S pb sb h) ∧
      (∀ fuel, N ≤ fuel →
        splitLoop cnt fuel 0 { unit := u, catch_blocks := [], changed := false } = .ok stF) ∧
      Kept u.blocks.length (splitResult st0 P j S pb sb h) P j stF := by
  have hPn : P < u.blocks.length := lt_of_getElem? hP
  have hjl : j < (succs pb0).length := lt_of_getElem? hj
  have hpb0 : pb0 = u.blocks[P] := by
    rw [List.getElem?_eq_getElem hPn] at hP
    exact (Option.some.inj hP).symm
  obtain ⟨stA, hA, hOA⟩ := splitFirst_inv u hu cnt hcnt P 0 _ (splitInv_init u hu) (by omega)
  rw [Nat.zero_add] at hOA
  have hpst : stA.unit.blocks[P]? = some pb0 := by
    rw [hOA.todo P (Nat.le_refl _) hPn]; exact hP
  obtain ⟨st0, h0run, hI0⟩ := splitSuccs_inv u hu cnt hcnt P pb0 hP hlen j 0 stA
    (innerInv_of_outer hOA hPn) (by omega)
  rw [Nat.zero_add] at hI0
  rcases splitEdge_cases u hu cnt hcnt st0 P j S hI0 pb0 hP hj hlen with
    ⟨k0, _, _⟩ | ⟨_, pb, sb, sb0, h, h0, c, hsplit, hI1⟩
  · omega
  obtain ⟨stB, hB, hIB, hKB⟩ := splitSuccs_kept u hu cnt hcnt P pb0 hP hlen
    (splitResult st0 P j S pb sb h) P j ((succs pb0).length - (j + 1)) (j + 1) _ hI1 (by omega)
    (kept_refl _ _ _ _) (Or.inr (by omega))
  have hlast : j + 1 + ((succs pb0).length - (j + 1)) = (succs pb0).length := by omega
  rw [hlast] at hIB
  have hOB := outerInv_of_inner hP hIB
  obtain ⟨N, stF, hF, hKF⟩ := splitLoop_kept u hu cnt hcnt (splitResult st0 P j S pb sb h) P j
    (u.blocks.length - (P + 1)) (P + 1) stB hOB (by omega) (by omega) hKB
  refine ⟨stA, st0, stF, pb, sb, sb0, h, h0, N + 1 + P, hA, h0run, c, hsplit, ?_, hKF⟩
  intro fuel hf
  obtain ⟨f, rfl⟩ : ∃ f, fuel = f + 1 + P := ⟨fuel - (1 + P), by omega⟩
  rw [splitLoop_splitFirst cnt P 0 _ stA hA (f + 1), Nat.zero_add]
  have hl : P < stA.unit.blocks.length := lt_of_getElem? hpst
  have hblock : splitBlock cnt P stA = .ok stB := by
    unfold splitBlock
    have hnle : ¬ (succs pb0).length ≤ 1 := by omega
    simp only [hpst, hnle, if_false]
    have e : (succs pb0).length = j + (((succs pb0).length - (j + 1)) + 1) := by omega
    rw [e, splitSuccs_add cnt P j 0 stA st0 h0run, Nat.zero_add]
    simp only [splitSuccs, hsplit]
    exact hB
  simp only [splitLoop, hl, if_true, hblock]
  exact hF f (by omega)

/-- The registers of a block that starts with a phidef are those of its tuple. -/
theorem blockRegs_phidef (tuples : List (List Nat)) (b : Vblock) (t ctx : Nat) (regs : List Nat)
    (hb : b.code.head? = some { op := .phidef t, irctx := ctx }) (ht : tuples[t]? = some regs) :
    blockRegs tuples b = regs := by
  unfold blockRegs
  rw [hb]
  simp [ht]

theorem mem_allRegs (tuples : List (List Nat)) : ∀ (l : List Vblock) (a : Nat) (x : Vblock)
    (r : Nat), l[a]? = some x → r ∈ blockRegs tuples x → r ∈ allRegs tuples l := by
  intro l
  induction l with
  | nil => intro a x r h; simp at h
  | cons b l ih =>
    intro a x r h hr
    simp only [allRegs, List.mem_append]
    cases a with
    | zero =>
      simp only [List.getElem?_cons_zero, Option.some.injEq] at h
      subst h
      exact Or.inl hr
    | succ a =>
      simp only [List.getElem?_cons_succ] at h
      exact Or.inr (ih a x r h hr)

/-- Two blocks of a list whose registers are all distinct bind no register in common. -/
theorem allRegs_disjoint (tuples : List (List Nat)) : ∀ (l : List Vblock),
    (allRegs tuples l).Nodup → ∀ (a b : Nat) (x y : Vblock), a ≠ b → l[a]? = some x →
      l[b]? = some y → ∀ r ∈ blockRegs tuples x, r ∉ blockRegs tuples y := by
  intro l
  induction l with
  | nil => intro _ a b x y _ h; simp at h
  | cons z l ih =>
    intro hn a b x y hab ha hb r hr hr2
    simp only [allRegs] at hn
    obtain ⟨_, k2, k3⟩ := List.nodup_append.mp hn
    cases a with
    | zero =>
      simp only [List.getElem?_cons_zero, Option.some.injEq] at ha
      subst ha
      cases b with
      | zero => exact hab rfl
      | succ b =>
        simp only [List.getElem?_cons_succ] at hb
        exact k3 hr (mem_allRegs tuples l b y r hb hr2)
    | succ a =>
      simp only [List.getElem?_cons_succ] at ha
      cases b with
      | zero =>
        simp only [List.getElem?_cons_zero, Option.some.injEq] at hb
        subst hb
        exact k3 hr2 (mem_allRegs tuples l a x r ha hr)
      | succ b =>
        simp only [List.getElem?_cons_succ] at hb
        exact ih k2 a b x y (by omega) ha hb r hr hr2

/-- After the run, the slot of a critical edge of the input points to a forwarding block
made for it. -/
theorem forwards_of_critical {u : Vunit} {st : SplitState} (hinv : SplitInv u st)
    (hd : Done st st.unit.blocks.length) {P j S : Nat} {pb : Vblock}
    (hP : u.blocks[P]? = some pb) (hlen : 1 < (succs pb).length)
    (hj : (succs pb)[j]? = some S) (hS : S < u.blocks.length) (hgt : 1 < predCount u S) :
    ∃ b M, st.unit.blocks[P]? = some b ∧ (succs b)[j]? = some M ∧ u.blocks.length ≤ M ∧
      Forwards u st.unit P M S := by
  obtain ⟨b, s, hb, hs, hor⟩ := hinv.slots P j pb S hP hj
  obtain ⟨b2, hb2, hbl⟩ := shape_get hinv hP
  rw [hb] at hb2
  cases hb2
  have hl : 1 < (succs b).length := by rw [succs_length_of_blank hbl]; exact hlen
  have hle := hd P b (lt_of_getElem? hb) hb hl s (mem_of_getElem? hs)
  rcases hor with h1 | ⟨h1, h2⟩
  · subst h1
    rw [hinv.count_old s hS] at hle
    omega
  · exact ⟨b, s, hb, hs, h1, h2⟩

theorem twoEdgeUnit_ready : SplitReady twoEdgeUnit where
  nonempty := by decide
  targets := by decide
  tuples := by
    intro b hb h d hh hop
    simp [twoEdgeUnit] at hb
    rcases hb with rfl | rfl <;> simp at hh <;> subst hh <;> simp at hop
    subst hop
    decide

/-- On `twoEdgeUnit` the two forwarding blocks bind the registers 10, 11 and 12, 13. -/
theorem splitCriticalEdges_twoEdgeUnit :
    splitCriticalEdges 4 twoEdgeUnit = .ok (true,
      { blocks :=
          [{ code := [{ op := .branch [2, 3], irctx := 5 }], area_idx := 0, weight := 1 },
           { code := [{ op := .phidef 0, irctx := 7 }, { op := .other 1, irctx := 8 }],
             area_idx := 2, weight := 3 },
           { code := [{ op := .phidef 1, irctx := 7 }, { op := .phijmp 1 2, irctx := 7 }],
             area_idx := 2, weight := 3 },
           { code := [{ op := .phidef 3, irctx := 7 }, { op := .phijmp 1 4, irctx := 7 }],
             area_idx := 2, weight := 3 }]
        entry := 0
        next_vr := 14
        tuples := [[1, 2], [10, 11], [10, 11], [12, 13], [12, 13]] }) := by
  rfl

/-- On `twoEdgeUnit` the loops reach the second slot of block 0 with three blocks and the
register counter at 12, after the split of the first slot made the registers 10 and 11;
the split of the second slot appends the block 3 and moves the counter to 14. -/
theorem statesAt_twoEdgeUnit :
    (statesAt twoEdgeUnit 0 1).map (fun p =>
      ((p.1.unit.blocks.length, p.1.unit.next_vr, p.1.unit.tuples),
       (p.2.unit.blocks.length, p.2.unit.next_vr, p.2.unit.tuples))) =
      .ok ((3, 12, [[1, 2], [10, 11], [10, 11]]),
           (4, 14, [[1, 2], [10, 11], [10, 11], [12, 13], [12, 13]])) := by
  rfl

/-- C10: for every critical edge `P -> S` of a well-formed unit where `S` starts with a
phidef over a tuple of width `N`, after `splitCriticalEdges` the slot of the edge points
to a new block `M` whose code is exactly a phidef followed by a phijmp to `S`, both with
the context of the phidef of `S`, over two tuples holding the same `N` registers, which
are pairwise distinct and were not allocated in the input; `S` still starts with its
phidef and the tuple of that phidef is unchanged. The registers are fresh at the split:
in the state `st0` in which the loops of `splitCriticalEdges` reach the slot of the edge
the block `M` does not exist yet and the registers are the `N` next ones from the
register counter of the unit on, none of them below it, and one iteration later, in
`st1`, `M` is that block, over that tuple, and all of them are below the counter. In the
unit that is returned no other appended block binds one of these registers. -/
theorem splitCriticalEdges_phidef_forward (u : Vunit) (hu : SplitReady u) :
    ∃ N, ∀ fuel, N ≤ fuel → ∃ changed unit1,
      splitCriticalEdges fuel u = .ok (changed, unit1) ∧
      ∀ (P j S : Nat) (pb sb : Vblock) (d ctx : Nat) (regs0 : List Nat),
        u.blocks[P]? = some pb → 1 < (succs pb).length → (succs pb)[j]? = some S →
        1 < predCount u S → u.blocks[S]? = some sb →
        sb.code.head? = some { op := .phidef d, irctx := ctx } → u.tuples[d]? = some regs0 →
        ∃ (pb1 mb sb1 : Vblock) (M t1 t2 : Nat) (regs : List Nat),
          unit1.blocks[P]? = some pb1 ∧ (succs pb1)[j]? = some M ∧ u.blocks.length ≤ M ∧
          unit1.blocks[M]? = some mb ∧
          mb.code = [{ op := .phidef t1, irctx := ctx }, { op := .phijmp S t2, irctx := ctx }] ∧
          unit1.tuples[t1]? = some regs ∧ unit1.tuples[t2]? = some regs ∧
          regs.length = regs0.length ∧ regs.Nodup ∧
          (∀ r ∈ regs, u.next_vr ≤ r ∧ r < unit1.next_vr) ∧
          unit1.blocks[S]? = some sb1 ∧
          sb1.code.head? = some { op := .phidef d, irctx := ctx } ∧
          unit1.tuples[d]? = some regs0 ∧
          (∃ st0 st1 : SplitState, statesAt u P j = .ok (st0, st1) ∧
            st0.unit.blocks.length = M ∧ st1.unit.blocks[M]? = some mb ∧
            st1.unit.tuples[t1]? = some regs ∧
            regs = List.range' st0.unit.next_vr regs0.length ∧
            ∀ r ∈ regs, st0.unit.next_vr ≤ r ∧ r < st1.unit.next_vr) ∧
          (∀ (M2 : Nat) (mb2 : Vblock), u.blocks.length ≤ M2 → M2 ≠ M →
            unit1.blocks[M2]? = some mb2 → ∀ r ∈ regs, r ∉ blockRegs unit1.tuples mb2) := by
  obtain ⟨cnt, hc1, hc2, hc3⟩ := countPreds_init u hu.targets
  obtain ⟨N, st, h1, h2, h3⟩ := splitLoop_old u hu cnt ⟨hc2, hc3⟩ u.blocks.length 0
    { unit := u, catch_blocks := [], changed := false } (splitInv_init u hu) (by omega)
  obtain ⟨unit1, h4r, h4⟩ := removeLandingpads_ok st.catch_blocks st.unit h2.catch_sorted
    (fun s hs => (h2.catch_lp s hs).2)
  refine ⟨N, fun fuel hf => ⟨st.changed, unit1,
    by simp [splitCriticalEdges, hc1, h1 fuel hf, h4r], ?_⟩⟩
  intro P j S pb sb d ctx regs0 hP hlen hj hgt hS hhead hregs
  -- the run of the loop through the slot of the edge
  obtain ⟨stA, st0, stF, pbA, sbA, sb0, h, h0, N2, hA, h0run, c, hsplit, hF, hK⟩ :=
    splitLoop_through u hu cnt ⟨hc2, hc3⟩ P j S pb hP hlen hj hgt
  have hst : st = stF := by
    have e1 := h1 (max N N2) (le_max_left _ _)
    have e2 := hF (max N N2) (le_max_right _ _)
    rw [e1] at e2
    exact Except.ok.inj e2
  subst hst
  -- the head of `S` in the state before the split is its phidef
  have hsb0 : sb = sb0 := by
    have := c.hsb0
    rw [hS] at this
    exact Option.some.inj this
  subst hsb0
  have hh0 : h0 = { op := .phidef d, irctx := ctx } := by
    have := c.hh0
    rw [hhead] at this
    exact (Option.some.inj this).symm
  subst hh0
  have hop : h.op = .phidef d := op_eq_of_blankOp_phidef c.ho
  have hh : h = { op := .phidef d, irctx := ctx } := by
    have hi := c.hi
    cases h
    simp at hop hi
    simp [hop, hi]
  subst hh
  have hd : d < u.tuples.length := lt_of_getElem? hregs
  obtain ⟨ext0, hext0⟩ := c.inv.tuples
  have hregs0 : st0.unit.tuples[d]? = some regs0 := by
    rw [hext0, List.getElem?_append_left hd]
    exact hregs
  have hfr : fwdRegs st0.unit.next_vr st0.unit.tuples { op := .phidef d, irctx := ctx } =
      List.range' st0.unit.next_vr regs0.length := by
    simp [fwdRegs, hregs0]
  -- the state after the split
  have hnew := splitResult_get_new st0 P j S pbA sbA { op := .phidef d, irctx := ctx }
  have hlen1 := splitResult_length st0 P j S pbA sbA { op := .phidef d, irctx := ctx }
  have hvr1 : (splitResult st0 P j S pbA sbA { op := .phidef d, irctx := ctx }).unit.next_vr =
      st0.unit.next_vr + regs0.length := by
    show st0.unit.next_vr + (fwdRegs _ _ _).length = _
    rw [hfr, List.length_range']
  have htup1 : (splitResult st0 P j S pbA sbA { op := .phidef d, irctx := ctx }).unit.tuples =
      st0.unit.tuples ++ [List.range' st0.unit.next_vr regs0.length,
        List.range' st0.unit.next_vr regs0.length] := by
    show st0.unit.tuples ++ fwdTuples _ _ _ = _
    simp [fwdTuples, hfr]
  have ht1 : (splitResult st0 P j S pbA sbA { op := .phidef d, irctx := ctx }).unit.tuples[
      st0.unit.tuples.length]? = some (List.range' st0.unit.next_vr regs0.length) := by
    rw [htup1, List.getElem?_append_right (Nat.le_refl _)]
    simp
  have ht2 : (splitResult st0 P j S pbA sbA { op := .phidef d, irctx := ctx }).unit.tuples[
      st0.unit.tuples.length + 1]? = some (List.range' st0.unit.next_vr regs0.length) := by
    rw [htup1, List.getElem?_append_right (Nat.le_succ _)]
    simp
  -- what the rest of the run keeps
  have hMn : u.blocks.length ≤ st0.unit.blocks.length := c.inv.len_le
  obtain ⟨extF, hextF⟩ := hK.tuples
  have hMF : st.unit.blocks[st0.unit.blocks.length]? = some
      (Vblock.mk (fwdCode st0.unit.tuples.length S { op := .phidef d, irctx := ctx })
        (max pbA.area_idx sbA.area_idx) sbA.weight) := by
    rw [hK.news _ hMn (by omega)]
    exact hnew
  obtain ⟨b2, hb2, hs2⟩ := hK.slot _
    (splitResult_get_pred st0 P j S pbA sbA { op := .phidef d, irctx := ctx } c.pred_lt_len)
  rw [succs_setTargetCode, List.getElem?_set_self (lt_of_getElem? c.hs)] at hs2
  have hP1 := h4.succs_eq P
  rw [hb2] at hP1
  obtain ⟨pb1, hpb1, hsucc1⟩ : ∃ pb1, unit1.blocks[P]? = some pb1 ∧ succs pb1 = succs b2 := by
    cases hq : unit1.blocks[P]? with
    | none => rw [hq] at hP1; simp at hP1
    | some pb1 => rw [hq] at hP1; simp at hP1; exact ⟨pb1, rfl, hP1⟩
  -- an appended block is not a catch block
  have hnc : ∀ m, u.blocks.length ≤ m → m ∉ st.catch_blocks := fun m hm hmc => by
    have := (h2.catch_lp m hmc).1
    omega
  -- nor is `S`, which starts with a phidef
  obtain ⟨sb1, hsb1, hbl⟩ := shape_get h2 hS
  obtain ⟨x, hx, hxi, hxo⟩ := head_of_headKey (headKey_of_blank hbl) hhead
  have hxop : x.op = .phidef d := op_eq_of_blankOp_phidef hxo
  have hxeq : x = { op := .phidef d, irctx := ctx } := by
    cases x
    simp at hxop hxi
    simp [hxop, hxi]
  have hSc : S ∉ st.catch_blocks := fun hs => by
    obtain ⟨_, b3, x2, k1, k2, k3⟩ := h2.catch_lp S hs
    rw [hsb1] at k1
    cases k1
    rw [hx] at k2
    cases k2
    rw [hxop] at k3
    cases k3
  obtain ⟨ext, hext⟩ := h2.tuples
  have htF1 : st.unit.tuples[st0.unit.tuples.length]? =
      some (List.range' st0.unit.next_vr regs0.length) := by
    rw [hextF, List.getElem?_append_left (lt_of_getElem? ht1)]
    exact ht1
  have htF2 : st.unit.tuples[st0.unit.tuples.length + 1]? =
      some (List.range' st0.unit.next_vr regs0.length) := by
    rw [hextF, List.getElem?_append_left (lt_of_getElem? ht2)]
    exact ht2
  have hv0 := c.inv.vr_le
  have hvF := hK.vr
  refine ⟨pb1, _, sb1, st0.unit.blocks.length, st0.unit.tuples.length,
    st0.unit.tuples.length + 1, List.range' st0.unit.next_vr regs0.length, hpb1,
    by rw [hsucc1]; exact hs2, hMn, by rw [h4.other _ (hnc _ hMn)]; exact hMF,
    by simp [fwdCode], by rw [h4.tuples]; exact htF1, by rw [h4.tuples]; exact htF2,
    by simp, List.nodup_range' _ _, ?_, by rw [h4.other S hSc]; exact hsb1,
    by rw [hx, hxeq], ?_, ?_, ?_⟩
  · intro r hr
    rw [List.mem_range'_1] at hr
    rw [h4.next_vr]
    omega
  · rw [h4.tuples, hext, List.getElem?_append_left hd]
    exact hregs
  · refine ⟨st0, _, by simp [statesAt, hc1, hA, h0run, hsplit], rfl, hnew, ht1, rfl, ?_⟩
    intro r hr
    rw [List.mem_range'_1] at hr
    rw [hvr1]
    omega
  · intro M2 mb2 hM2 hne hmb2 r hr hr2
    rw [h4.other M2 (hnc M2 hM2)] at hmb2
    rw [h4.tuples] at hr2
    have hnd : (allRegs st.unit.tuples (st.unit.blocks.drop u.blocks.length)).Nodup := by
      rw [h2.alloc]
      exact List.nodup_range' _ _
    have ha : (st.unit.blocks.drop u.blocks.length)[st0.unit.blocks.length - u.blocks.length]? =
        some (Vblock.mk (fwdCode st0.unit.tuples.length S { op := .phidef d, irctx := ctx })
          (max pbA.area_idx sbA.area_idx) sbA.weight) := by
      rw [List.getElem?_drop]
      have e : u.blocks.length + (st0.unit.blocks.length - u.blocks.length) =
          st0.unit.blocks.length := by omega
      rw [e]
      exact hMF
    have hb : (st.unit.blocks.drop u.blocks.length)[M2 - u.blocks.length]? = some mb2 := by
      rw [List.getElem?_drop]
      have e : u.blocks.length + (M2 - u.blocks.length) = M2 := by omega
      rw [e]
      exact hmb2
    have hreg : blockRegs st.unit.tuples
        (Vblock.mk (fwdCode st0.unit.tuples.length S { op := .phidef d, irctx := ctx })
          (max pbA.area_idx sbA.area_idx) sbA.weight) =
        List.range' st0.unit.next_vr regs0.length :=
      blockRegs_phidef _ _ st0.unit.tuples.length ctx _ (by simp [fwdCode]) htF1
    exact allRegs_disjoint st.unit.tuples _ hnd _ _ _ _ (by omega) ha hb r
      (by rw [hreg]; exact hr) hr2

theorem splitCriticalEdges_phidef_forward_witness :
    SplitReady twoEdgeUnit ∧
    ∃ N, ∀ fuel, N ≤ fuel → ∃ changed unit1,
      splitCriticalEdges fuel twoEdgeUnit = .ok (changed, unit1) ∧
      ∃ (pb1 mb sb1 : Vblock) (M t1 t2 : Nat) (regs : List Nat),
        unit1.blocks[0]? = some pb1 ∧ (succs pb1)[1]? = some M ∧
        twoEdgeUnit.blocks.length ≤ M ∧
        unit1.blocks[M]? = some mb ∧
        mb.code = [{ op := .phidef t1, irctx := 7 }, { op := .phijmp 1 t2, irctx := 7 }] ∧
        unit1.tuples[t1]? = some regs ∧ unit1.tuples[t2]? = some regs ∧
        regs.length = [1, 2].length ∧ regs.Nodup ∧
        (∀ r ∈ regs, twoEdgeUnit.next_vr ≤ r ∧ r < unit1.next_vr) ∧
        unit1.blocks[1]? = some sb1 ∧
        sb1.code.head? = some { op := .phidef 0, irctx := 7 } ∧
        unit1.tuples[0]? = some [1, 2] ∧
        (∃ st0 st1 : SplitState, statesAt twoEdgeUnit 0 1 = .ok (st0, st1) ∧
          st0.unit.blocks.length = M ∧ st1.unit.blocks[M]? = some mb ∧
          st1.unit.tuples[t1]? = some regs ∧
          regs = List.range' st0.unit.next_vr [1, 2].length ∧
          ∀ r ∈ regs, st0.unit.next_vr ≤ r ∧ r < st1.unit.next_vr) ∧
        (∀ (M2 : Nat) (mb2 : Vblock), twoEdgeUnit.blocks.length ≤ M2 → M2 ≠ M →
          unit1.blocks[M2]? = some mb2 → ∀ r ∈ regs, r ∉ blockRegs unit1.tuples mb2) := by
  refine ⟨twoEdgeUnit_ready, ?_⟩
  obtain ⟨N, h⟩ := splitCriticalEdges_phidef_forward twoEdgeUnit twoEdgeUnit_ready
  refine ⟨N, fun fuel hf => ?_⟩
  obtain ⟨changed, unit1, h1, h2⟩ := h fuel hf
  exact ⟨changed, unit1, h1, h2 0 1 1 _ _ 0 7 [1, 2] rfl (by decide) rfl (by decide) rfl rfl rfl⟩

/-! ## The flood fill of `findLoopBlocks` -/

theorem count_false_set (V : List Bool) (w : Nat) (h : V[w]? = some false) :
    (V.set w true).count false + 1 = V.count false := by
  induction V generalizing w with
  | nil => simp at h
  | cons a V ih =>
    cases w with
    | zero =>
      simp at h
      subst h
      simp [List.set]
    | succ w =>
      simp at h
      have := ih w h
      simp only [List.set, List.count_cons]
      omega

theorem fillInv_final {n : Nat} {preds : List (List Nat)} {H : Nat} {tails : List Nat}
    {visited : List Bool} {blocks : List Nat}
    (hI : FillInv n preds H tails [] visited blocks) (X : Nat) :
    X ∈ blocks ↔ (X = H ∨ ∃ T ∈ tails, BackReach preds H T X) := by
  constructor
  · exact hI.sound X
  · rintro (rfl | ⟨T, hT, hr⟩)
    · exact hI.header
    · induction hr with
      | start hne =>
        rcases hI.tails_in T hT with h | h
        · exact h
        · simp at h
      | step hprev hmem hne ih =>
        rename_i Y X2
        have hYne : Y ≠ H := by
          cases hprev with
          | start h => exact h
          | step _ _ h => exact h
        rcases hI.closed Y ih hYne X2 hmem with h | h
        · exact h
        · simp at h

theorem fillInv_pop_visited {n : Nat} {preds : List (List Nat)} {H : Nat} {tails : List Nat}
    {w : Nat} {rest : List Nat} {visited : List Bool} {blocks : List Nat}
    (hI : FillInv n preds H tails (w :: rest) visited blocks) (hw : visited[w]? = some true) :
    FillInv n preds H tails rest visited blocks where
  len := hI.len
  header := hI.header
  vis_iff := hI.vis_iff
  sound := hI.sound
  wl_ok := fun x hx => hI.wl_ok x (List.mem_cons_of_mem _ hx)
  tails_in := fun T hT => by
    rcases hI.tails_in T hT with h | h
    · exact Or.inl h
    · rcases List.mem_cons.mp h with rfl | h
      · exact Or.inl ((hI.vis_iff _).mpr hw)
      · exact Or.inr h
  closed := fun Y hY hne X hX => by
    rcases hI.closed Y hY hne X hX with h | h
    · exact Or.inl h
    · rcases List.mem_cons.mp h with rfl | h
      · exact Or.inl ((hI.vis_iff _).mpr hw)
      · exact Or.inr h

theorem fillInv_pop_new {n : Nat} {preds : List (List Nat)} {H : Nat} {tails : List Nat}
    {w : Nat} {rest : List Nat} {visited : List Bool} {blocks : List Nat} {ps : List Nat}
    (hI : FillInv n preds H tails (w :: rest) visited blocks) (hw : visited[w]? = some false)
    (hps : preds[w]? = some ps) (hlab : ∀ p ∈ ps, p < n) :
    FillInv n preds H tails (ps.reverse ++ rest) (visited.set w true) (blocks ++ [w]) := by
  have hwn : w < visited.length := (List.getElem?_eq_some.mp hw).1
  have hwH : w ≠ H := by
    intro e
    have := (hI.vis_iff H).mp hI.header
    rw [← e, hw] at this
    simp at this
  have hreach : ∃ T ∈ tails, BackReach preds H T w := by
    rcases (hI.wl_ok w (List.mem_cons_self _ _)).2 with h | h
    · exact absurd h hwH
    · exact h
  refine ⟨by simpa using hI.len, by simp [hI.header], ?_, ?_, ?_, ?_, ?_⟩
  · intro X
    rw [List.mem_append, List.getElem?_set]
    by_cases hX : w = X
    · subst hX; simp [hwn]
    · simp only [hX, if_false, List.mem_singleton]
      rw [← hI.vis_iff X]
      constructor
      · rintro (h | h)
        · exact h
        · exact absurd h.symm hX
      · exact Or.inl
  · intro X hX
    rcases List.mem_append.mp hX with h | h
    · exact hI.sound X h
    · simp at h
      subst h
      exact Or.inr hreach
  · intro x hx
    rcases List.mem_append.mp hx with h | h
    · have hxp : x ∈ ps := List.mem_reverse.mp h
      refine ⟨hlab x hxp, ?_⟩
      by_cases hxH : x = H
      · exact Or.inl hxH
      · obtain ⟨T, hT, hr⟩ := hreach
        exact Or.inr ⟨T, hT, BackReach.step hr (by simp [hps, hxp]) hxH⟩
    · exact hI.wl_ok x (List.mem_cons_of_mem _ h)
  · intro T hT
    rcases hI.tails_in T hT with h | h
    · exact Or.inl (List.mem_append_left _ h)
    · rcases List.mem_cons.mp h with rfl | h
      · exact Or.inl (by simp)
      · exact Or.inr (List.mem_append_right _ h)
  · intro Y hY hne X hX
    rcases List.mem_append.mp hY with h | h
    · rcases hI.closed Y h hne X hX with k | k
      · exact Or.inl (List.mem_append_left _ k)
      · rcases List.mem_cons.mp k with rfl | k
        · exact Or.inl (by simp)
        · exact Or.inr (List.mem_append_right _ k)
    · simp at h
      subst h
      rw [hps] at hX
      simp at hX
      exact Or.inr (List.mem_append_left _ (List.mem_reverse.mpr hX))

/-- The flood fill ends without fault, given enough fuel, with the invariant and an
empty work list. -/
theorem fillLoop_spec (n : Nat) (preds : List (List Nat)) (H : Nat) (tails : List Nat)
    (hsize : preds.length = n) (hlab : ∀ ps ∈ preds, ∀ p ∈ ps, p < n) :
    ∀ (c : Nat) (worklist : List Nat) (visited : List Bool) (blocks : List Nat),
      visited.count false = c → FillInv n preds H tails worklist visited blocks →
      ∃ N blocks1, (∀ fuel, N ≤ fuel → fillLoop preds fuel worklist visited blocks = .ok blocks1) ∧
        ∃ visited1, FillInv n preds H tails [] visited1 blocks1 := by
  intro c
  induction c with
  | zero =>
    intro worklist
    induction worklist with
    | nil =>
      intro visited blocks _ hI
      refine ⟨0, blocks, ?_, visited, hI⟩
      intro fuel _
      cases fuel <;> simp [fillLoop]
    | cons w rest ih =>
      intro visited blocks hc hI
      have hwn : w < visited.length := by rw [hI.len]; exact (hI.wl_ok w (List.mem_cons_self _ _)).1
      have hw : visited[w]? = some true := by
        rw [List.getElem?_eq_getElem hwn]
        cases hv : visited[w] with
        | true => rfl
        | false =>
          have : false ∈ visited := by rw [← hv]; exact List.getElem_mem _
          have := List.count_pos_iff.mpr this
          omega
      obtain ⟨N, b1, h1, h2⟩ := ih visited blocks hc (fillInv_pop_visited hI hw)
      refine ⟨N + 1, b1, ?_, h2⟩
      intro fuel hf
      obtain ⟨f, rfl⟩ : ∃ f, fuel = f + 1 := ⟨fuel - 1, by omega⟩
      simp only [fillLoop, hw]
      exact h1 f (by omega)
  | succ c ihc =>
    intro worklist
    induction worklist with
    | nil =>
      intro visited blocks _ hI
      refine ⟨0, blocks, ?_, visited, hI⟩
      intro fuel _
      cases fuel <;> simp [fillLoop]
    | cons w rest ih =>
      intro visited blocks hc hI
      have hwn : w < visited.length := by rw [hI.len]; exact (hI.wl_ok w (List.mem_cons_self _ _)).1
      cases hv : visited[w] with
      | true =>
        have hw : visited[w]? = some true := by rw [List.getElem?_eq_getElem hwn, hv]
        obtain ⟨N, b1, h1, h2⟩ := ih visited blocks hc (fillInv_pop_visited hI hw)
        refine ⟨N + 1, b1, ?_, h2⟩
        intro fuel hf
        obtain ⟨f, rfl⟩ : ∃ f, fuel = f + 1 := ⟨fuel - 1, by omega⟩
        simp only [fillLoop, hw]
        exact h1 f (by omega)
      | false =>
        have hw : visited[w]? = some false := by rw [List.getElem?_eq_getElem hwn, hv]
        have hwp : w < preds.length := by rw [hsize, ← hI.len]; exact hwn
        have hps : preds[w]? = some preds[w] := List.getElem?_eq_getElem hwp
        have hI2 := fillInv_pop_new hI hw hps (hlab _ (List.getElem_mem _))
        have hc2 : (visited.set w true).count false = c := by
          have := count_false_set visited w hw
          omega
        obtain ⟨N, b1, h1, h2⟩ := ihc _ _ _ hc2 hI2
        refine ⟨N + 1, b1, ?_, h2⟩
        intro fuel hf
        obtain ⟨f, rfl⟩ : ∃ f, fuel = f + 1 := ⟨fuel - 1, by omega⟩
        simp only [fillLoop, hw, hps]
        exact h1 f (by omega)

/-! ## Grouping the back edges and filling every loop -/

/-- The lambda `fillBlocks` ends without fault, given enough fuel, and returns the header
and the blocks reached backwards from the tails. -/
theorem fillBlocks_spec (unit : Vunit) (preds : List (List Nat)) (H : Nat) (tails : List Nat)
    (hsize : preds.length = unit.blocks.length)
    (hlab : ∀ ps ∈ preds, ∀ p ∈ ps, p < unit.blocks.length)
    (hH : H < unit.blocks.length) (ht : ∀ T ∈ tails, T < unit.blocks.length) :
    ∃ N blocks, (∀ fuel, N ≤ fuel → fillBlocks fuel unit preds H tails = .ok blocks) ∧
      ∀ X, X ∈ blocks ↔ (X = H ∨ ∃ T ∈ tails, BackReach preds H T X) := by
  have hI : FillInv unit.blocks.length preds H tails tails.reverse
      ((List.replicate unit.blocks.length false).set H true) [H] := by
    refine ⟨by simp, by simp, ?_, ?_, ?_, ?_, ?_⟩
    · intro X
      rw [List.getElem?_set]
      by_cases hX : H = X
      · subst hX; simp [hH]
      · simp [hX, List.getElem?_replicate]
        exact fun e => hX e.symm
    · intro X hX
      simp at hX
      exact Or.inl hX
    · intro w hw
      have hwt : w ∈ tails := List.mem_reverse.mp hw
      refine ⟨ht w hwt, ?_⟩
      by_cases hwH : w = H
      · exact Or.inl hwH
      · exact Or.inr ⟨w, hwt, BackReach.start hwH⟩
    · intro T hT
      exact Or.inr (List.mem_reverse.mpr hT)
    · intro Y hY hne
      simp at hY
      exact absurd hY hne
  obtain ⟨N, blocks, h1, v1, h2⟩ := fillLoop_spec unit.blocks.length preds H tails hsize hlab
    _ _ _ _ rfl hI
  refine ⟨N, blocks, ?_, fun X => fillInv_final h2 X⟩
  intro fuel hf
  simp only [fillBlocks, hH, if_true]
  exact h1 fuel hf

theorem addHeader_keys (T H : Nat) : ∀ hs : List (Nat × List Nat),
    (addHeader T H hs).map Prod.fst =
      if H ∈ hs.map Prod.fst then hs.map Prod.fst else hs.map Prod.fst ++ [H] := by
  intro hs
  induction hs with
  | nil => simp [addHeader]
  | cons a hs ih =>
    obtain ⟨h, ts⟩ := a
    by_cases hh : h = H
    · subst hh; simp [addHeader]
    · have hh2 : ¬ H = h := fun e => hh e.symm
      simp only [addHeader, hh, if_false, List.map_cons, ih, List.mem_cons, hh2, false_or]
      by_cases hm : H ∈ hs.map Prod.fst
      · simp [hm]
      · simp [hm]

theorem addHeader_mem (T H : Nat) : ∀ hs : List (Nat × List Nat), (hs.map Prod.fst).Nodup →
    ∀ H1 ts1, (H1, ts1) ∈ addHeader T H hs ↔
      ((H1 ≠ H ∧ (H1, ts1) ∈ hs) ∨
       (H1 = H ∧ ((∃ ts, (H, ts) ∈ hs ∧ ts1 = ts ++ [T]) ∨
                  (H ∉ hs.map Prod.fst ∧ ts1 = [T])))) := by
  intro hs
  induction hs with
  | nil =>
    intro _ H1 ts1
    simp [addHeader]
  | cons a hs ih =>
    intro hnd H1 ts1
    obtain ⟨h, ts⟩ := a
    have hnd2 : (hs.map Prod.fst).Nodup := (List.nodup_cons.mp hnd).2
    have hnotin : h ∉ hs.map Prod.fst := (List.nodup_cons.mp hnd).1
    have hno : ∀ ts2, (h, ts2) ∉ hs := fun ts2 hm =>
      hnotin (List.mem_map.mpr ⟨(h, ts2), hm, rfl⟩)
    by_cases hh : h = H
    · subst hh
      by_cases h1 : H1 = h
      · subst h1
        simp [addHeader, hno]
      · simp [addHeader, h1]
    · have hh2 : ¬ H = h := fun e => hh e.symm
      by_cases h1 : H1 = H
      · subst h1
        have := ih hnd2 H1 ts1
        simp at this
        simp [addHeader, hh, hh2, this]
      · have := ih hnd2 H1 ts1
        simp [h1] at this
        simp [addHeader, hh, h1, this]

theorem addHeader_spec (T H : Nat) (E : Nat × Nat → Prop) (hs : List (Nat × List Nat))
    (h : HeadersOf E hs) : HeadersOf (fun e => e = (T, H) ∨ E e) (addHeader T H hs) where
  nodup := by
    rw [addHeader_keys]
    by_cases hm : H ∈ hs.map Prod.fst
    · simp only [hm, if_true]; exact h.nodup
    · simp only [hm, if_false]
      exact List.Nodup.append h.nodup (List.nodup_singleton _) (by simpa using hm)
  tails := by
    intro H1 ts1 hm T1
    rcases (addHeader_mem T H hs h.nodup H1 ts1).mp hm with ⟨h1, h2⟩ | ⟨rfl, h2⟩
    · rw [h.tails H1 ts1 h2 T1]
      constructor
      · exact Or.inr
      · rintro (e | e)
        · simp at e; exact absurd e.2 h1
        · exact e
    · rcases h2 with ⟨ts, h3, rfl⟩ | ⟨h3, rfl⟩
      · rw [List.mem_append, h.tails H1 ts h3 T1]
        simp
        tauto
      · simp only [List.mem_singleton, Prod.mk.injEq, and_true]
        constructor
        · exact Or.inl
        · rintro (e | e)
          · exact e
          · obtain ⟨ts, hts⟩ := h.heads T1 H1 e
            exact absurd (List.mem_map.mpr ⟨(H1, ts), hts, rfl⟩) h3
  keys := by
    intro H1 ts1 hm
    rcases (addHeader_mem T H hs h.nodup H1 ts1).mp hm with ⟨_, h2⟩ | ⟨rfl, _⟩
    · obtain ⟨T1, hT1⟩ := h.keys H1 ts1 h2
      exact ⟨T1, Or.inr hT1⟩
    · exact ⟨T, Or.inl rfl⟩
  heads := by
    intro T1 H1 hE
    by_cases h1 : H1 = H
    · subst h1
      by_cases hm : H1 ∈ hs.map Prod.fst
      · obtain ⟨⟨k, ts⟩, hk, rfl⟩ := List.mem_map.mp hm
        exact ⟨ts ++ [T], (addHeader_mem T _ hs h.nodup _ _).mpr
          (Or.inr ⟨rfl, Or.inl ⟨ts, hk, rfl⟩⟩)⟩
      · exact ⟨[T], (addHeader_mem T _ hs h.nodup _ _).mpr (Or.inr ⟨rfl, Or.inr ⟨hm, rfl⟩⟩)⟩
    · rcases hE with e | e
      · simp at e; exact absurd e.2 h1
      · obtain ⟨ts, hts⟩ := h.heads T1 H1 e
        exact ⟨ts, (addHeader_mem T H hs h.nodup _ _).mpr (Or.inl ⟨h1, hts⟩)⟩

theorem groupHeaders_spec : ∀ (edges : List (Nat × Nat)) (E : Nat × Nat → Prop)
    (hs : List (Nat × List Nat)), HeadersOf E hs →
    HeadersOf (fun e => e ∈ edges ∨ E e) (groupHeaders edges hs) := by
  intro edges
  induction edges with
  | nil => intro E hs h; simpa [groupHeaders] using h
  | cons a edges ih =>
    intro E hs h
    obtain ⟨T, H⟩ := a
    have := ih _ _ (addHeader_spec T H E hs h)
    simp only [groupHeaders]
    have e : (fun e => e ∈ (T, H) :: edges ∨ E e) = (fun e => e ∈ edges ∨ e = (T, H) ∨ E e) := by
      funext e
      simp only [List.mem_cons, eq_iff_iff]
      tauto
    rw [e]
    exact this

theorem fillAll_spec (unit : Vunit) (preds : List (List Nat))
    (hsize : preds.length = unit.blocks.length)
    (hlab : ∀ ps ∈ preds, ∀ p ∈ ps, p < unit.blocks.length) :
    ∀ (hs : List (Nat × List Nat)),
      (∀ H ts, (H, ts) ∈ hs → H < unit.blocks.length ∧ ∀ T ∈ ts, T < unit.blocks.length) →
      ∃ N loops, (∀ fuel, N ≤ fuel → fillAll fuel unit preds hs = .ok loops) ∧
        loops.map Prod.fst = hs.map Prod.fst ∧
        ∀ H blocks, (H, blocks) ∈ loops → ∃ ts, (H, ts) ∈ hs ∧
          ∀ X, X ∈ blocks ↔ (X = H ∨ ∃ T ∈ ts, BackReach preds H T X) := by
  intro hs
  induction hs with
  | nil =>
    intro _
    exact ⟨0, [], fun _ _ => rfl, rfl, fun _ _ h => by simp at h⟩
  | cons a hs ih =>
    intro hr
    obtain ⟨H, ts⟩ := a
    obtain ⟨h1, h2⟩ := hr H ts (List.mem_cons_self _ _)
    obtain ⟨N1, bl, k1, k2⟩ := fillBlocks_spec unit preds H ts hsize hlab h1 h2
    obtain ⟨N2, loops, k3, k4, k5⟩ := ih (fun H1 ts1 hm => hr H1 ts1 (List.mem_cons_of_mem _ hm))
    refine ⟨max N1 N2, (H, bl) :: loops, ?_, by simp [k4], ?_⟩
    · intro fuel hf
      simp only [fillAll, k1 fuel (by omega), k3 fuel (by omega)]
    · intro H1 bl1 hm
      rcases List.mem_cons.mp hm with e | hm
      · simp at e
        obtain ⟨rfl, rfl⟩ := e
        exact ⟨ts, List.mem_cons_self _ _, k2⟩
      · obtain ⟨ts1, m1, m2⟩ := k5 H1 bl1 hm
        exact ⟨ts1, List.mem_cons_of_mem _ m1, m2⟩

theorem mem_unique_of_nodup_keys {α : Type} : ∀ (l : List (Nat × α)), (l.map Prod.fst).Nodup →
    ∀ k a b, (k, a) ∈ l → (k, b) ∈ l → a = b := by
  intro l
  induction l with
  | nil => intro _ k a b h; simp at h
  | cons x l ih =>
    intro hnd k a b ha hb
    have hnd2 := (List.nodup_cons.mp hnd).2
    have hnotin := (List.nodup_cons.mp hnd).1
    rcases List.mem_cons.mp ha with e1 | h1
    · rcases List.mem_cons.mp hb with e2 | h2
      · rw [← e1] at e2; simp at e2; exact e2.symm
      · exact absurd (List.mem_map.mpr ⟨(k, b), h2, by rw [← e1]⟩) hnotin
    · rcases List.mem_cons.mp hb with e2 | h2
      · exact absurd (List.mem_map.mpr ⟨(k, a), h1, by rw [← e2]⟩) hnotin
      · exact ih hnd2 k a b h1 h2

/-- C4: for a predecessor table and back edges whose labels are labels of the unit,
`findLoopBlocks` ends without fault, given enough fuel, and for every header `H` that is
the head of a back edge the returned map has exactly one entry for `H`, whose blocks
are, as a set, `H` together with every block reached from a tail of a back edge into
`H` by following predecessor lists without passing through `H`. -/
theorem findLoopBlocks_membership (unit : Vunit) (preds : List (List Nat))
    (backEdges : List (Nat × Nat)) (hr : LoopReady unit preds backEdges) :
    ∃ N, ∀ fuel, N ≤ fuel → ∃ loops,
      findLoopBlocks fuel unit preds backEdges = .ok loops ∧
      ∀ H, (∃ T, (T, H) ∈ backEdges) →
        ∃ blocks, (H, blocks) ∈ loops ∧ (∀ bl, (H, bl) ∈ loops → bl = blocks) ∧
          ∀ X, X ∈ blocks ↔ (X = H ∨ ∃ T, (T, H) ∈ backEdges ∧ BackReach preds H T X) := by
  have hg : HeadersOf (fun e => e ∈ backEdges ∨ False) (groupHeaders backEdges []) :=
    groupHeaders_spec backEdges (fun _ => False) []
      ⟨List.nodup_nil, fun _ _ h => by simp at h, fun _ _ h => by simp at h,
        fun _ _ h => h.elim⟩
  have hlabels : ∀ H ts, (H, ts) ∈ groupHeaders backEdges [] →
      H < unit.blocks.length ∧ ∀ T ∈ ts, T < unit.blocks.length := by
    intro H ts hm
    have ht := hg.tails H ts hm
    constructor
    · obtain ⟨T, hT⟩ := hg.keys H ts hm
      simp at hT
      exact (hr.edges _ hT).2
    · intro T hT
      have := (ht T).mp hT
      simp at this
      exact (hr.edges _ this).1
  obtain ⟨N, loops, h1, h2, h3⟩ := fillAll_spec unit preds hr.size hr.labels _ hlabels
  refine ⟨N, fun fuel hf => ⟨loops, by simp only [findLoopBlocks]; exact h1 fuel hf, ?_⟩⟩
  rintro H ⟨T, hT⟩
  obtain ⟨ts, hts⟩ := hg.heads T H (Or.inl hT)
  have hkey : H ∈ loops.map Prod.fst := by
    rw [h2]; exact List.mem_map.mpr ⟨(H, ts), hts, rfl⟩
  obtain ⟨⟨H1, blocks⟩, hb, hb2⟩ := List.mem_map.mp hkey
  simp at hb2
  subst hb2
  have hnd : (loops.map Prod.fst).Nodup := by rw [h2]; exact hg.nodup
  refine ⟨blocks, hb, fun bl hbl => mem_unique_of_nodup_keys loops hnd _ _ _ hbl hb, ?_⟩
  obtain ⟨ts1, m1, m2⟩ := h3 _ blocks hb
  intro X
  rw [m2 X]
  have ht := hg.tails _ ts1 m1
  constructor
  · rintro (e | ⟨T1, hT1, hreach⟩)
    · exact Or.inl e
    · have := (ht T1).mp hT1
      simp at this
      exact Or.inr ⟨T1, this, hreach⟩
  · rintro (e | ⟨T1, hT1, hreach⟩)
    · exact Or.inl e
    · exact Or.inr ⟨T1, (ht T1).mpr (Or.inl hT1), hreach⟩

theorem loopUnit_ready : LoopReady loopUnit [[], [0, 2], [1], [1]] [(2, 1)] where
  size := by decide
  labels := by decide
  edges := by decide

theorem findLoopBlocks_membership_witness :
    LoopReady loopUnit [[], [0, 2], [1], [1]] [(2, 1)] ∧
    computePreds loopUnit = .ok [[], [0, 2], [1], [1]] ∧
    findLoopBlocks 4 loopUnit [[], [0, 2], [1], [1]] [(2, 1)] = .ok [(1, [1, 2])] ∧
    ∃ N, ∀ fuel, N ≤ fuel → ∃ loops,
      findLoopBlocks fuel loopUnit [[], [0, 2], [1], [1]] [(2, 1)] = .ok loops ∧
      ∀ H, (∃ T, (T, H) ∈ [(2, 1)]) →
        ∃ blocks, (H, blocks) ∈ loops ∧ (∀ bl, (H, bl) ∈ loops → bl = blocks) ∧
          ∀ X, X ∈ blocks ↔
            (X = H ∨ ∃ T, (T, H) ∈ [(2, 1)] ∧ BackReach [[], [0, 2], [1], [1]] H T X) :=
  ⟨loopUnit_ready, rfl, rfl,
    findLoopBlocks_membership loopUnit [[], [0, 2], [1], [1]] [(2, 1)] loopUnit_ready⟩

/-! ## `findDominators`, `dominates` and `findBackEdges` on concrete graphs -/

/-- The diamond of the specification: every block other than the entry has the entry as
immediate dominator. -/
theorem findDominators_diamond :
    reversePostorder diamondUnit = [0, 2, 1, 3] ∧
    findDominators 4 diamondUnit [0, 2, 1, 3] = .ok [none, some 0, some 0, some 0] :=
  ⟨rfl, rfl⟩

/-- C2: on the irreducible graph `irreducibleUnit`, with entry 0 and its reverse
postorder, `findDominators` returns a vector in which block 2 is the immediate dominator
of block 1, so that `dominates(2, 1)` is true, although the path 0, 3, 4, 5, 1 from the
entry to block 1 does not pass through block 2. -/
theorem findDominators_irreducible_not_dominance :
    reversePostorder irreducibleUnit = [0, 2, 1, 4, 5, 3] ∧
    findDominators 12 irreducibleUnit [0, 2, 1, 4, 5, 3] =
      .ok [none, some 2, some 0, some 0, some 0, some 4] ∧
    dominates 6 2 1 [none, some 2, some 0, some 0, some 0, some 4] = .ok true ∧
    Reachable irreducibleUnit 2 ∧ Reachable irreducibleUnit 1 ∧
    ¬ GraphDominates irreducibleUnit 2 1 := by
  refine ⟨rfl, rfl, rfl, ⟨[0, 2], rfl, rfl, rfl⟩, ⟨[0, 2, 1], rfl, rfl, rfl⟩, ?_⟩
  intro h
  have := h [0, 3, 4, 5, 1] rfl rfl (rfl)
  revert this
  decide

/-- C3: on `entryOneLoopUnit`, whose entry is block 1, with its reverse postorder and
the vector `findDominators` returns for it, `findBackEdges` returns no edge at all,
although block 0 is in the reverse postorder, block 2 is a successor of block 0 and
`dominates(2, 0)` is true: the edge `0 -> 2` is skipped as not yet seen. -/
theorem findBackEdges_misses_edge :
    reversePostorder entryOneLoopUnit = [1, 3, 0, 2] ∧
    findDominators 4 entryOneLoopUnit [1, 3, 0, 2] = .ok [some 2, none, some 1, none] ∧
    findBackEdges 4 entryOneLoopUnit [1, 3, 0, 2] [some 2, none, some 1, none] = .ok [] ∧
    0 ∈ [1, 3, 0, 2] ∧ hasEdge entryOneLoopUnit 0 2 = true ∧
    dominates 4 2 0 [some 2, none, some 1, none] = .ok true :=
  ⟨rfl, rfl, rfl, by decide, rfl, rfl⟩

/-- C7: on `unreachableUnit`, with entry 0 and its reverse postorder, the vector
`findDominators` returns has the none sentinel in the slot of block 1, a block of the
unit other than the entry. -/
theorem findDominators_unreachable_slot :
    reversePostorder unreachableUnit = [0] ∧
    ∃ idom, findDominators 1 unreachableUnit [0] = .ok idom ∧
      ∃ b, b < unreachableUnit.blocks.length ∧ b ≠ unreachableUnit.entry ∧
        idom[b]? = some none :=
  ⟨rfl, [none, none], rfl, 1, by decide, by decide, rfl⟩

/-- C8: on `entryOneUnit`, whose entry is block 1, with its reverse postorder,
`findDominators` leaves the none sentinel in the slot of block 0, which is reachable and
is not the entry: that block has no immediate dominator at all, and the links from it
do not lead to the entry. -/
theorem findDominators_entry_one_no_idom :
    reversePostorder entryOneUnit = [1, 0] ∧
    findDominators 2 entryOneUnit [1, 0] = .ok [none, none] ∧
    Reachable entryOneUnit 0 ∧ 0 ≠ entryOneUnit.entry ∧
    ([none, none] : List (Option Nat))[0]? = some none :=
  ⟨rfl, rfl, ⟨[1, 0], rfl, rfl, rfl⟩, by decide, rfl⟩

/-- C9: on `entryOneUnit`, whose entry is block 1, with its reverse postorder and the
vector `findDominators` returns for it, `dominates(entry, 0)` is false although block 0
is reachable from the entry. -/
theorem dominates_entry_false :
    reversePostorder entryOneUnit = [1, 0] ∧
    ∃ idom, findDominators 2 entryOneUnit [1, 0] = .ok idom ∧
      Reachable entryOneUnit 0 ∧ dominates 3 entryOneUnit.entry 0 idom = .ok false :=
  ⟨rfl, [none, none], rfl, ⟨[1, 0], rfl, rfl, rfl⟩, rfl⟩

/-! ## The forwarding blocks -/

theorem plainUnit_ready : SplitReady plainUnit where
  nonempty := by decide
  targets := by decide
  tuples := by
    intro b hb h d hh hop
    simp [plainUnit] at hb
    rcases hb with rfl | rfl | rfl <;> simp at hh <;> subst hh <;> simp at hop

/-- The removal of the landingpads leaves the blocks appended by the main loop alone. -/
theorem cleaned_new {u : Vunit} {st : SplitState} {unit1 : Vunit} (hinv : SplitInv u st)
    (hc : Cleaned st.catch_blocks st.unit unit1) {m : Nat} (hm : u.blocks.length ≤ m) :
    unit1.blocks[m]? = st.unit.blocks[m]? :=
  hc.other m fun hmc => by
    have := (hinv.catch_lp m hmc).1
    omega

/-- The removal of the landingpads keeps a block at every label, with its successors. -/
theorem cleaned_get {st : SplitState} {unit1 : Vunit}
    (hc : Cleaned st.catch_blocks st.unit unit1) {p : Nat} {b : Vblock}
    (hb : st.unit.blocks[p]? = some b) :
    ∃ b1, unit1.blocks[p]? = some b1 ∧ succs b1 = succs b := by
  have h := hc.succs_eq p
  rw [hb] at h
  cases hq : unit1.blocks[p]? with
  | none => rw [hq] at h; simp at h
  | some b1 => rw [hq] at h; simp at h; exact ⟨b1, rfl, h⟩

/-- The same, from the unit after the removal back to the one before. -/
theorem cleaned_get_inv {st : SplitState} {unit1 : Vunit}
    (hc : Cleaned st.catch_blocks st.unit unit1) {p : Nat} {b1 : Vblock}
    (hb : unit1.blocks[p]? = some b1) :
    ∃ b, st.unit.blocks[p]? = some b ∧ succs b1 = succs b := by
  have h := hc.succs_eq p
  rw [hb] at h
  cases hq : st.unit.blocks[p]? with
  | none => rw [hq] at h; simp at h
  | some b => rw [hq] at h; simp at h; exact ⟨b, rfl, h⟩

/-- C14: for every critical edge `P -> S` (slot `j` of `P`) of a well-formed unit, after
`splitCriticalEdges` the slot points to a new block `M` whose area index is the larger of
the area indices of `P` and `S` and whose weight is the weight of `S`; when the first
instruction of `S` is neither a phidef nor a landingpad, the code of `M` is the single
instruction `jmp S` with the context of that first instruction. -/
theorem splitCriticalEdges_forward_area_weight (u : Vunit) (hu : SplitReady u) :
    ∃ N, ∀ fuel, N ≤ fuel → ∃ changed unit1,
      splitCriticalEdges fuel u = .ok (changed, unit1) ∧
      ∀ (P j S : Nat) (pb sb : Vblock) (h : Vinstr),
        u.blocks[P]? = some pb → 1 < (succs pb).length → (succs pb)[j]? = some S →
        1 < predCount u S → u.blocks[S]? = some sb → sb.code.head? = some h →
        ∃ (pb1 mb : Vblock) (M : Nat),
          unit1.blocks[P]? = some pb1 ∧ (succs pb1)[j]? = some M ∧ u.blocks.length ≤ M ∧
          unit1.blocks[M]? = some mb ∧
          mb.area_idx = max pb.area_idx sb.area_idx ∧ mb.weight = sb.weight ∧
          ((∀ d, h.op ≠ .phidef d) → h.op ≠ .landingpad →
            mb.code = [{ op := .jmp S, irctx := h.irctx }]) := by
  obtain ⟨N, st, unit1, h1, h2, h3, h4⟩ := splitCriticalEdges_run u hu
  refine ⟨N, fun fuel hf => ⟨st.changed, unit1, h1 fuel hf, ?_⟩⟩
  intro P j S pb sb h hP hlen hj hgt hS hhead
  obtain ⟨b, M, hb, hM, hMn, hfw⟩ :=
    forwards_of_critical h2 h3 hP hlen hj (lt_of_getElem? hS) hgt
  obtain ⟨pb0, sb0, h0, nt, vr, f1, f2, f3, f4, f5, f6, f7, f8⟩ := hfw
  rw [hP] at f1
  cases f1
  rw [hS] at f2
  cases f2
  rw [hhead] at f3
  cases f3
  obtain ⟨pb1, hpb1, hsucc1⟩ := cleaned_get h4 hb
  refine ⟨pb1, Vblock.mk (fwdCode nt S h) (max pb.area_idx sb.area_idx) sb.weight, M, hpb1, by rw [hsucc1]; exact hM, hMn,
    by rw [cleaned_new h2 h4 hMn]; exact f5, rfl, rfl, ?_⟩
  intro hnp hnl
  show fwdCode nt S h = _
  unfold fwdCode
  cases hop : h.op with
  | phidef d => exact absurd hop (hnp d)
  | landingpad => exact absurd hop hnl
  | jmp t => rfl
  | branch ts => rfl
  | phijmp t us => rfl
  | nop => rfl
  | other tag => rfl

theorem splitCriticalEdges_forward_area_weight_witness :
    SplitReady plainUnit ∧
    ∃ N, ∀ fuel, N ≤ fuel → ∃ changed unit1,
      splitCriticalEdges fuel plainUnit = .ok (changed, unit1) ∧
      ∃ (pb1 mb : Vblock) (M : Nat),
        unit1.blocks[0]? = some pb1 ∧ (succs pb1)[1]? = some M ∧ 3 ≤ M ∧
        unit1.blocks[M]? = some mb ∧ mb.area_idx = 3 ∧ mb.weight = 7 ∧
        mb.code = [{ op := .jmp 2, irctx := 8 }] := by
  refine ⟨plainUnit_ready, ?_⟩
  obtain ⟨N, h⟩ := splitCriticalEdges_forward_area_weight plainUnit plainUnit_ready
  refine ⟨N, fun fuel hf => ?_⟩
  obtain ⟨changed, unit1, k1, k2⟩ := h fuel hf
  refine ⟨changed, unit1, k1, ?_⟩
  obtain ⟨pb1, mb, M, g1, g2, g3, g4, g5, g6, g7⟩ :=
    k2 0 1 2 _ _ { op := .other 1, irctx := 8 } rfl (by decide) rfl (by decide) rfl rfl
  exact ⟨pb1, mb, M, g1, g2, g3, g4, g5, g6, g7 (by intro d; simp) (by simp)⟩

/-! ## The control-flow graph up to forwarding blocks -/

/-- C20: `splitCriticalEdges` keeps the control-flow graph of a well-formed unit up to
forwarding blocks: every appended block has exactly one successor and exactly one incoming
edge; every block of the input keeps its number of successors and of incoming edges; and
replacing in its successor list every new label by the successor of that new block gives
the successor list it had in the input. -/
theorem splitCriticalEdges_preserves_cfg (u : Vunit) (hu : SplitReady u) :
    ∃ N, ∀ fuel, N ≤ fuel → ∃ changed unit1,
      splitCriticalEdges fuel u = .ok (changed, unit1) ∧
      u.blocks.length ≤ unit1.blocks.length ∧
      (∀ (m : Nat) (mb : Vblock), u.blocks.length ≤ m → unit1.blocks[m]? = some mb →
        (succs mb).length = 1 ∧ predCount unit1 m = 1) ∧
      (∀ (p : Nat) (b0 : Vblock), u.blocks[p]? = some b0 →
        ∃ b1, unit1.blocks[p]? = some b1 ∧ (succs b1).length = (succs b0).length ∧
          predCount unit1 p = predCount u p ∧
          (succs b1).map (forwardTarget u.blocks.length unit1) = succs b0) := by
  obtain ⟨N, st, unit1, h1, h2, _, h4⟩ := splitCriticalEdges_run u hu
  refine ⟨N, fun fuel hf => ⟨st.changed, unit1, h1 fuel hf, ?_, ?_, ?_⟩⟩
  · rw [h4.length]; exact h2.len_le
  · intro m mb hm hmb
    obtain ⟨b, hb, hs⟩ := cleaned_get_inv h4 hmb
    refine ⟨by rw [hs]; exact succs_length_of_new h2 hm hb, ?_⟩
    rw [predCount_eq_of_succs h4.succs_eq]
    exact h2.count_new m hm (lt_of_getElem? hb)
  · intro p b0 hb0
    obtain ⟨b, hb, hbl⟩ := shape_get h2 hb0
    obtain ⟨b1, hb1, hs1⟩ := cleaned_get h4 hb
    have hlen : (succs b).length = (succs b0).length := succs_length_of_blank hbl
    refine ⟨b1, hb1, by rw [hs1]; exact hlen, ?_, ?_⟩
    · rw [predCount_eq_of_succs h4.succs_eq]
      exact h2.count_old p (lt_of_getElem? hb0)
    · rw [hs1]
      apply List.ext_getElem?
      intro j
      rw [List.getElem?_map]
      cases hj : (succs b0)[j]? with
      | none =>
        have : (succs b)[j]? = none := by
          rw [List.getElem?_eq_none_iff] at hj ⊢
          omega
        rw [this]; rfl
      | some s0 =>
        obtain ⟨b2, s, k1, k2, hor⟩ := h2.slots p j b0 s0 hb0 hj
        rw [hb] at k1
        cases k1
        rw [k2]
        have hs0 : s0 < u.blocks.length := hu.targets b0 (mem_of_getElem? hb0) s0 (mem_of_getElem? hj)
        rcases hor with rfl | ⟨g1, g2⟩
        · simp [forwardTarget, hs0]
        · obtain ⟨mb, m1, m2⟩ := succs_of_Forwards g2
          have m3 : unit1.blocks[s]? = some mb := by rw [cleaned_new h2 h4 g1]; exact m1
          have : ¬ s < u.blocks.length := by omega
          simp [forwardTarget, this, m3, m2]

theorem splitCriticalEdges_preserves_cfg_witness :
    SplitReady exampleUnit ∧
    ∃ N, ∀ fuel, N ≤ fuel → ∃ changed unit1,
      splitCriticalEdges fuel exampleUnit = .ok (changed, unit1) ∧
      exampleUnit.blocks.length ≤ unit1.blocks.length ∧
      (∀ (m : Nat) (mb : Vblock), exampleUnit.blocks.length ≤ m → unit1.blocks[m]? = some mb →
        (succs mb).length = 1 ∧ predCount unit1 m = 1) ∧
      (∀ (p : Nat) (b0 : Vblock), exampleUnit.blocks[p]? = some b0 →
        ∃ b1, unit1.blocks[p]? = some b1 ∧ (succs b1).length = (succs b0).length ∧
          predCount unit1 p = predCount exampleUnit p ∧
          (succs b1).map (forwardTarget exampleUnit.blocks.length unit1) = succs b0) :=
  ⟨exampleUnit_ready, splitCriticalEdges_preserves_cfg exampleUnit exampleUnit_ready⟩

/-! ## Where the forwarding blocks come from -/

theorem exists_of_sum_pos : ∀ (l : List Nat), 0 < l.sum → ∃ x ∈ l, 0 < x := by
  intro l
  induction l with
  | nil => intro h; simp at h
  | cons a l ih =>
    intro h
    by_cases ha : 0 < a
    · exact ⟨a, List.mem_cons_self _ _, ha⟩
    · simp at ha
      subst ha
      simp at h
      obtain ⟨x, hx, hx0⟩ := ih h
      exact ⟨x, List.mem_cons_of_mem _ hx, hx0⟩

/-- A label with an incoming edge is a successor of some block. -/
theorem exists_of_predCount_pos {unit : Vunit} {x : Nat} (h : 0 < predCount unit x) :
    ∃ b ∈ unit.blocks, x ∈ succs b := by
  obtain ⟨c, hc, hc0⟩ := exists_of_sum_pos _ h
  obtain ⟨b, hb, rfl⟩ := List.mem_map.mp hc
  exact ⟨b, hb, List.count_pos_iff.mp hc0⟩

/-- Every appended block was made for a critical edge of the input, whose slot now
points to it. -/
theorem critical_of_new {u : Vunit} (hu : SplitReady u) {st : SplitState} (hinv : SplitInv u st)
    {m : Nat} {mb : Vblock} (hm : u.blocks.length ≤ m) (hmb : st.unit.blocks[m]? = some mb) :
    ∃ (p j s0 : Nat) (b0 b : Vblock), u.blocks[p]? = some b0 ∧ (succs b0)[j]? = some s0 ∧
      1 < (succs b0).length ∧ 1 < predCount u s0 ∧ succs mb = [s0] ∧
      Forwards u st.unit p m s0 ∧ st.unit.blocks[p]? = some b ∧ (succs b)[j]? = some m := by
  have hc := hinv.count_new m hm (lt_of_getElem? hmb)
  obtain ⟨b, hb, hmem⟩ := exists_of_predCount_pos (by omega : 0 < predCount st.unit m)
  obtain ⟨p, hp⟩ := List.mem_iff_getElem?.mp hb
  have hpn : p < u.blocks.length := by
    by_contra hge
    obtain ⟨p', s', hf⟩ := hinv.news p (by omega) (lt_of_getElem? hp)
    obtain ⟨mb', k1, k2⟩ := succs_of_Forwards hf
    rw [hp] at k1
    cases k1
    rw [k2] at hmem
    simp at hmem
    obtain ⟨_, sb0, _, _, _, _, f2, _⟩ := hf
    have := lt_of_getElem? f2
    omega
  have hb0 : u.blocks[p]? = some u.blocks[p] := List.getElem?_eq_getElem hpn
  obtain ⟨b2, hb2, hbl⟩ := shape_get hinv hb0
  rw [hp] at hb2
  cases hb2
  obtain ⟨j, hj⟩ := List.mem_iff_getElem?.mp hmem
  have hjl : j < (succs u.blocks[p]).length := by
    rw [← succs_length_of_blank hbl]; exact lt_of_getElem? hj
  have hs0 : (succs u.blocks[p])[j]? = some (succs u.blocks[p])[j] := List.getElem?_eq_getElem hjl
  have hs0n : (succs u.blocks[p])[j] < u.blocks.length :=
    hu.targets _ (mem_of_getElem? hb0) _ (mem_of_getElem? hs0)
  obtain ⟨b3, s, k1, k2, hor⟩ := hinv.slots p j _ _ hb0 hs0
  rw [hp] at k1
  cases k1
  rw [hj] at k2
  cases k2
  have hne : m ≠ (succs u.blocks[p])[j] := by omega
  obtain ⟨c1, c2⟩ := hinv.crit p j _ b _ m hb0 hs0 hp hj hne
  rcases hor with h1 | ⟨_, h2⟩
  · exact absurd h1 hne
  · obtain ⟨mb', m1, m2⟩ := succs_of_Forwards h2
    rw [hmb] at m1
    cases m1
    exact ⟨p, j, _, _, b, hb0, hs0, c1, c2, m2, h2, hp, hj⟩

/-! ## The edges into a block that lost its landingpad -/

theorem catchUnit_ready : SplitReady catchUnit where
  nonempty := by decide
  targets := by decide
  tuples := by
    intro b hb h d hh hop
    simp [catchUnit] at hb
    rcases hb with rfl | rfl | rfl <;> simp at hh <;> subst hh <;> simp at hop

/-- A block that has lost its landingpad is one of the recorded catch blocks. -/
theorem mem_catch_of_lost {u : Vunit} {st : SplitState} {unit1 : Vunit} (hinv : SplitInv u st)
    (hc : Cleaned st.catch_blocks st.unit unit1) {S : Nat} (hS : StartsWithLandingpad u S)
    (hl : ¬ StartsWithLandingpad unit1 S) : S ∈ st.catch_blocks := by
  by_contra hn
  apply hl
  obtain ⟨sb, h, k1, k2, k3⟩ := hS
  obtain ⟨b, hb, hbl⟩ := shape_get hinv k1
  obtain ⟨x, hx, _, hxo⟩ := head_of_headKey (headKey_of_blank hbl) k2
  rw [k3] at hxo
  exact ⟨b, x, by rw [hc.other S hn]; exact hb, hx, op_eq_of_blankOp_landingpad hxo⟩

/-- A recorded catch block is the target of a critical edge of the input. -/
theorem critical_of_catch {u : Vunit} (hu : SplitReady u) {st : SplitState}
    (hinv : SplitInv u st) {S : Nat} (hS : S ∈ st.catch_blocks) : 1 < predCount u S := by
  obtain ⟨_, m, mb, k1, k2, k3⟩ := (hinv.catch_mem S).mp hS
  obtain ⟨p, j, s0, b0, b, _, _, _, c2, c3, _⟩ := critical_of_new hu hinv k1 k2
  rw [k3] at c3
  simp at c3
  subst c3
  exact c2

/-- C15, at a concrete unit: after `splitCriticalEdges` block 2 of `catchUnit`, which
started with a landingpad, starts with a nop, and the edge from block 1, a block of the
input that starts with a jmp, still enters it directly. -/
theorem splitCriticalEdges_direct_edge_into_catch :
    ∃ unit1 b1 sb1, splitCriticalEdges 4 catchUnit = .ok (true, unit1) ∧
      StartsWithLandingpad catchUnit 2 ∧
      unit1.blocks[2]? = some sb1 ∧
      sb1.code = [{ op := .nop, irctx := 0 }, { op := .other 1, irctx := 8 }] ∧
      unit1.blocks[1]? = some b1 ∧ 2 ∈ succs b1 ∧ 1 < catchUnit.blocks.length ∧
      b1.code = [{ op := .jmp 2, irctx := 6 }] :=
  ⟨_, _, _, rfl, ⟨_, _, rfl, rfl, rfl⟩, rfl, rfl, rfl, by decide, by decide, rfl⟩

/-- C15, amended: for every well-formed unit and every block `S` whose leading
landingpad `h` is gone after `splitCriticalEdges`, every edge that enters `S` in the
resulting unit comes either from an appended block whose code is a copy of `h` followed
by `jmp S`, or from a block of the input whose only successor is `S`. -/
theorem splitCriticalEdges_edges_into_catch (u : Vunit) (hu : SplitReady u) :
    ∃ N, ∀ fuel, N ≤ fuel → ∃ changed unit1,
      splitCriticalEdges fuel u = .ok (changed, unit1) ∧
      ∀ (S : Nat) (sb : Vblock) (h : Vinstr), u.blocks[S]? = some sb →
        sb.code.head? = some h → h.op = .landingpad → ¬ StartsWithLandingpad unit1 S →
        ∀ (q : Nat) (b1 : Vblock), unit1.blocks[q]? = some b1 → S ∈ succs b1 →
          (u.blocks.length ≤ q ∧ b1.code = [h, { op := .jmp S, irctx := h.irctx }]) ∨
          (∃ b0, u.blocks[q]? = some b0 ∧ succs b0 = [S] ∧ succs b1 = [S]) := by
  obtain ⟨N, st, unit1, h1, h2, h3, h4⟩ := splitCriticalEdges_run u hu
  refine ⟨N, fun fuel hf => ⟨st.changed, unit1, h1 fuel hf, ?_⟩⟩
  intro S sb h hsb hh hop hlost q b1 hb1 hmem
  have hcatch := mem_catch_of_lost h2 h4 ⟨sb, h, hsb, hh, hop⟩ hlost
  have hgt := critical_of_catch hu h2 hcatch
  have hSn := lt_of_getElem? hsb
  obtain ⟨b, hb, hsucc⟩ := cleaned_get_inv h4 hb1
  rw [hsucc] at hmem
  by_cases hq : u.blocks.length ≤ q
  · left
    obtain ⟨p, j, s0, b0, bp, _, _, _, _, c3, c4, _⟩ := critical_of_new hu h2 hq hb
    rw [c3] at hmem
    simp at hmem
    subst hmem
    obtain ⟨pb0, sb0, h0, nt, vr, _, f2, f3, _, f5, _⟩ := c4
    rw [hsb] at f2
    cases f2
    rw [hh] at f3
    cases f3
    rw [hb] at f5
    cases f5
    have e : unit1.blocks[q]? = st.unit.blocks[q]? := cleaned_new h2 h4 hq
    rw [hb1, hb] at e
    cases e
    exact ⟨hq, by simp [fwdCode, hop]⟩
  · right
    have hqn : q < u.blocks.length := by omega
    have hb0 : u.blocks[q]? = some u.blocks[q] := List.getElem?_eq_getElem hqn
    obtain ⟨b2, hb2, hbl⟩ := shape_get h2 hb0
    rw [hb] at hb2
    cases hb2
    have hlen := succs_length_of_blank hbl
    obtain ⟨j, hj⟩ := List.mem_iff_getElem?.mp hmem
    have hle : (succs b).length ≤ 1 := by
      by_contra hgt1
      have := h3 q b (lt_of_getElem? hb) hb (by omega) S hmem
      rw [h2.count_old S hSn] at this
      omega
    have hj0 : j = 0 := by have := lt_of_getElem? hj; omega
    subst hj0
    have hsb1 : succs b = [S] := by
      cases hs : succs b with
      | nil => rw [hs] at hj; simp at hj
      | cons a l =>
        rw [hs] at hj hle
        simp at hj hle
        subst hj hle
        rfl
    have hjl : 0 < (succs u.blocks[q]).length := by
      rw [← hlen, hsb1]; simp
    have hs0 : (succs u.blocks[q])[0]? = some (succs u.blocks[q])[0] :=
      List.getElem?_eq_getElem hjl
    obtain ⟨b3, s, k1, k2, hor⟩ := h2.slots q 0 _ _ hb0 hs0
    rw [hb] at k1
    cases k1
    rw [hj] at k2
    cases k2
    have hS0 : S = (succs u.blocks[q])[0] := by
      rcases hor with g | ⟨g, _⟩
      · exact g
      · omega
    refine ⟨_, hb0, ?_, by rw [hsucc]; exact hsb1⟩
    cases hs : succs u.blocks[q] with
    | nil => rw [hs] at hjl; simp at hjl
    | cons a l =>
      have hl1 : (succs u.blocks[q]).length = 1 := by rw [← hlen, hsb1]; rfl
      rw [hs] at hl1
      simp at hl1
      subst hl1
      simp [hs] at hS0
      rw [hS0]

theorem splitCriticalEdges_edges_into_catch_witness :
    SplitReady catchUnit ∧
    ∃ N, ∀ fuel, N ≤ fuel → ∃ changed unit1,
      splitCriticalEdges fuel catchUnit = .ok (changed, unit1) ∧
      (¬ StartsWithLandingpad unit1 2 →
        ∀ (q : Nat) (b1 : Vblock), unit1.blocks[q]? = some b1 → 2 ∈ succs b1 →
          (catchUnit.blocks.length ≤ q ∧
            b1.code = [{ op := .landingpad, irctx := 9 }, { op := .jmp 2, irctx := 9 }]) ∨
          (∃ b0, catchUnit.blocks[q]? = some b0 ∧ succs b0 = [2] ∧ succs b1 = [2])) := by
  refine ⟨catchUnit_ready, ?_⟩
  obtain ⟨N, h⟩ := splitCriticalEdges_edges_into_catch catchUnit catchUnit_ready
  refine ⟨N, fun fuel hf => ?_⟩
  obtain ⟨changed, unit1, k1, k2⟩ := h fuel hf
  exact ⟨changed, unit1, k1, k2 2 _ { op := .landingpad, irctx := 9 } rfl rfl rfl⟩

/-! ## Counting the critical edges and the forwarding blocks -/

theorem countP_add_pointwise {α : Type} (P : α → Bool) (Q R : α → Bool) :
    ∀ (l1 l2 : List α), l1.length = l2.length →
      (∀ (j : Nat) (a b : α), l1[j]? = some a → l2[j]? = some b →
        (if P a then 1 else 0) + (if Q b then 1 else 0) = (if R b then 1 else 0)) →
      l1.countP P + l2.countP Q = l2.countP R := by
  intro l1
  induction l1 with
  | nil =>
    intro l2 hl _
    cases l2 with
    | nil => rfl
    | cons b l2 => simp at hl
  | cons a l1 ih =>
    intro l2 hl hp
    cases l2 with
    | nil => simp at hl
    | cons b l2 =>
      have h0 := hp 0 a b (by simp) (by simp)
      have h1 := ih l2 (by simpa using hl)
        (fun j a' b' ha hb => hp (j + 1) a' b' (by simpa using ha) (by simpa using hb))
      simp only [List.countP_cons]
      omega

theorem sum_map_add_pointwise {α : Type} (F G H : α → Nat) :
    ∀ (l1 l2 : List α), l1.length = l2.length →
      (∀ (p : Nat) (a b : α), l1[p]? = some a → l2[p]? = some b → F a + G b = H b) →
      (l1.map F).sum + (l2.map G).sum = (l2.map H).sum := by
  intro l1
  induction l1 with
  | nil =>
    intro l2 hl _
    cases l2 with
    | nil => rfl
    | cons b l2 => simp at hl
  | cons a l1 ih =>
    intro l2 hl hp
    cases l2 with
    | nil => simp at hl
    | cons b l2 =>
      have h0 := hp 0 a b (by simp) (by simp)
      have h1 := ih l2 (by simpa using hl)
        (fun j a' b' ha hb => hp (j + 1) a' b' (by simpa using ha) (by simpa using hb))
      simp only [List.map_cons, List.sum_cons]
      omega

theorem sum_map_count_of_single (S : Nat) : ∀ (l : List Vblock),
    (∀ b ∈ l, (succs b).length = 1) →
    (l.map fun b => (succs b).count S).sum = l.countP fun b => decide (S ∈ succs b) := by
  intro l
  induction l with
  | nil => intro _; rfl
  | cons b l ih =>
    intro h
    have hb := h b (List.mem_cons_self _ _)
    have ih2 := ih (fun x hx => h x (List.mem_cons_of_mem _ hx))
    simp only [List.map_cons, List.sum_cons, List.countP_cons, ih2]
    cases hs : succs b with
    | nil => rw [hs] at hb; simp at hb
    | cons a t =>
      rw [hs] at hb
      simp at hb
      subst hb
      by_cases haS : a = S
      · subst haS; simp; omega
      · have : ¬ S = a := fun e => haS e.symm
        simp [haS, this]

theorem sum_range_indicator (a : Nat) : ∀ (k n : Nat),
    ((List.range' n k).map fun m => if a = m then 1 else 0).sum =
      if n ≤ a ∧ a < n + k then 1 else 0 := by
  intro k
  induction k with
  | zero =>
    intro n
    have : ¬ (n ≤ a ∧ a < n) := by omega
    simp [this]
  | succ k ih =>
    intro n
    rw [List.range'_succ, List.map_cons, List.sum_cons, ih (n + 1)]
    by_cases h1 : a = n
    · subst h1; simp
    · by_cases h2 : n ≤ a ∧ a < n + (k + 1)
      · have : n + 1 ≤ a ∧ a < n + 1 + k := by omega
        simp [h1, h2, this]
      · have : ¬ (n + 1 ≤ a ∧ a < n + 1 + k) := by omega
        simp [h1, h2, this]

theorem sum_range_count (n k : Nat) : ∀ (l : List Nat),
    ((List.range' n k).map fun m => l.count m).sum =
      l.countP fun s => decide (n ≤ s ∧ s < n + k) := by
  intro l
  induction l with
  | nil => simp
  | cons a l ih =>
    have e : ((List.range' n k).map fun m => (a :: l).count m) =
        ((List.range' n k).map fun m => l.count m + if a = m then 1 else 0) := by
      apply List.map_congr_left
      intro m _
      rw [List.count_cons]
      simp
    rw [e, List.sum_map_add, ih, sum_range_indicator, List.countP_cons]
    simp

theorem sum_map_sum_comm {α β : Type} (f : α → β → Nat) (B : List α) : ∀ (R : List β),
    (R.map fun m => (B.map fun b => f b m).sum).sum =
      (B.map fun b => (R.map fun m => f b m).sum).sum := by
  intro R
  induction R with
  | nil => simp
  | cons m R ih =>
    simp only [List.map_cons, List.sum_cons, ih, List.sum_map_add]

/-- The incoming edges of the labels `n, .., n+k-1`, counted block by block. -/
theorem sum_predCount_range (v : Vunit) (n k : Nat) :
    ((List.range' n k).map fun m => predCount v m).sum =
      (v.blocks.map fun b => (succs b).countP fun s => decide (n ≤ s ∧ s < n + k)).sum := by
  unfold predCount
  rw [sum_map_sum_comm (fun b m => (succs b).count m) v.blocks (List.range' n k)]
  apply congrArg
  apply List.map_congr_left
  intro b _
  exact sum_range_count n k (succs b)

/-- After the run, a successor slot of a block of the input holds a new label if its edge
was critical, and what it held otherwise. -/
theorem slot_cases {u : Vunit} (hu : SplitReady u) {st : SplitState} (hinv : SplitInv u st)
    (hd : Done st st.unit.blocks.length) {p j s s0 : Nat} {b b0 : Vblock}
    (hb0 : u.blocks[p]? = some b0) (hb : st.unit.blocks[p]? = some b)
    (hs0 : (succs b0)[j]? = some s0) (hs : (succs b)[j]? = some s) :
    s0 < u.blocks.length ∧ s < st.unit.blocks.length ∧
    ((1 < (succs b0).length ∧ 1 < predCount u s0) → u.blocks.length ≤ s) ∧
    (¬ (1 < (succs b0).length ∧ 1 < predCount u s0) → s = s0) := by
  have h0n : s0 < u.blocks.length := hu.targets b0 (mem_of_getElem? hb0) s0 (mem_of_getElem? hs0)
  refine ⟨h0n, hinv.targets b (mem_of_getElem? hb) s (mem_of_getElem? hs), ?_, ?_⟩
  · rintro ⟨c1, c2⟩
    obtain ⟨b', M, k1, k2, k3, _⟩ := forwards_of_critical hinv hd hb0 c1 hs0 h0n c2
    rw [hb] at k1
    cases k1
    rw [hs] at k2
    cases k2
    exact k3
  · intro hn
    by_contra hne
    exact hn (hinv.crit p j b0 b s0 s hb0 hs0 hb hs hne)

theorem getElem?_take_some {α : Type} {l : List α} {n p : Nat} {a : α}
    (h : (l.take n)[p]? = some a) : p < n ∧ l[p]? = some a := by
  rw [List.getElem?_take] at h
  by_cases hp : p < n
  · simp [hp] at h; exact ⟨hp, h⟩
  · simp [hp] at h

theorem mem_drop_getElem? {α : Type} {l : List α} {n : Nat} {a : α} (h : a ∈ l.drop n) :
    ∃ m, n ≤ m ∧ l[m]? = some a := by
  obtain ⟨i, hi⟩ := List.mem_iff_getElem?.mp h
  rw [List.getElem?_drop] at hi
  exact ⟨n + i, by omega, hi⟩

/-- After the run, the appended blocks that lead to `S` are as many as the critical edges
of the input into `S`. -/
theorem newInto_eq {u : Vunit} (hu : SplitReady u) {st : SplitState} (hinv : SplitInv u st)
    (hd : Done st st.unit.blocks.length) {S : Nat} (hS : S < u.blocks.length) :
    newInto u.blocks.length st.unit S = criticalInto u S := by
  have hcount := hinv.count_old S hS
  have hsplit : predCount st.unit S =
      ((st.unit.blocks.take u.blocks.length).map fun b => (succs b).count S).sum +
      ((st.unit.blocks.drop u.blocks.length).map fun b => (succs b).count S).sum := by
    unfold predCount
    rw [← List.sum_append, ← List.map_append, List.take_append_drop]
  have hnew : ((st.unit.blocks.drop u.blocks.length).map fun b => (succs b).count S).sum =
      newInto u.blocks.length st.unit S := by
    unfold newInto
    apply sum_map_count_of_single
    intro b hb
    obtain ⟨m, hm, hbm⟩ := mem_drop_getElem? hb
    exact succs_length_of_new hinv hm hbm
  have hold : ((st.unit.blocks.take u.blocks.length).map fun b => (succs b).count S).sum +
      criticalInto u S = predCount u S := by
    unfold criticalInto
    show _ + (u.blocks.map _).sum = (u.blocks.map fun b => (succs b).count S).sum
    apply sum_map_add_pointwise
    · rw [List.length_take]; exact Nat.min_eq_left hinv.len_le
    · intro p a b0 ha hb0
      obtain ⟨_, ha2⟩ := getElem?_take_some ha
      obtain ⟨b2, hb2, hbl⟩ := shape_get hinv hb0
      rw [ha2] at hb2
      cases hb2
      show (succs a).countP (fun x => x == S) + _ = (succs b0).countP (fun x => x == S)
      apply countP_add_pointwise
      · exact succs_length_of_blank hbl
      · intro j s s0 hs hs0
        obtain ⟨k1, _, k3, k4⟩ := slot_cases hu hinv hd hb0 ha2 hs0 hs
        simp only [beq_iff_eq, decide_eq_true_eq]
        by_cases hc : 1 < (succs b0).length ∧ 1 < predCount u s0
        · have hge := k3 hc
          have hsS : ¬ s = S := by omega
          split_ifs <;> first | rfl | (exfalso; tauto)
        · have he := k4 hc
          split_ifs <;> first | rfl | (exfalso; tauto) | (exfalso; omega)
  omega

/-- The successors of an appended block are labels of the input. -/
theorem succs_of_new_lt {u : Vunit} (hu : SplitReady u) {st : SplitState} (hinv : SplitInv u st)
    {m : Nat} {mb : Vblock} (hm : u.blocks.length ≤ m) (hmb : st.unit.blocks[m]? = some mb) :
    ∀ s ∈ succs mb, s < u.blocks.length := by
  obtain ⟨p, j, s0, b0, b, k1, k2, _, _, k5, _⟩ := critical_of_new hu hinv hm hmb
  intro s hs
  rw [k5] at hs
  simp at hs
  subst hs
  exact hu.targets b0 (mem_of_getElem? k1) s (mem_of_getElem? k2)

/-- After the run, the unit has one more block for every critical edge of the input. -/
theorem length_eq {u : Vunit} (hu : SplitReady u) {st : SplitState} (hinv : SplitInv u st)
    (hd : Done st st.unit.blocks.length) :
    st.unit.blocks.length = u.blocks.length + criticalEdges u := by
  obtain ⟨k, hk⟩ : ∃ k, st.unit.blocks.length = u.blocks.length + k :=
    ⟨st.unit.blocks.length - u.blocks.length, by have := hinv.len_le; omega⟩
  have h1 : ((List.range' u.blocks.length k).map fun m => predCount st.unit m).sum = k := by
    have e : ((List.range' u.blocks.length k).map fun m => predCount st.unit m) =
        ((List.range' u.blocks.length k).map fun _ => 1) := by
      apply List.map_congr_left
      intro m hm
      rw [List.mem_range'_1] at hm
      exact hinv.count_new m hm.1 (by omega)
    rw [e]
    simp
  rw [sum_predCount_range] at h1
  have hsplit : (st.unit.blocks.map fun b =>
        (succs b).countP fun s => decide (u.blocks.length ≤ s ∧ s < u.blocks.length + k)).sum =
      ((st.unit.blocks.take u.blocks.length).map fun b =>
        (succs b).countP fun s => decide (u.blocks.length ≤ s ∧ s < u.blocks.length + k)).sum +
      ((st.unit.blocks.drop u.blocks.length).map fun b =>
        (succs b).countP fun s => decide (u.blocks.length ≤ s ∧ s < u.blocks.length + k)).sum := by
    rw [← List.sum_append, ← List.map_append, List.take_append_drop]
  have hnew : ((st.unit.blocks.drop u.blocks.length).map fun b =>
      (succs b).countP fun s => decide (u.blocks.length ≤ s ∧ s < u.blocks.length + k)).sum = 0 := by
    apply List.sum_eq_zero
    intro c hc
    obtain ⟨b, hb, rfl⟩ := List.mem_map.mp hc
    obtain ⟨m, hm, hbm⟩ := mem_drop_getElem? hb
    rw [List.countP_eq_zero]
    intro s hs
    have := succs_of_new_lt hu hinv hm hbm s hs
    simp
    omega
  have hold : ((st.unit.blocks.take u.blocks.length).map fun b =>
      (succs b).countP fun s => decide (u.blocks.length ≤ s ∧ s < u.blocks.length + k)).sum +
      (u.blocks.map fun _ => 0).sum = criticalEdges u := by
    unfold criticalEdges
    apply sum_map_add_pointwise
    · rw [List.length_take]; exact Nat.min_eq_left hinv.len_le
    · intro p a b0 ha hb0
      obtain ⟨_, ha2⟩ := getElem?_take_some ha
      obtain ⟨b2, hb2, hbl⟩ := shape_get hinv hb0
      rw [ha2] at hb2
      cases hb2
      have hz : (succs b0).countP (fun _ => false) = 0 := by simp
      rw [Nat.add_zero, ← Nat.add_zero (List.countP _ (succs a)), ← hz]
      apply countP_add_pointwise
      · exact succs_length_of_blank hbl
      · intro j s s0 hs hs0
        obtain ⟨k1, k2, k3, k4⟩ := slot_cases hu hinv hd hb0 ha2 hs0 hs
        simp only [decide_eq_true_eq]
        by_cases hc : 1 < (succs b0).length ∧ 1 < predCount u s0
        · have hge := k3 hc
          split_ifs <;> first | rfl | (exfalso; tauto) | (exfalso; omega)
        · have he := k4 hc
          split_ifs <;> first | rfl | (exfalso; tauto) | (exfalso; omega)
  have hz : (u.blocks.map fun _ => 0).sum = 0 := by simp
  omega

/-! ## Landingpads after the split -/

theorem blankCode_get (code : List Vinstr) : ∀ (i : Nat),
    ((blankCode code)[i]?).map instrKey = (code[i]?).map instrKey := by
  induction code with
  | nil => intro i; rfl
  | cons x rest ih =>
    intro i
    cases rest with
    | nil =>
      cases i with
      | zero => simp [blankCode, instrKey, blankOp_idem]
      | succ i => simp [blankCode]
    | cons y rest =>
      have h3 : blankCode (x :: y :: rest) = x :: blankCode (y :: rest) := rfl
      rw [h3]
      cases i with
      | zero => simp
      | succ i => simpa using ih i

theorem key_of_blank {b b0 : Vblock} (h : blank b = blank b0) (i : Nat) :
    (b.code[i]?).map instrKey = (b0.code[i]?).map instrKey := by
  have : blankCode b.code = blankCode b0.code := by
    have := congrArg Vblock.code h
    simpa [blank] using this
  rw [← blankCode_get b.code, this, blankCode_get]

/-- Two blocks that agree up to targets have their landingpads at the same places. -/
theorem landingpad_of_blank {b b0 : Vblock} (h : blank b = blank b0) {i : Nat} {x : Vinstr}
    (hx : b.code[i]? = some x) (hop : x.op = .landingpad) :
    ∃ x0, b0.code[i]? = some x0 ∧ x0.op = .landingpad := by
  have hk := key_of_blank h i
  rw [hx] at hk
  cases h0 : b0.code[i]? with
  | none => rw [h0] at hk; simp at hk
  | some x0 =>
    rw [h0] at hk
    simp [instrKey] at hk
    refine ⟨x0, rfl, ?_⟩
    have := hk.1
    rw [hop] at this
    exact op_eq_of_blankOp_landingpad this.symm

theorem landingpadsFirst_fwdCode (nt S : Nat) (h : Vinstr) {i : Nat} {x : Vinstr}
    (hx : (fwdCode nt S h)[i]? = some x) (hop : x.op = .landingpad) : i = 0 := by
  unfold fwdCode at hx
  cases hh : h.op <;> rw [hh] at hx <;> simp only at hx <;>
    rcases i with _ | _ | i <;> simp at hx <;> first | rfl | (subst hx; simp at hop)

/-- The main loop keeps the landingpads at the head of the blocks. -/
theorem landingpadsFirst_of_inv {u : Vunit} (hlp : LandingpadsFirst u) {st : SplitState}
    (hinv : SplitInv u st) : LandingpadsFirst st.unit := by
  intro b hb i x hx hop
  obtain ⟨p, hp⟩ := List.mem_iff_getElem?.mp hb
  by_cases hpn : p < u.blocks.length
  · have hb0 : u.blocks[p]? = some u.blocks[p] := List.getElem?_eq_getElem hpn
    obtain ⟨b2, hb2, hbl⟩ := shape_get hinv hb0
    rw [hp] at hb2
    cases hb2
    obtain ⟨x0, k1, k2⟩ := landingpad_of_blank hbl hx hop
    exact hlp _ (mem_of_getElem? hb0) i x0 k1 k2
  · obtain ⟨q, s0, hf⟩ := hinv.news p (by omega) (lt_of_getElem? hp)
    obtain ⟨_, _, h, nt, _, _, _, _, _, f5, _⟩ := hf
    rw [hp] at f5
    cases f5
    exact landingpadsFirst_fwdCode nt s0 h hx hop

/-- The removal of the hoisted landingpads keeps them at the head too. -/
theorem landingpadsFirst_cleaned {cb : List Nat} {unit unit1 : Vunit}
    (hc : Cleaned cb unit unit1) (hlp : LandingpadsFirst unit) : LandingpadsFirst unit1 := by
  intro b hb i x hx hop
  obtain ⟨p, hp⟩ := List.mem_iff_getElem?.mp hb
  by_cases hpc : p ∈ cb
  · obtain ⟨b2, front, tail, k1, k2, _, k4⟩ := hc.nop p hpc
    rw [hp] at k4
    cases k4
    cases i with
    | zero => rfl
    | succ i =>
      simp at hx
      exact hlp b2 (mem_of_getElem? k1) (i + 1) x (by rw [k2]; simpa using hx) hop
  · rw [hc.other p hpc] at hp
    exact hlp b (mem_of_getElem? hp) i x hx hop

theorem drop_cleaned {u : Vunit} {st : SplitState} {unit1 : Vunit} (hinv : SplitInv u st)
    (hc : Cleaned st.catch_blocks st.unit unit1) :
    unit1.blocks.drop u.blocks.length = st.unit.blocks.drop u.blocks.length := by
  apply List.ext_getElem?
  intro i
  rw [List.getElem?_drop, List.getElem?_drop]
  exact cleaned_new hinv hc (by omega)

theorem catchUnit_landingpadsFirst : LandingpadsFirst catchUnit := by
  intro b hb i x hx hop
  simp [catchUnit] at hb
  rcases hb with rfl | rfl | rfl <;> rcases i with _ | _ | i <;> simp at hx <;>
    first | rfl | (subst hx; simp at hop)

/-- An appended block that leads to `S` exists as soon as `newInto` is positive. -/
theorem exists_new_of_newInto {u : Vunit} {st : SplitState} (hinv : SplitInv u st) {S : Nat}
    (h : 0 < newInto u.blocks.length st.unit S) :
    ∃ (m : Nat) (mb : Vblock), u.blocks.length ≤ m ∧ st.unit.blocks[m]? = some mb ∧
      succs mb = [S] := by
  unfold newInto at h
  obtain ⟨mb, hmb, hS⟩ := List.countP_pos_iff.mp h
  simp at hS
  obtain ⟨m, hm, hbm⟩ := mem_drop_getElem? hmb
  refine ⟨m, mb, hm, hbm, ?_⟩
  have hl := succs_length_of_new hinv hm hbm
  cases hs : succs mb with
  | nil => rw [hs] at hl; simp at hl
  | cons a t =>
    rw [hs] at hl hS
    simp at hl
    subst hl
    simp at hS
    rw [hS]

theorem newInto_pos_of_new {u : Vunit} {st : SplitState} {S m : Nat} {mb : Vblock}
    (hm : u.blocks.length ≤ m) (hmb : st.unit.blocks[m]? = some mb) (hs : S ∈ succs mb) :
    0 < newInto u.blocks.length st.unit S := by
  unfold newInto
  apply List.countP_pos_iff.mpr
  refine ⟨mb, ?_, by simpa using hs⟩
  apply List.mem_iff_getElem?.mpr
  refine ⟨m - u.blocks.length, ?_⟩
  rw [List.getElem?_drop]
  have : u.blocks.length + (m - u.blocks.length) = m := by omega
  rw [this]
  exact hmb

/-- C11: for every well-formed unit whose landingpads all stand first in their blocks,
and every block `S` of it that starts with a landingpad `h`: after `splitCriticalEdges`
no landingpad stands anywhere but first in its block; the appended blocks that lead to
`S` are exactly as many as the critical edges into `S`; each of them is `h` followed by
`jmp S`; if there is such an edge `S` now starts with a nop, and if there is none `S`
still starts with `h`. -/
theorem splitCriticalEdges_landingpads (u : Vunit) (hu : SplitReady u)
    (hlp : LandingpadsFirst u) :
    ∃ N, ∀ fuel, N ≤ fuel → ∃ changed unit1,
      splitCriticalEdges fuel u = .ok (changed, unit1) ∧ LandingpadsFirst unit1 ∧
      ∀ (S : Nat) (sb : Vblock) (h : Vinstr), u.blocks[S]? = some sb →
        sb.code.head? = some h → h.op = .landingpad →
        newInto u.blocks.length unit1 S = criticalInto u S ∧
        (∀ (m : Nat) (mb : Vblock), u.blocks.length ≤ m → unit1.blocks[m]? = some mb →
          S ∈ succs mb → mb.code = [h, { op := .jmp S, irctx := h.irctx }]) ∧
        (1 ≤ criticalInto u S → ∃ sb1, unit1.blocks[S]? = some sb1 ∧
          sb1.code.head? = some { op := .nop, irctx := 0 }) ∧
        (criticalInto u S = 0 → ∃ sb1, unit1.blocks[S]? = some sb1 ∧
          sb1.code.head? = some h) := by
  obtain ⟨N, st, unit1, h1, h2, h3, h4⟩ := splitCriticalEdges_run u hu
  refine ⟨N, fun fuel hf => ⟨st.changed, unit1, h1 fuel hf,
    landingpadsFirst_cleaned h4 (landingpadsFirst_of_inv hlp h2), ?_⟩⟩
  intro S sb h hsb hh hop
  have hSn := lt_of_getElem? hsb
  have hcnt : newInto u.blocks.length unit1 S = criticalInto u S := by
    unfold newInto
    rw [drop_cleaned h2 h4]
    exact newInto_eq hu h2 h3 hSn
  have hcnt2 : newInto u.blocks.length st.unit S = criticalInto u S := newInto_eq hu h2 h3 hSn
  refine ⟨hcnt, ?_, ?_, ?_⟩
  · intro m mb hm hmb hmem
    rw [cleaned_new h2 h4 hm] at hmb
    obtain ⟨p, j, s0, b0, bp, _, _, _, _, c3, c4, _⟩ := critical_of_new hu h2 hm hmb
    rw [c3] at hmem
    simp at hmem
    subst hmem
    obtain ⟨pb0, sb0, h0, nt, vr, _, f2, f3, _, f5, _⟩ := c4
    rw [hsb] at f2
    cases f2
    rw [hh] at f3
    cases f3
    rw [hmb] at f5
    cases f5
    simp [fwdCode, hop]
  · intro hk
    obtain ⟨m, mb, k1, k2, k3⟩ := exists_new_of_newInto h2 (by omega : 0 < newInto _ st.unit S)
    have hcatch : S ∈ st.catch_blocks :=
      (h2.catch_mem S).mpr ⟨⟨sb, h, hsb, hh, hop⟩, m, mb, k1, k2, k3⟩
    obtain ⟨b, front, tail, g1, g2, g3, g4⟩ := h4.nop S hcatch
    exact ⟨_, g4, rfl⟩
  · intro hk
    have hcatch : S ∉ st.catch_blocks := by
      intro hc
      obtain ⟨_, m, mb, k1, k2, k3⟩ := (h2.catch_mem S).mp hc
      have := newInto_pos_of_new k1 k2 (by rw [k3]; simp : S ∈ succs mb)
      omega
    obtain ⟨b, hb, hbl⟩ := shape_get h2 hsb
    obtain ⟨x, hx, hxi, hxo⟩ := head_of_headKey (headKey_of_blank hbl) hh
    rw [hop] at hxo
    have hxop := op_eq_of_blankOp_landingpad hxo
    have hxeq : x = h := by
      cases x
      cases h
      simp at hxop hxi hop
      simp [hxop, hxi, hop]
    refine ⟨b, by rw [h4.other S hcatch]; exact hb, by rw [hx, hxeq]⟩

theorem splitCriticalEdges_landingpads_witness :
    SplitReady catchUnit ∧ LandingpadsFirst catchUnit ∧
    ∃ N, ∀ fuel, N ≤ fuel → ∃ changed unit1,
      splitCriticalEdges fuel catchUnit = .ok (changed, unit1) ∧ LandingpadsFirst unit1 ∧
      newInto 3 unit1 2 = 1 ∧
      (∀ (m : Nat) (mb : Vblock), 3 ≤ m → unit1.blocks[m]? = some mb → 2 ∈ succs mb →
        mb.code = [{ op := .landingpad, irctx := 9 }, { op := .jmp 2, irctx := 9 }]) ∧
      ∃ sb1, unit1.blocks[2]? = some sb1 ∧ sb1.code.head? = some { op := .nop, irctx := 0 } := by
  refine ⟨catchUnit_ready, catchUnit_landingpadsFirst, ?_⟩
  obtain ⟨N, h⟩ := splitCriticalEdges_landingpads catchUnit catchUnit_ready
    catchUnit_landingpadsFirst
  refine ⟨N, fun fuel hf => ?_⟩
  obtain ⟨changed, unit1, k1, k2, k3⟩ := h fuel hf
  obtain ⟨g1, g2, g3, _⟩ := k3 2 _ { op := .landingpad, irctx := 9 } rfl rfl rfl
  have hk : criticalInto catchUnit 2 = 1 := by decide
  rw [hk] at g1 g3
  exact ⟨changed, unit1, k1, k2, g1, g2, g3 (Nat.le_refl 1)⟩

/-! ## What `splitCriticalEdges` leaves as it was -/

theorem blankCode_replace_front (x : Vinstr) : ∀ (f f0 : Vinstr) (t t0 : List Vinstr),
    blankCode (f :: t) = blankCode (f0 :: t0) → blankCode (x :: t) = blankCode (x :: t0) := by
  intro f f0 t t0 h
  cases t with
  | nil =>
    cases t0 with
    | nil => rfl
    | cons y0 r0 =>
      have := congrArg List.length h
      rw [blankCode_length, blankCode_length] at this
      simp at this
  | cons y r =>
    cases t0 with
    | nil =>
      have := congrArg List.length h
      rw [blankCode_length, blankCode_length] at this
      simp at this
    | cons y0 r0 =>
      have e1 : blankCode (f :: y :: r) = f :: blankCode (y :: r) := rfl
      have e2 : blankCode (f0 :: y0 :: r0) = f0 :: blankCode (y0 :: r0) := rfl
      have e3 : blankCode (x :: y :: r) = x :: blankCode (y :: r) := rfl
      have e4 : blankCode (x :: y0 :: r0) = x :: blankCode (y0 :: r0) := rfl
      rw [e1, e2] at h
      rw [e3, e4, (List.cons.inj h).2]

/-- The recorded catch blocks are the landingpad blocks of the input that a critical edge
leads to. -/
theorem mem_catch_iff {u : Vunit} (hu : SplitReady u) {st : SplitState} (hinv : SplitInv u st)
    (hd : Done st st.unit.blocks.length) (S : Nat) :
    S ∈ st.catch_blocks ↔ StartsWithLandingpad u S ∧ 1 ≤ criticalInto u S := by
  rw [hinv.catch_mem S]
  constructor
  · rintro ⟨k0, m, mb, k1, k2, k3⟩
    obtain ⟨sb, x, hsb, hx1, hx2⟩ := k0
    have := newInto_pos_of_new k1 k2 (by rw [k3]; simp : S ∈ succs mb)
    rw [newInto_eq hu hinv hd (lt_of_getElem? hsb)] at this
    exact ⟨⟨sb, x, hsb, hx1, hx2⟩, this⟩
  · rintro ⟨k0, k1⟩
    obtain ⟨sb, x, hsb, hx1, hx2⟩ := k0
    have hk : 0 < newInto u.blocks.length st.unit S := by
      rw [newInto_eq hu hinv hd (lt_of_getElem? hsb)]; exact k1
    obtain ⟨m, mb, g1, g2, g3⟩ := exists_new_of_newInto hinv hk
    exact ⟨⟨sb, x, hsb, hx1, hx2⟩, m, mb, g1, g2, g3⟩

/-- C12: `splitCriticalEdges` only appends blocks: on a well-formed unit with `n` blocks
the result has `n` plus the number of critical edges blocks and the same entry; every
label below `n` still denotes a block with the same area index, weight and number of
instructions, which agrees with the block of the input up to the targets of its last
instruction, after the leading landingpad has been replaced by a nop if a critical edge
leads to the block; a successor slot holds a new label if its edge was critical and the
label of the input otherwise. -/
theorem splitCriticalEdges_frame (u : Vunit) (hu : SplitReady u) :
    ∃ N, ∀ fuel, N ≤ fuel → ∃ changed unit1,
      splitCriticalEdges fuel u = .ok (changed, unit1) ∧
      unit1.blocks.length = u.blocks.length + criticalEdges u ∧ unit1.entry = u.entry ∧
      ∀ (i : Nat) (b0 : Vblock), u.blocks[i]? = some b0 →
        ∃ b1, unit1.blocks[i]? = some b1 ∧ b1.area_idx = b0.area_idx ∧
          b1.weight = b0.weight ∧ b1.code.length = b0.code.length ∧
          (LosesLandingpad u i b0 → blank b1 = blank (nopHead b0)) ∧
          (¬ LosesLandingpad u i b0 → blank b1 = blank b0) ∧
          ∀ (j s0 : Nat), (succs b0)[j]? = some s0 →
            ∃ s, (succs b1)[j]? = some s ∧
              ((1 < (succs b0).length ∧ 1 < predCount u s0) →
                u.blocks.length ≤ s ∧ s < unit1.blocks.length) ∧
              (¬ (1 < (succs b0).length ∧ 1 < predCount u s0) → s = s0) := by
  obtain ⟨N, st, unit1, h1, h2, h3, h4⟩ := splitCriticalEdges_run u hu
  refine ⟨N, fun fuel hf => ⟨st.changed, unit1, h1 fuel hf, ?_, ?_, ?_⟩⟩
  · rw [h4.length]; exact length_eq hu h2 h3
  · rw [h4.entry]; exact h2.entry
  · intro i b0 hb0
    obtain ⟨b, hb, hbl⟩ := shape_get h2 hb0
    obtain ⟨b1, hb1, hs1⟩ := cleaned_get h4 hb
    have hslots : ∀ (j s0 : Nat), (succs b0)[j]? = some s0 →
        ∃ s, (succs b1)[j]? = some s ∧
          ((1 < (succs b0).length ∧ 1 < predCount u s0) →
            u.blocks.length ≤ s ∧ s < unit1.blocks.length) ∧
          (¬ (1 < (succs b0).length ∧ 1 < predCount u s0) → s = s0) := by
      intro j s0 hs0
      have hjl : j < (succs b).length := by
        rw [succs_length_of_blank hbl]; exact lt_of_getElem? hs0
      have hs : (succs b)[j]? = some (succs b)[j] := List.getElem?_eq_getElem hjl
      obtain ⟨_, k2, k3, k4⟩ := slot_cases hu h2 h3 hb0 hb hs0 hs
      exact ⟨_, by rw [hs1]; exact hs, fun hc => ⟨k3 hc, by rw [h4.length]; exact k2⟩, k4⟩
    have hiff := mem_catch_iff hu h2 h3 i
    by_cases hc : i ∈ st.catch_blocks
    · obtain ⟨b2, front, tail, g1, g2, g3, g4⟩ := h4.nop i hc
      rw [hb] at g1
      cases g1
      rw [hb1] at g4
      cases g4
      have hb1 : unit1.blocks[i]? =
          some { b with code := { op := .nop, irctx := 0 } :: tail } := hb1
      have hcode : blankCode b.code = blankCode b0.code := by
        have := congrArg Vblock.code hbl
        simpa [blank] using this
      have hlen : b.code.length = b0.code.length := by
        rw [← blankCode_length b.code, hcode, blankCode_length]
      obtain ⟨a1, a2⟩ := area_of_blank hbl
      refine ⟨_, hb1, a1, a2, by rw [← hlen, g2]; rfl, ?_, ?_, hslots⟩
      · intro _
        cases hc0 : b0.code with
        | nil => rw [hc0, g2] at hlen; simp at hlen
        | cons f0 t0 =>
          rw [g2, hc0] at hcode
          have := blankCode_replace_front { op := .nop, irctx := 0 } front f0 tail t0 hcode
          simp [blank, nopHead, hc0, this, a1, a2]
      · intro hn
        exfalso
        apply hn
        obtain ⟨⟨sb, h, k1, k2, k3⟩, k4⟩ := hiff.mp hc
        rw [hb0] at k1
        cases k1
        exact ⟨⟨h, k2, k3⟩, k4⟩
    · have e : unit1.blocks[i]? = st.unit.blocks[i]? := h4.other i hc
      rw [hb1, hb] at e
      cases e
      have hcode : blankCode b.code = blankCode b0.code := by
        have := congrArg Vblock.code hbl
        simpa [blank] using this
      have hlen : b.code.length = b0.code.length := by
        rw [← blankCode_length b.code, hcode, blankCode_length]
      obtain ⟨a1, a2⟩ := area_of_blank hbl
      refine ⟨_, hb1, a1, a2, hlen, ?_, fun _ => hbl, hslots⟩
      intro hl
      exfalso
      apply hc
      obtain ⟨⟨h, k2, k3⟩, k4⟩ := hl
      exact hiff.mpr ⟨⟨b0, h, hb0, k2, k3⟩, k4⟩

theorem splitCriticalEdges_frame_witness :
    SplitReady catchUnit ∧
    ∃ N, ∀ fuel, N ≤ fuel → ∃ changed unit1,
      splitCriticalEdges fuel catchUnit = .ok (changed, unit1) ∧
      unit1.blocks.length = 3 + 1 ∧ unit1.entry = 0 ∧
      ∀ (i : Nat) (b0 : Vblock), catchUnit.blocks[i]? = some b0 →
        ∃ b1, unit1.blocks[i]? = some b1 ∧ b1.area_idx = b0.area_idx ∧
          b1.weight = b0.weight ∧ b1.code.length = b0.code.length ∧
          (LosesLandingpad catchUnit i b0 → blank b1 = blank (nopHead b0)) ∧
          (¬ LosesLandingpad catchUnit i b0 → blank b1 = blank b0) ∧
          ∀ (j s0 : Nat), (succs b0)[j]? = some s0 →
            ∃ s, (succs b1)[j]? = some s ∧
              ((1 < (succs b0).length ∧ 1 < predCount catchUnit s0) →
                catchUnit.blocks.length ≤ s ∧ s < unit1.blocks.length) ∧
              (¬ (1 < (succs b0).length ∧ 1 < predCount catchUnit s0) → s = s0) := by
  refine ⟨catchUnit_ready, ?_⟩
  obtain ⟨N, h⟩ := splitCriticalEdges_frame catchUnit catchUnit_ready
  refine ⟨N, fun fuel hf => ?_⟩
  obtain ⟨changed, unit1, k1, k2, k3, k4⟩ := h fuel hf
  have hk : criticalEdges catchUnit = 1 := by decide
  rw [hk] at k2
  exact ⟨changed, unit1, k1, k2, k3, k4⟩

/-! ## Keys and shape of the loop map -/

/-- The flood fill only appends to `blocks`, and only blocks it had not visited. -/
theorem fillLoop_nodup (preds : List (List Nat)) : ∀ (fuel : Nat) (worklist : List Nat)
    (visited : List Bool) (blocks result : List Nat),
    fillLoop preds fuel worklist visited blocks = .ok result →
    blocks.Nodup → (∀ X ∈ blocks, visited[X]? = some true) →
    result.Nodup ∧ ∃ ext, result = blocks ++ ext := by
  intro fuel
  induction fuel with
  | zero =>
    intro worklist visited blocks result h hnd _
    simp only [fillLoop] at h
    split at h
    · cases h; exact ⟨hnd, [], by simp⟩
    · cases h
  | succ fuel ih =>
    intro worklist visited blocks result h hnd hvis
    cases worklist with
    | nil =>
      simp only [fillLoop] at h
      cases h
      exact ⟨hnd, [], by simp⟩
    | cons block rest =>
      simp only [fillLoop] at h
      cases hv : visited[block]? with
      | none => rw [hv] at h; cases h
      | some v =>
        rw [hv] at h
        cases v with
        | true => exact ih rest visited blocks result h hnd hvis
        | false =>
          simp only at h
          cases hp : preds[block]? with
          | none => rw [hp] at h; cases h
          | some ps =>
            rw [hp] at h
            simp only at h
            have hnot : block ∉ blocks := by
              intro hm
              have := hvis block hm
              rw [hv] at this
              cases this
            obtain ⟨k1, ext, k2⟩ := ih _ _ _ result h
              (by
                rw [List.nodup_append]
                refine ⟨hnd, by simp, ?_⟩
                intro a ha hb
                simp at hb
                subst hb
                exact hnot ha)
              (by
                intro X hX
                rw [List.getElem?_set]
                by_cases hbx : block = X
                · subst hbx
                  have := (List.getElem?_eq_some.mp hv).1
                  simp [this]
                · simp only [hbx, if_false]
                  rcases List.mem_append.mp hX with hm | hm
                  · exact hvis X hm
                  · simp at hm; exact absurd hm.symm hbx)
            exact ⟨k1, [block] ++ ext, by rw [k2]; simp⟩

/-- The blocks returned by `fillBlocks` start with the header and hold no label twice. -/
theorem fillBlocks_shape (fuel : Nat) (unit : Vunit) (preds : List (List Nat)) (H : Nat)
    (tails : List Nat) (blocks : List Nat)
    (h : fillBlocks fuel unit preds H tails = .ok blocks) :
    blocks.head? = some H ∧ blocks.Nodup := by
  unfold fillBlocks at h
  split at h
  · rename_i hH
    obtain ⟨k1, ext, k2⟩ := fillLoop_nodup preds fuel _ _ _ blocks h (by simp)
      (by
        intro X hX
        simp at hX
        subst hX
        rw [List.getElem?_set]
        simp [hH])
    exact ⟨by rw [k2]; rfl, k1⟩
  · cases h

theorem fillAll_shape (fuel : Nat) (unit : Vunit) (preds : List (List Nat)) :
    ∀ (hs loops : List (Nat × List Nat)), fillAll fuel unit preds hs = .ok loops →
      ∀ H blocks, (H, blocks) ∈ loops → blocks.head? = some H ∧ blocks.Nodup := by
  intro hs
  induction hs with
  | nil =>
    intro loops h H blocks hm
    simp only [fillAll] at h
    cases h
    simp at hm
  | cons a hs ih =>
    intro loops h H blocks hm
    obtain ⟨H0, ts⟩ := a
    simp only [fillAll] at h
    cases h1 : fillBlocks fuel unit preds H0 ts with
    | error e => rw [h1] at h; cases h
    | ok bl =>
      rw [h1] at h
      simp only at h
      cases h2 : fillAll fuel unit preds hs with
      | error e => rw [h2] at h; cases h
      | ok m =>
        rw [h2] at h
        simp only at h
        cases h
        rcases List.mem_cons.mp hm with e | hm
        · simp at e
          obtain ⟨rfl, rfl⟩ := e
          exact fillBlocks_shape fuel unit preds _ ts _ h1
        · exact ih m h2 H blocks hm

/-- C13: for a predecessor table and back edges whose labels are labels of the unit,
`findLoopBlocks` ends without fault, given enough fuel, and the map it returns has one
entry for every head of a back edge, no two entries with the same key and no other key;
the blocks of every entry start with its header and hold no label twice. -/
theorem findLoopBlocks_keys (unit : Vunit) (preds : List (List Nat))
    (backEdges : List (Nat × Nat)) (hr : LoopReady unit preds backEdges) :
    ∃ N, ∀ fuel, N ≤ fuel → ∃ loops,
      findLoopBlocks fuel unit preds backEdges = .ok loops ∧
      (loops.map Prod.fst).Nodup ∧
      (∀ H, H ∈ loops.map Prod.fst ↔ ∃ T, (T, H) ∈ backEdges) ∧
      ∀ H blocks, (H, blocks) ∈ loops → blocks.head? = some H ∧ blocks.Nodup := by
  have hg : HeadersOf (fun e => e ∈ backEdges ∨ False) (groupHeaders backEdges []) :=
    groupHeaders_spec backEdges (fun _ => False) []
      ⟨List.nodup_nil, fun _ _ h => by simp at h, fun _ _ h => by simp at h,
        fun _ _ h => h.elim⟩
  have hlabels : ∀ H ts, (H, ts) ∈ groupHeaders backEdges [] →
      H < unit.blocks.length ∧ ∀ T ∈ ts, T < unit.blocks.length := by
    intro H ts hm
    have ht := hg.tails H ts hm
    constructor
    · obtain ⟨T, hT⟩ := hg.keys H ts hm
      simp at hT
      exact (hr.edges _ hT).2
    · intro T hT
      have := (ht T).mp hT
      simp at this
      exact (hr.edges _ this).1
  obtain ⟨N, loops, h1, h2, _⟩ := fillAll_spec unit preds hr.size hr.labels _ hlabels
  refine ⟨N, fun fuel hf => ⟨loops, by simp only [findLoopBlocks]; exact h1 fuel hf, ?_, ?_, ?_⟩⟩
  · rw [h2]; exact hg.nodup
  · intro H
    rw [h2]
    constructor
    · intro hm
      obtain ⟨⟨H1, ts⟩, k1, k2⟩ := List.mem_map.mp hm
      simp at k2
      subst k2
      obtain ⟨T, hT⟩ := hg.keys H1 ts k1
      simp at hT
      exact ⟨T, hT⟩
    · rintro ⟨T, hT⟩
      obtain ⟨ts, hts⟩ := hg.heads T H (Or.inl hT)
      exact List.mem_map.mpr ⟨(H, ts), hts, rfl⟩
  · exact fillAll_shape fuel unit preds _ loops (h1 fuel hf)

theorem loopUnit_ready_twice :
    LoopReady loopUnit [[], [0, 2], [1], [1]] [(2, 1), (2, 1), (1, 1)] where
  size := by decide
  labels := by decide
  edges := by decide

theorem findLoopBlocks_keys_witness :
    LoopReady loopUnit [[], [0, 2], [1], [1]] [(2, 1), (2, 1), (1, 1)] ∧
    findLoopBlocks 6 loopUnit [[], [0, 2], [1], [1]] [(2, 1), (2, 1), (1, 1)] =
      .ok [(1, [1, 2])] ∧
    ∃ N, ∀ fuel, N ≤ fuel → ∃ loops,
      findLoopBlocks fuel loopUnit [[], [0, 2], [1], [1]] [(2, 1), (2, 1), (1, 1)] = .ok loops ∧
      (loops.map Prod.fst).Nodup ∧
      (∀ H, H ∈ loops.map Prod.fst ↔ ∃ T, (T, H) ∈ [(2, 1), (2, 1), (1, 1)]) ∧
      ∀ H blocks, (H, blocks) ∈ loops → blocks.head? = some H ∧ blocks.Nodup :=
  ⟨loopUnit_ready_twice, rfl,
    findLoopBlocks_keys loopUnit [[], [0, 2], [1], [1]] [(2, 1), (2, 1), (1, 1)]
      loopUnit_ready_twice⟩

/-! ## The seeding of the worklist of `findDominators` -/

/-- The worklist `findDominators` starts its loop with is `domSeed`. -/
theorem findDominators_eq_domSeed (fuel : Nat) (unit : Vunit) (rpo : List Nat) :
    findDominators fuel unit rpo =
      if rpo.head? ≠ some unit.entry then .error .assertion
      else
        match computePreds unit with
        | .error e => .error e
        | .ok preds =>
          match fillRpoOrder 0 rpo (List.replicate unit.blocks.length 0) with
          | .error e => .error e
          | .ok rpoOrder =>
            if unit.entry < (List.replicate unit.blocks.length (none : Option Nat)).length then
              match domSeed unit rpo rpoOrder with
              | .error e => .error e
              | .ok worklist =>
                match domLoop unit rpo preds rpoOrder fuel fuel
                    { idom := (List.replicate unit.blocks.length none).set unit.entry
                        (some unit.entry),
                      worklist := worklist } with
                | .error e => .error e
                | .ok idom2 => .ok (idom2.set unit.entry none)
            else .error .undefined := by
  unfold findDominators domSeed
  split
  · rfl
  · cases computePreds unit with
    | error e => rfl
    | ok preds =>
      cases fillRpoOrder 0 rpo (List.replicate unit.blocks.length 0) with
      | error e => rfl
      | ok rpoOrder =>
        simp only
        split
        · cases unit.blocks[0]? with
          | none => rfl
          | some b0 => rfl
        · rfl

/-- C17: on `seedUnit`, whose entry is block 1 with the successor 2, the worklist of
`findDominators` is seeded from block 0, which has no successor: it starts empty, where
the successors of the entry give the position 1, and the slot of block 2 stays none. -/
theorem findDominators_seed_from_block_zero :
    reversePostorder seedUnit = [1, 2] ∧ seedUnit.entry = 1 ∧
    fillRpoOrder 0 [1, 2] (List.replicate seedUnit.blocks.length 0) = .ok [0, 0, 1] ∧
    domSeed seedUnit [1, 2] [0, 0, 1] = .ok [] ∧
    (∃ b, seedUnit.blocks[seedUnit.entry]? = some b ∧ succs b = [2] ∧
      pushSuccs 2 [0, 0, 1] (succs b) [] = .ok [1]) ∧
    findDominators 2 seedUnit [1, 2] = .ok [none, none, none] :=
  ⟨rfl, rfl, rfl, rfl, ⟨_, rfl, rfl, rfl⟩, rfl⟩

/-- C18: on `assertUnit`, whose entry is block 1, with its reverse postorder (the entry
first, then block 2: exactly the reachable blocks), `findDominators` pops the entry,
whose only predecessor is the unreachable block 0 with an unset slot, and fails its
assertion. -/
theorem findDominators_assertion_fails :
    reversePostorder assertUnit = [1, 2] ∧ assertUnit.entry = 1 ∧
    Reachable assertUnit 1 ∧ Reachable assertUnit 2 ∧ ¬ Reachable assertUnit 0 ∧
    computePreds assertUnit = .ok [[], [0], [1]] ∧
    findDominators 2 assertUnit [1, 2] = .error .assertion := by
  refine ⟨rfl, rfl, ⟨[1], rfl, rfl, rfl⟩, ⟨[1, 2], rfl, rfl, rfl⟩, ?_, rfl, rfl⟩
  rintro ⟨path, h1, h2, h3⟩
  -- every path from the entry stays within the blocks 1 and 2
  have key : ∀ (p : List Nat) (a : Nat), (a = 1 ∨ a = 2) → isPath assertUnit (a :: p) = true →
      (a :: p).getLast? ≠ some 0 := by
    intro p
    induction p with
    | nil => intro a ha _ hl; simp at hl; omega
    | cons b p ih =>
      intro a ha hp hl
      simp only [isPath, Bool.and_eq_true] at hp
      have hb : b = 1 ∨ b = 2 := by
        rcases ha with rfl | rfl
        · have := hp.1
          simp [hasEdge, assertUnit, unitOfSuccs, succs, succsOp] at this
          exact Or.inr this
        · have := hp.1
          simp [hasEdge, assertUnit, unitOfSuccs, succs, succsOp] at this
      apply ih b hb hp.2
      rw [List.getLast?_cons_cons] at hl
      exact hl
  cases path with
  | nil => simp at h1
  | cons a p =>
    simp at h1
    exact key p a (Or.inl (by rw [h1]; rfl)) h3 h2

/-! ## The predecessor table and the back edges -/

theorem dominates_mono (idoms : List (Option Nat)) (D : Nat) : ∀ (f : Nat) (B : Nat) (r : Bool),
    dominates f D B idoms = .ok r → ∀ f', f ≤ f' → dominates f' D B idoms = .ok r := by
  intro f
  induction f with
  | zero => intro B r h; simp [dominates] at h
  | succ f ih =>
    intro B r h f' hf
    obtain ⟨g, rfl⟩ : ∃ g, f' = g + 1 := ⟨f' - 1, by omega⟩
    simp only [dominates] at h ⊢
    split at h
    · rename_i hB; simp [hB]; simpa using h
    · rename_i hB
      simp only [hB, if_false]
      cases hi : idoms[B]? with
      | none => rw [hi] at h; cases h
      | some o =>
        rw [hi] at h
        cases o with
        | none => exact h
        | some B' => exact ih B' r h g (by omega)

theorem addPreds_spec (b : Nat) : ∀ (ss : List Nat) (preds preds1 : List (List Nat)),
    addPreds b ss preds = .ok preds1 →
    preds1.length = preds.length ∧
    ∀ Y X : Nat, X ∈ (preds1[Y]?).getD [] → X ∈ (preds[Y]?).getD [] ∨ (X = b ∧ Y ∈ ss) := by
  intro ss
  induction ss with
  | nil =>
    intro preds preds1 h
    simp only [addPreds] at h
    cases h
    exact ⟨rfl, fun Y X hX => Or.inl hX⟩
  | cons s ss ih =>
    intro preds preds1 h
    simp only [addPreds] at h
    cases hs : preds[s]? with
    | none => rw [hs] at h; cases h
    | some ps =>
      rw [hs] at h
      obtain ⟨k1, k2⟩ := ih _ _ h
      refine ⟨by rw [k1]; simp, ?_⟩
      intro Y X hX
      rcases k2 Y X hX with g | ⟨g1, g2⟩
      · rw [List.getElem?_set] at g
        by_cases hsY : s = Y
        · subst hsY
          have hl := (List.getElem?_eq_some.mp hs).1
          simp [hl] at g
          rcases g with g | g
          · left; rw [hs]; exact g
          · right; exact ⟨g, List.mem_cons_self _ _⟩
        · simp only [hsY, if_false] at g
          exact Or.inl g
      · exact Or.inr ⟨g1, List.mem_cons_of_mem _ g2⟩

theorem computePredsFrom_spec : ∀ (blocks : List Vblock) (b : Nat) (preds preds1 : List (List Nat)),
    computePredsFrom b blocks preds = .ok preds1 →
    preds1.length = preds.length ∧
    ∀ Y X : Nat, X ∈ (preds1[Y]?).getD [] → X ∈ (preds[Y]?).getD [] ∨
      ∃ (i : Nat) (blk : Vblock), blocks[i]? = some blk ∧ X = b + i ∧ Y ∈ succs blk := by
  intro blocks
  induction blocks with
  | nil =>
    intro b preds preds1 h
    simp only [computePredsFrom] at h
    cases h
    exact ⟨rfl, fun Y X hX => Or.inl hX⟩
  | cons blk rest ih =>
    intro b preds preds1 h
    simp only [computePredsFrom] at h
    cases h1 : addPreds b (succs blk) preds with
    | error e => rw [h1] at h; cases h
    | ok preds2 =>
      rw [h1] at h
      obtain ⟨a1, a2⟩ := addPreds_spec b _ _ _ h1
      obtain ⟨k1, k2⟩ := ih _ _ _ h
      refine ⟨by rw [k1, a1], ?_⟩
      intro Y X hX
      rcases k2 Y X hX with g | ⟨i, blk2, g1, g2, g3⟩
      · rcases a2 Y X g with g | ⟨g1, g2⟩
        · exact Or.inl g
        · exact Or.inr ⟨0, blk, by simp, by omega, g2⟩
      · exact Or.inr ⟨i + 1, blk2, by simpa using g1, by omega, g3⟩

/-- The predecessor table has one list per block, and lists only sources of edges. -/
theorem computePreds_spec (unit : Vunit) (preds : List (List Nat))
    (h : computePreds unit = .ok preds) :
    preds.length = unit.blocks.length ∧
    ∀ Y X : Nat, X ∈ (preds[Y]?).getD [] → X < unit.blocks.length ∧ hasEdge unit X Y = true := by
  obtain ⟨k1, k2⟩ := computePredsFrom_spec _ _ _ _ h
  refine ⟨by rw [k1]; simp, ?_⟩
  intro Y X hX
  rcases k2 Y X hX with g | ⟨i, blk, g1, g2, g3⟩
  · rw [List.getElem?_replicate] at g
    split at g <;> simp at g
  · have hi := (List.getElem?_eq_some.mp g1).1
    refine ⟨by omega, ?_⟩
    have : X = i := by omega
    subst this
    simp [hasEdge, g1, g3]

theorem backEdgesOf_spec (fuel : Nat) (idoms : List (Option Nat)) (seen : List Bool) (b : Nat) :
    ∀ (ss : List Nat) (acc out : List (Nat × Nat)),
    backEdgesOf fuel idoms seen b ss acc = .ok out →
    ∀ e ∈ out, e ∈ acc ∨
      (e.1 = b ∧ e.2 < seen.length ∧ dominates fuel e.2 b idoms = .ok true) := by
  intro ss
  induction ss with
  | nil =>
    intro acc out h e he
    simp only [backEdgesOf] at h
    cases h
    exact Or.inl he
  | cons s ss ih =>
    intro acc out h e he
    simp only [backEdgesOf] at h
    cases hs : seen[s]? with
    | none => rw [hs] at h; cases h
    | some v =>
      rw [hs] at h
      cases v with
      | false => exact ih _ _ h e he
      | true =>
        simp only at h
        cases hd : dominates fuel s b idoms with
        | error x => rw [hd] at h; cases h
        | ok r =>
          rw [hd] at h
          cases r with
          | false => exact ih _ _ h e he
          | true =>
            rcases ih _ _ h e he with g | g
            · rcases List.mem_append.mp g with g | g
              · exact Or.inl g
              · simp at g
                subst g
                exact Or.inr ⟨rfl, (List.getElem?_eq_some.mp hs).1, hd⟩
            · exact Or.inr g

theorem backEdgesLoop_spec (fuel : Nat) (unit : Vunit) (idoms : List (Option Nat)) :
    ∀ (rpo : List Nat) (seen : List Bool) (acc out : List (Nat × Nat)),
    backEdgesLoop fuel unit idoms rpo seen acc = .ok out →
    ∀ e ∈ out, e ∈ acc ∨
      (e.1 < unit.blocks.length ∧ e.2 < seen.length ∧
        dominates fuel e.2 e.1 idoms = .ok true) := by
  intro rpo
  induction rpo with
  | nil =>
    intro seen acc out h e he
    simp only [backEdgesLoop] at h
    cases h
    exact Or.inl he
  | cons b rest ih =>
    intro seen acc out h e he
    simp only [backEdgesLoop] at h
    cases hb : unit.blocks[b]? with
    | none => rw [hb] at h; cases h
    | some blk =>
      rw [hb] at h
      simp only at h
      cases h1 : backEdgesOf fuel idoms (seen.set b true) b (succs blk) acc with
      | error x => rw [h1] at h; cases h
      | ok acc1 =>
        rw [h1] at h
        simp only at h
        rcases ih _ _ _ h e he with g | ⟨g1, g2, g3⟩
        · rcases backEdgesOf_spec fuel idoms _ b _ _ _ h1 e g with g | ⟨g1, g2, g3⟩
          · exact Or.inl g
          · refine Or.inr ⟨by rw [g1]; exact (List.getElem?_eq_some.mp hb).1,
              by simpa using g2, by rw [g1]; exact g3⟩
        · exact Or.inr ⟨g1, by simpa using g2, g3⟩

/-- Every edge `findBackEdges` returns joins two blocks of the unit, and `dominates` is
true of its head and its tail. -/
theorem findBackEdges_spec (fuel : Nat) (unit : Vunit) (rpo : List Nat)
    (idoms : List (Option Nat)) (backEdges : List (Nat × Nat))
    (h : findBackEdges fuel unit rpo idoms = .ok backEdges) :
    ∀ e ∈ backEdges, e.1 < unit.blocks.length ∧ e.2 < unit.blocks.length ∧
      dominates fuel e.2 e.1 idoms = .ok true := by
  intro e he
  rcases backEdgesLoop_spec fuel unit idoms rpo _ [] backEdges h e he with g | ⟨g1, g2, g3⟩
  · simp at g
  · exact ⟨g1, by simpa using g2, g3⟩

/-! ## Loop members and the dominator chain of their header -/

theorem chainHas_self (idoms : List (Option Nat)) (D : Nat) : ChainHas idoms D D :=
  ⟨1, by simp [dominates]⟩

theorem chainHas_link {idoms : List (Option Nat)} {D B B' : Nat}
    (hl : idoms[B]? = some (some B')) (h : ChainHas idoms D B') : ChainHas idoms D B := by
  obtain ⟨f, hf⟩ := h
  refine ⟨f + 1, ?_⟩
  simp only [dominates]
  split
  · rfl
  · rw [hl]; exact hf

theorem chainHas_cases {idoms : List (Option Nat)} {D B : Nat} (h : ChainHas idoms D B) :
    D = B ∨ ∃ B', idoms[B]? = some (some B') ∧ ChainHas idoms D B' := by
  obtain ⟨f, hf⟩ := h
  cases f with
  | zero => simp [dominates] at hf
  | succ f =>
    simp only [dominates] at hf
    split at hf
    · rename_i hB; exact Or.inl hB.symm
    · cases hi : idoms[B]? with
      | none => rw [hi] at hf; cases hf
      | some o =>
        rw [hi] at hf
        cases o with
        | none => simp at hf
        | some B' => exact Or.inr ⟨B', rfl, f, hf⟩

theorem backReach_ne {preds : List (List Nat)} {H T X : Nat} (h : BackReach preds H T X) :
    X ≠ H := by
  cases h with
  | start h0 => exact h0
  | step _ _ h0 => exact h0

/-- With dominator links that are closed along the edges, what is reached backwards from
the tail of a back edge without passing through its head has the head on its chain. -/
theorem chainHas_of_backReach {unit : Vunit} {idoms : List (Option Nat)}
    {preds : List (List Nat)}
    (hedge : ∀ Y X : Nat, X ∈ (preds[Y]?).getD [] → hasEdge unit X Y = true)
    (hc : EdgeClosed unit idoms) {H T X : Nat} (hT : ChainHas idoms H T)
    (h : BackReach preds H T X) : ChainHas idoms H X := by
  induction h with
  | start _ => exact hT
  | step hY hX _ ih =>
    exact hc _ _ H (hedge _ _ hX) (fun e => backReach_ne hY e.symm) ih

/-- The run of `findLoopBlocks`: every block of an entry is the header or is reached
backwards from the tail of one of its back edges without passing through the header. -/
theorem findLoopBlocks_reach (unit : Vunit) (preds : List (List Nat))
    (backEdges : List (Nat × Nat)) (hr : LoopReady unit preds backEdges) :
    ∃ N, ∀ fuel, N ≤ fuel → ∃ loops,
      findLoopBlocks fuel unit preds backEdges = .ok loops ∧
      ∀ H blocks, (H, blocks) ∈ loops → ∀ X ∈ blocks,
        X = H ∨ ∃ T, (T, H) ∈ backEdges ∧ BackReach preds H T X := by
  have hg : HeadersOf (fun e => e ∈ backEdges ∨ False) (groupHeaders backEdges []) :=
    groupHeaders_spec backEdges (fun _ => False) []
      ⟨List.nodup_nil, fun _ _ h => by simp at h, fun _ _ h => by simp at h,
        fun _ _ h => h.elim⟩
  have hlabels : ∀ H ts, (H, ts) ∈ groupHeaders backEdges [] →
      H < unit.blocks.length ∧ ∀ T ∈ ts, T < unit.blocks.length := by
    intro H ts hm
    have ht := hg.tails H ts hm
    constructor
    · obtain ⟨T, hT⟩ := hg.keys H ts hm
      simp at hT
      exact (hr.edges _ hT).2
    · intro T hT
      have := (ht T).mp hT
      simp at this
      exact (hr.edges _ this).1
  obtain ⟨N, loops, h1, _, h3⟩ := fillAll_spec unit preds hr.size hr.labels _ hlabels
  refine ⟨N, fun fuel hf => ⟨loops, by simp only [findLoopBlocks]; exact h1 fuel hf, ?_⟩⟩
  intro H blocks hm X hX
  obtain ⟨ts, m1, m2⟩ := h3 H blocks hm
  rcases (m2 X).mp hX with e | ⟨T, hT, hbr⟩
  · exact Or.inl e
  · have := (hg.tails H ts m1 T).mp hT
    simp at this
    exact Or.inr ⟨T, this, hbr⟩

/-- C19, at a concrete unit: on `strayUnit`, with its reverse postorder, the dominators
`findDominators` returns, the back edges `findBackEdges` returns and the predecessor
table, the loop of the header 0 holds the block 2, and `dominates(0, 2)` is false. -/
theorem findLoopBlocks_member_not_dominated :
    reversePostorder strayUnit = [0, 1] ∧
    findDominators 4 strayUnit [0, 1] = .ok [none, some 0, none] ∧
    findBackEdges 4 strayUnit [0, 1] [none, some 0, none] = .ok [(1, 0)] ∧
    computePreds strayUnit = .ok [[1], [0, 2], []] ∧
    findLoopBlocks 4 strayUnit [[1], [0, 2], []] [(1, 0)] = .ok [(0, [0, 1, 2])] ∧
    dominates 4 0 2 [none, some 0, none] = .ok false :=
  ⟨rfl, rfl, rfl, rfl, rfl, rfl⟩

/-- C19, amended: for the predecessor table of the unit, the back edges `findBackEdges`
returns for a dominator vector `idoms`, and `idoms` closed along the edges of the unit
(what is on the chain of a block, other than the block, is on the chain of each of its
predecessors), `findLoopBlocks` ends without fault, given enough fuel, and
`dominates(H, M, idoms)` is true of every block `M` of the entry of a header `H`. -/
theorem findLoopBlocks_dominated (unit : Vunit) (rpo : List Nat) (idoms : List (Option Nat))
    (preds : List (List Nat)) (backEdges : List (Nat × Nat)) (fuel0 : Nat)
    (hp : computePreds unit = .ok preds)
    (hb : findBackEdges fuel0 unit rpo idoms = .ok backEdges)
    (hc : EdgeClosed unit idoms) :
    ∃ N, ∀ fuel, N ≤ fuel → ∃ loops,
      findLoopBlocks fuel unit preds backEdges = .ok loops ∧
      ∀ H blocks M, (H, blocks) ∈ loops → M ∈ blocks →
        ∃ K, ∀ f, K ≤ f → dominates f H M idoms = .ok true := by
  obtain ⟨hs, hedge⟩ := computePreds_spec unit preds hp
  have hbe := findBackEdges_spec fuel0 unit rpo idoms backEdges hb
  have hr : LoopReady unit preds backEdges :=
    { size := hs
      labels := by
        intro ps hps p hp
        obtain ⟨Y, hY⟩ := List.mem_iff_getElem?.mp hps
        exact (hedge Y p (by rw [hY]; exact hp)).1
      edges := fun e he => ⟨(hbe e he).1, (hbe e he).2.1⟩ }
  obtain ⟨N, h⟩ := findLoopBlocks_reach unit preds backEdges hr
  refine ⟨N, fun fuel hf => ?_⟩
  obtain ⟨loops, k1, k2⟩ := h fuel hf
  refine ⟨loops, k1, ?_⟩
  intro H blocks M hm hM
  have hch : ChainHas idoms H M := by
    rcases k2 H blocks hm M hM with e | ⟨T, hT, hbr⟩
    · rw [e]; exact chainHas_self idoms H
    · exact chainHas_of_backReach (fun Y X hX => (hedge Y X hX).2) hc
        ⟨fuel0, (hbe _ hT).2.2⟩ hbr
  obtain ⟨K, hK⟩ := hch
  exact ⟨K, fun f hf => dominates_mono idoms H K M true hK f hf⟩

theorem loopUnit_edgeClosed : EdgeClosed loopUnit [none, some 0, some 1, some 1] := by
  intro X Y D he hne hch
  have h21 : ([none, some 0, some 1, some 1] : List (Option Nat))[2]? = some (some 1) := rfl
  have h31 : ([none, some 0, some 1, some 1] : List (Option Nat))[3]? = some (some 1) := rfl
  have h10 : ([none, some 0, some 1, some 1] : List (Option Nat))[1]? = some (some 0) := rfl
  -- what is on the chain of 1, other than 1, is the entry
  have up1 : ∀ D, D ≠ 1 → ChainHas [none, some 0, some 1, some 1] D 1 → D = 0 := by
    intro D hD h
    rcases chainHas_cases h with e | ⟨B', e1, e2⟩
    · exact absurd e hD
    · rw [h10] at e1
      cases e1
      rcases chainHas_cases e2 with e | ⟨B', e1, _⟩
      · exact e
      · simp at e1
  match X, he with
  | 0, he =>
    simp [hasEdge, loopUnit, unitOfSuccs, succs, succsOp] at he
    subst he
    rw [up1 D hne hch]
    exact chainHas_self _ 0
  | 1, he =>
    simp [hasEdge, loopUnit, unitOfSuccs, succs, succsOp] at he
    rcases he with rfl | rfl
    · rcases chainHas_cases hch with e | ⟨B', e1, e2⟩
      · exact absurd e hne
      · rw [h21] at e1; cases e1; exact e2
    · rcases chainHas_cases hch with e | ⟨B', e1, e2⟩
      · exact absurd e hne
      · rw [h31] at e1; cases e1; exact e2
  | 2, he =>
    simp [hasEdge, loopUnit, unitOfSuccs, succs, succsOp] at he
    subst he
    rw [up1 D hne hch]
    exact chainHas_link h21 (chainHas_link h10 (chainHas_self _ 0))
  | 3, he => simp [hasEdge, loopUnit, unitOfSuccs, succs, succsOp] at he
  | n + 4, he => simp [hasEdge, loopUnit, unitOfSuccs] at he

theorem findLoopBlocks_dominated_witness :
    reversePostorder loopUnit = [0, 1, 3, 2] ∧
    findDominators 4 loopUnit [0, 1, 3, 2] = .ok [none, some 0, some 1, some 1] ∧
    computePreds loopUnit = .ok [[], [0, 2], [1], [1]] ∧
    findBackEdges 4 loopUnit [0, 1, 3, 2] [none, some 0, some 1, some 1] = .ok [(2, 1)] ∧
    EdgeClosed loopUnit [none, some 0, some 1, some 1] ∧
    ∃ N, ∀ fuel, N ≤ fuel → ∃ loops,
      findLoopBlocks fuel loopUnit [[], [0, 2], [1], [1]] [(2, 1)] = .ok loops ∧
      ∀ H blocks M, (H, blocks) ∈ loops → M ∈ blocks →
        ∃ K, ∀ f, K ≤ f → dominates f H M [none, some 0, some 1, some 1] = .ok true :=
  ⟨rfl, rfl, rfl, rfl, loopUnit_edgeClosed,
    findLoopBlocks_dominated loopUnit [0, 1, 3, 2] [none, some 0, some 1, some 1]
      [[], [0, 2], [1], [1]] [(2, 1)] 4 rfl rfl loopUnit_edgeClosed⟩

/-! ## Updates of a dominator slot -/

/-- C16, at a concrete unit: on `entryLoopUnit`, with its reverse postorder `[0, 1]`, the
second iteration of the worklist loop of `findDominators` pops the entry and overwrites
its slot, which holds block 0 (position 0), with block 1 (position 1). -/
theorem domStep_moves_slot_later :
    reversePostorder entryLoopUnit = [0, 1] ∧
    computePreds entryLoopUnit = .ok [[1], [0]] ∧
    fillRpoOrder 0 [0, 1] (List.replicate entryLoopUnit.blocks.length 0) = .ok [0, 1] ∧
    domSeed entryLoopUnit [0, 1] [0, 1] = .ok [1] ∧
    domStep 2 entryLoopUnit [0, 1] [[1], [0]] [0, 1] [some 0, none] 1 [] =
      .ok { idom := [some 0, some 0], worklist := [0] } ∧
    domStep 2 entryLoopUnit [0, 1] [[1], [0]] [0, 1] [some 0, some 0] 0 [] =
      .ok { idom := [some 1, some 0], worklist := [1] } ∧
    findDominators 4 entryLoopUnit [0, 1] = .ok [none, some 0] :=
  ⟨rfl, rfl, rfl, rfl, rfl, rfl, rfl⟩

end HPHP.jit
